import Mathlib

/-!
Verification development for the Obsidian "Publish to Google Docs" plugin.

The definitions below are a shallow embedding, over `List Char`, of the
plugin's pure string-processing core:

* `converter.ts` — placeholder extraction/restoration for fenced and inline
  code, display and inline LaTeX math, and image embeds; HTML escaping;
  math restoration; image processing and restoration; SVG raster-dimension
  planning; `cleanHtmlForGoogleDocs`.
* `toc.ts` — heading parsing, TOC building and injection.
* `docx-builder.ts` — the inline DOM walker and the block converter backing
  `htmlToDocx`.

JavaScript strings are embedded as `List Char`.  Each regex used by the
source is specialised to a hand-written scanner with the same
leftmost-match, lazy/greedy and lookaround semantics on the inputs the
theorems speak about.  Browser/Electron collaborators (vault access,
canvas rasterization, network fetch, the markdown renderer) enter as
explicit oracle parameters, mirroring the interfaces in the spec.
All functions are fuel-structural so that they evaluate by `decide`/`rfl`.
-/

set_option maxRecDepth 10000

namespace PubGD

/-- Character strings, embedded as lists of characters. -/
abbrev Str := List Char

/-- JavaScript `\s` (ASCII fragment: space, tab, newline, CR, VT, FF). -/
def jsWS (c : Char) : Bool :=
  c = ' ' || c = '\t' || c = '\n' || c = '\r' || c = Char.ofNat 11 || c = Char.ofNat 12

/-- JavaScript `String.prototype.trim` (over the modelled whitespace set). -/
def jsTrim (s : Str) : Str :=
  ((s.dropWhile jsWS).reverse.dropWhile jsWS).reverse

/-- Decimal digit characters of a natural number (fuel-structural so it
evaluates in the kernel); mirrors the JS number-to-string interpolation
used to build placeholders. -/
def natCharsGo : Nat → Nat → Str
  | 0, _ => []
  | f + 1, n =>
    if n < 10 then [Nat.digitChar n]
    else natCharsGo f (n / 10) ++ [Nat.digitChar (n % 10)]

/-- Decimal representation of a natural number as characters. -/
def natChars (n : Nat) : Str := natCharsGo (n + 1) n

/-- Decimal value of a digit string (left fold); inverse of `natChars`. -/
def charsVal (s : Str) : Nat := s.foldl (fun a c => a * 10 + (c.toNat - 48)) 0

/-- A placeholder token: the fixed prefix `GDOCS_`, a two-letter kind, and a
decimal index, exactly as interpolated by the source. -/
def phTok (kind : Str) (i : Nat) : Str := ("GDOCS_".data) ++ kind ++ natChars i

/-- Placeholder for fenced code blocks: `GDOCS_CB{i}`. -/
def phCB (i : Nat) : Str := phTok ("CB".data) i

/-- Placeholder for inline code: `GDOCS_CI{i}`. -/
def phCI (i : Nat) : Str := phTok ("CI".data) i

/-- Placeholder for display math: `GDOCS_MD{i}`. -/
def phMD (i : Nat) : Str := phTok ("MD".data) i

/-- Placeholder for inline math: `GDOCS_MI{i}`. -/
def phMI (i : Nat) : Str := phTok ("MI".data) i

/-- Placeholder for image embeds: `GDOCS_IM{i}`. -/
def phIM (i : Nat) : Str := phTok ("IM".data) i

/-- `result.split(pat).join(rep)` — replace every occurrence of `pat`,
scanning left to right without rescanning replacements.  (The source only
ever calls it with non-empty `pat`; for `pat = []` this is the identity.)
Fuel-structural: `replaceAllGo` consumes at least one character per step. -/
def replaceAllGo (pat rep : Str) : Nat → Str → Str
  | 0, s => s
  | _ + 1, [] => []
  | f + 1, c :: cs =>
    if pat ≠ [] ∧ pat.isPrefixOf (c :: cs) then
      rep ++ replaceAllGo pat rep f ((c :: cs).drop pat.length)
    else
      c :: replaceAllGo pat rep f cs

/-- Replace every occurrence of `pat` in `s` by `rep` (split/join). -/
def replaceAll (pat rep s : Str) : Str := replaceAllGo pat rep s.length s

/-- Split `s` at the first occurrence of `pat`: returns `(pre, post)` with
`s = pre ++ pat ++ post` and `pre` minimal, or `none` when `pat` does not
occur.  (Only used with non-empty `pat`.) -/
def splitFirstGo (pat : Str) : Nat → Str → Option (Str × Str)
  | 0, _ => none
  | _ + 1, [] => if pat = [] then some ([], []) else none
  | f + 1, c :: cs =>
    if pat.isPrefixOf (c :: cs) then some ([], (c :: cs).drop pat.length)
    else
      match splitFirstGo pat f cs with
      | some (pre, post) => some (c :: pre, post)
      | none => none

/-- First-occurrence split of `s` on `pat`. -/
def splitFirst (pat s : Str) : Option (Str × Str) := splitFirstGo pat (s.length + 1) s

/-- One extraction record: a placeholder and the exact original substring it
replaced (the `Extraction` interface of `converter.ts`). -/
structure Rec where
  ph : Str
  orig : Str
deriving DecidableEq, Repr

/-- A decomposition of a scanned string into literal (non-matched) runs and
matched extraction records; rendering with placeholders gives the cleaned
text, rendering with originals gives the input text. -/
inductive Seg where
  | plain : Str → Seg
  | tok : Rec → Seg
deriving DecidableEq, Repr

/-- Render a decomposition with each record replaced by its placeholder
(the "cleaned" text produced by an extraction pass). -/
def renderC : List Seg → Str
  | [] => []
  | Seg.plain s :: d => s ++ renderC d
  | Seg.tok r :: d => r.ph ++ renderC d

/-- Render a decomposition with each record replaced by its original
(the input text of an extraction pass). -/
def renderO : List Seg → Str
  | [] => []
  | Seg.plain s :: d => s ++ renderO d
  | Seg.tok r :: d => r.orig ++ renderO d

/-- The records of a decomposition, in creation (left-to-right) order. -/
def recsOf : List Seg → List Rec
  | [] => []
  | Seg.plain _ :: d => recsOf d
  | Seg.tok r :: d => r :: recsOf d

/-- Three backticks — the fence delimiter of `/```[\s\S]*?```/`. -/
def fence3 : Str := List.replicate 3 (Char.ofNat 96)

/-- The backtick character. -/
def btick : Char := Char.ofNat 96

/-- Scanner for `/```[\s\S]*?```/g` (fenced code blocks): at each position,
an opening fence followed by the lazily-nearest closing fence is a match;
an opening fence with no closing fence anywhere matches nothing further
(no later match can exist, since any later closing pair would itself be an
occurrence of the fence in the remaining text). -/
def scanFenced (cnt : Nat) : Nat → Str → List Seg
  | 0, s => [Seg.plain s]
  | _ + 1, [] => []
  | f + 1, c :: cs =>
    if fence3.isPrefixOf (c :: cs) then
      match splitFirst fence3 ((c :: cs).drop 3) with
      | some (inner, rest) =>
        Seg.tok ⟨phCB cnt, fence3 ++ inner ++ fence3⟩ :: scanFenced (cnt + 1) f rest
      | none => [Seg.plain (c :: cs)]
    else
      Seg.plain [c] :: scanFenced cnt f cs

/-- Scanner for ``/`[^`\n]+`/g`` (inline code): a backtick, a non-empty run
of characters other than backtick/newline, and a closing backtick. -/
def scanInlineCode (cnt : Nat) : Nat → Str → List Seg
  | 0, s => [Seg.plain s]
  | _ + 1, [] => []
  | f + 1, c :: cs =>
    if c = btick then
      let run := cs.takeWhile (fun ch => ch ≠ btick && ch ≠ '\n')
      if run ≠ [] ∧ (cs.drop run.length).head? = some btick then
        Seg.tok ⟨phCI cnt, btick :: run ++ [btick]⟩ ::
          scanInlineCode (cnt + 1) f (cs.drop (run.length + 1))
      else
        Seg.plain [c] :: scanInlineCode cnt f cs
    else
      Seg.plain [c] :: scanInlineCode cnt f cs

/-- `extractCodeBlocks` of `converter.ts`: first replace fenced code blocks
with `GDOCS_CB{i}` placeholders, then replace inline code spans in the
result with `GDOCS_CI{i}` placeholders; one shared counter (the running
length of `blocks`).  Returns the cleaned text and the records. -/
def extractCodeBlocks (md : Str) : Str × List Rec :=
  let d1 := scanFenced 0 (md.length + 1) md
  let c1 := renderC d1
  let d2 := scanInlineCode (recsOf d1).length (c1.length + 1) c1
  (renderC d2, recsOf d1 ++ recsOf d2)

/-- `restoreExtractions` of `converter.ts`: substitute each record's
original for its placeholder, iterating the record list from the last
record down to the first (a right fold). -/
def restoreExtractions (text : Str) (extractions : List Rec) : Str :=
  extractions.foldr (fun r acc => replaceAll r.ph r.orig acc) text

/-- A math extraction record (`MathExtraction` in `converter.ts`):
placeholder, exact original, display flag, and delimiter-stripped
trimmed LaTeX source. -/
structure MathRec where
  ph : Str
  orig : Str
  isDisplay : Bool
  latex : Str
deriving DecidableEq, Repr

/-- Forget the math payload, keeping the base extraction record. -/
def MathRec.toRec (m : MathRec) : Rec := ⟨m.ph, m.orig⟩

/-- Decomposition segments for the math scanners. -/
inductive MSeg where
  | plain : Str → MSeg
  | tok : MathRec → MSeg
deriving DecidableEq, Repr

/-- Project a math decomposition to a base decomposition. -/
def msegs (d : List MSeg) : List Seg :=
  d.map (fun s => match s with
    | MSeg.plain t => Seg.plain t
    | MSeg.tok m => Seg.tok m.toRec)

/-- Cleaned text of a math decomposition. -/
def renderCM (d : List MSeg) : Str := renderC (msegs d)

/-- The math records of a decomposition in order. -/
def mrecsOf : List MSeg → List MathRec
  | [] => []
  | MSeg.plain _ :: d => mrecsOf d
  | MSeg.tok m :: d => m :: mrecsOf d

/-- The two-dollar delimiter of display math. -/
def dd : Str := "$$".data

/-- Scanner for `/\$\$([\s\S]+?)\$\$/g` (display math): `$$`, a non-empty
lazy body, `$$`.  When an opening `$$` has no closing `$$` anywhere after
it, no further match can exist in the remainder. -/
def scanMathDisplay (cnt : Nat) : Nat → Str → List MSeg
  | 0, s => [MSeg.plain s]
  | _ + 1, [] => []
  | f + 1, c :: cs =>
    if dd.isPrefixOf (c :: cs) then
      match (c :: cs).drop 2 with
      | [] => [MSeg.plain (c :: cs)]
      | r0 :: rtail =>
        match splitFirst dd rtail with
        | some (pre, post) =>
          MSeg.tok ⟨phMD cnt, dd ++ (r0 :: pre) ++ dd, true, jsTrim (r0 :: pre)⟩ ::
            scanMathDisplay (cnt + 1) f post
        | none => [MSeg.plain (c :: cs)]
    else
      MSeg.plain [c] :: scanMathDisplay cnt f cs

/-- Opening-side constraints of the inline-math regex at a position whose
character is `c`, preceded by `prev` and followed by `cs`: the opening
lookbehind `(?<!\$)` and the opening lookahead `(?!\$|\s)`. -/
def mathOpenOk (prev : Option Char) (c : Char) (cs : Str) : Bool :=
  c = '$' && prev ≠ some '$' &&
    (match cs.head? with
     | some h0 => h0 ≠ '$' && !jsWS h0
     | none => false)

/-- Closing-side constraints of the inline-math regex: a closing `$` right
after the body run, a non-whitespace final body character (the closing
lookbehind), and no `$` after the closing one (the closing lookahead). -/
def mathCloseOk (run cs : Str) : Bool :=
  (cs.drop run.length).head? = some '$' &&
    (match run.getLast? with
     | some l => !jsWS l
     | none => false) &&
    (cs.drop (run.length + 1)).head? ≠ some '$'

/-- Scanner for `/(?<!\$)\$(?!\$|\s)([^$\n]+?)(?<!\s)\$(?!\$)/g` (inline
math).  `prev` is the character immediately before the current position in
the scanned string (for the opening lookbehind).  The lazy body cannot
contain `$` or a newline, so the only closing candidate is the first `$`
after the opening one. -/
def scanMathInline (cnt : Nat) : Nat → Option Char → Str → List MSeg
  | 0, _, s => [MSeg.plain s]
  | _ + 1, _, [] => []
  | f + 1, prev, c :: cs =>
    if mathOpenOk prev c cs then
      let run := cs.takeWhile (fun ch => ch ≠ '$' && ch ≠ '\n')
      if mathCloseOk run cs then
        MSeg.tok ⟨phMI cnt, '$' :: run ++ ['$'], false, jsTrim run⟩ ::
          scanMathInline (cnt + 1) f (some '$') (cs.drop (run.length + 1))
      else
        MSeg.plain [c] :: scanMathInline cnt f (some c) cs
    else
      MSeg.plain [c] :: scanMathInline cnt f (some c) cs

/-- `extractMath` of `converter.ts`: display math first, then inline math
on the result, sharing one counter (`math.length`).  Returns the cleaned
text and the math records. -/
def extractMath (md : Str) : Str × List MathRec :=
  let d1 := scanMathDisplay 0 (md.length + 1) md
  let c1 := renderCM d1
  let d2 := scanMathInline (mrecsOf d1).length (c1.length + 1) none c1
  (renderCM d2, mrecsOf d1 ++ mrecsOf d2)

/-- `escapeHtml` of `converter.ts`: four chained global replacements. -/
def escapeHtml (text : Str) : Str :=
  replaceAll ("\"".data) ("&quot;".data)
    (replaceAll (">".data) ("&gt;".data)
      (replaceAll ("<".data) ("&lt;".data)
        (replaceAll ("&".data) ("&amp;".data) text)))

/-- The replacement text `restoreMathInHtml` substitutes for a record's
placeholder: the HTML-escaped LaTeX wrapped in `\[ \]` (display) or
`\( \)` (inline). -/
def wrapMath (m : MathRec) : Str :=
  if m.isDisplay then ("\\[".data) ++ escapeHtml m.latex ++ ("\\]".data)
  else ("\\(".data) ++ escapeHtml m.latex ++ ("\\)".data)

/-- `restoreMathInHtml` of `converter.ts`: for each math record in creation
order, replace every occurrence of its placeholder by the wrapped escaped
LaTeX (a left fold of split/join substitutions). -/
def restoreMathInHtml (html : Str) (math : List MathRec) : Str :=
  math.foldl (fun res m => replaceAll m.ph (wrapMath m) res) html

/-- An image extraction record (`ImageExtraction` in `converter.ts`). -/
structure ImageRec where
  ph : Str
  orig : Str
  vaultPath : Str
  alt : Str
  width : Option Str
  isSvg : Bool
deriving DecidableEq, Repr

/-- Forget the image payload, keeping the base extraction record. -/
def ImageRec.toRec (m : ImageRec) : Rec := ⟨m.ph, m.orig⟩

/-- Decomposition segments for the image scanners. -/
inductive ISeg where
  | plain : Str → ISeg
  | tok : ImageRec → ISeg
deriving DecidableEq, Repr

/-- Project an image decomposition to a base decomposition. -/
def isegs (d : List ISeg) : List Seg :=
  d.map (fun s => match s with
    | ISeg.plain t => Seg.plain t
    | ISeg.tok m => Seg.tok m.toRec)

/-- Cleaned text of an image decomposition. -/
def renderCI (d : List ISeg) : Str := renderC (isegs d)

/-- The image records of a decomposition in order. -/
def irecsOf : List ISeg → List ImageRec
  | [] => []
  | ISeg.plain _ :: d => irecsOf d
  | ISeg.tok m :: d => m :: irecsOf d

/-- ASCII lower-casing (the fragment of `toLowerCase` the sources rely on). -/
def asciiLower (c : Char) : Char :=
  if 'A' ≤ c ∧ c ≤ 'Z' then Char.ofNat (c.toNat + 32) else c

/-- Lower-case a string (ASCII model of `String.prototype.toLowerCase`). -/
def lowerStr (s : Str) : Str := s.map asciiLower

/-- `path.toLowerCase().endsWith('.svg')`. -/
def endsSvg (s : Str) : Bool := (".svg".data).isSuffixOf (lowerStr s)

/-- Hexadecimal digit value. -/
def hexD (c : Char) : Option Nat :=
  if '0' ≤ c ∧ c ≤ '9' then some (c.toNat - 48)
  else if 'a' ≤ c ∧ c ≤ 'f' then some (c.toNat - 87)
  else if 'A' ≤ c ∧ c ≤ 'F' then some (c.toNat - 55)
  else none

/-- Model of `decodeURIComponent` restricted to single-byte `%XX` escapes;
sequences that are not two hex digits are kept verbatim (the real builtin
throws on malformed input; no claim depends on that path). -/
def decodeURIComp : Nat → Str → Str
  | 0, s => s
  | _ + 1, [] => []
  | f + 1, c :: cs =>
    if c = '%' then
      match cs with
      | h1 :: h2 :: rest =>
        match hexD h1, hexD h2 with
        | some a, some b => Char.ofNat (16 * a + b) :: decodeURIComp f rest
        | _, _ => c :: decodeURIComp f cs
      | _ => c :: decodeURIComp f cs
    else c :: decodeURIComp f cs

/-- `/^\d+(?:x\d+)?$/.test(t)` — a pure width (`200`) or `WxH` size suffix. -/
def numSize (t : Str) : Bool :=
  let d1 := t.takeWhile Char.isDigit
  let r := t.drop d1.length
  d1 ≠ [] ∧ (r = [] ∨ (r.head? = some 'x' ∧ r.drop 1 ≠ [] ∧ (r.drop 1).all Char.isDigit))

/-- Build the image record for a wikilink embed `![[path]]` or
`![[path|sizeOrAlt]]`, mirroring the body of the first replace callback of
`extractImageEmbeds`. -/
def mkWikiImage (cnt : Nat) (orig path : Str) (sizeOrAlt : Option Str) : ImageRec :=
  let vaultPath := jsTrim path
  let svg := endsSvg vaultPath
  match sizeOrAlt with
  | some s0 =>
    if s0 ≠ [] then
      let t := jsTrim s0
      if numSize t then
        ⟨phIM cnt, orig, vaultPath, [], some (t.takeWhile (fun ch => ch ≠ 'x')), svg⟩
      else
        ⟨phIM cnt, orig, vaultPath, t, none, svg⟩
    else ⟨phIM cnt, orig, vaultPath, [], none, svg⟩
  | none => ⟨phIM cnt, orig, vaultPath, [], none, svg⟩

/-- Scanner for `/!\[\[([^\]|]+?)(?:\|([^\]]*))?\]\]/g` (wikilink image
embeds): `![[`, a non-empty path free of `]` and `|`, an optional
`|sizeOrAlt` suffix free of `]`, then `]]`. -/
def scanWikiImage (cnt : Nat) : Nat → Str → List ISeg
  | 0, s => [ISeg.plain s]
  | _ + 1, [] => []
  | f + 1, c :: cs =>
    if ("![[".data).isPrefixOf (c :: cs) then
      let p := (c :: cs).drop 3
      let path := p.takeWhile (fun ch => ch ≠ ']' && ch ≠ '|')
      let after := p.drop path.length
      if path ≠ [] then
        if after.head? = some '|' then
          let sfx := (after.drop 1).takeWhile (fun ch => ch ≠ ']')
          let r2 := after.drop (1 + sfx.length)
          if ("]]".data).isPrefixOf r2 then
            let orig := ("![[".data) ++ path ++ '|' :: sfx ++ ("]]".data)
            ISeg.tok (mkWikiImage cnt orig path (some sfx)) ::
              scanWikiImage (cnt + 1) f (r2.drop 2)
          else ISeg.plain [c] :: scanWikiImage cnt f cs
        else if ("]]".data).isPrefixOf after then
          let orig := ("![[".data) ++ path ++ ("]]".data)
          ISeg.tok (mkWikiImage cnt orig path none) ::
            scanWikiImage (cnt + 1) f (after.drop 2)
        else ISeg.plain [c] :: scanWikiImage cnt f cs
      else ISeg.plain [c] :: scanWikiImage cnt f cs
    else
      ISeg.plain [c] :: scanWikiImage cnt f cs

/-- Scanner for `/!\[([^\]]*)\]\(([^)]+)\)/g` (standard markdown images):
`![`, an alt text free of `]`, `](`, a non-empty path free of `)`, `)`. -/
def scanMdImage (cnt : Nat) : Nat → Str → List ISeg
  | 0, s => [ISeg.plain s]
  | _ + 1, [] => []
  | f + 1, c :: cs =>
    if ("![".data).isPrefixOf (c :: cs) then
      let p := (c :: cs).drop 2
      let alt := p.takeWhile (fun ch => ch ≠ ']')
      let r1 := p.drop alt.length
      if ("](".data).isPrefixOf r1 then
        let r2 := r1.drop 2
        let pathP := r2.takeWhile (fun ch => ch ≠ ')')
        if pathP ≠ [] ∧ (r2.drop pathP.length).head? = some ')' then
          let vaultPath := decodeURIComp (pathP.length + 1) (jsTrim pathP)
          let orig := ("![".data) ++ alt ++ ("](".data) ++ pathP ++ (")".data)
          ISeg.tok ⟨phIM cnt, orig, vaultPath, alt, none, endsSvg vaultPath⟩ ::
            scanMdImage (cnt + 1) f (r2.drop (pathP.length + 1))
        else ISeg.plain [c] :: scanMdImage cnt f cs
      else ISeg.plain [c] :: scanMdImage cnt f cs
    else
      ISeg.plain [c] :: scanMdImage cnt f cs

/-- `extractImageEmbeds` of `converter.ts`: wikilink embeds first, then
standard markdown images on the result, sharing one counter
(`images.length`).  Returns the cleaned text and the image records. -/
def extractImageEmbeds (md : Str) : Str × List ImageRec :=
  let d1 := scanWikiImage 0 (md.length + 1) md
  let c1 := renderCI d1
  let d2 := scanMdImage (irecsOf d1).length (c1.length + 1) c1
  (renderCI d2, irecsOf d1 ++ irecsOf d2)

/-! ### Occurrences of a pattern in a string -/

/-- `p` occurs in `s` at position `n`. -/
def OccAt (p s : Str) (n : Nat) : Prop := p <+: s.drop n

theorem drop_append_le {s t : Str} {n : Nat} (h : n ≤ s.length) :
    (s ++ t).drop n = s.drop n ++ t := by
  induction s generalizing n with
  | nil =>
    have : n = 0 := by simpa using h
    simp [this]
  | cons c cs ih =>
    cases n with
    | zero => simp
    | succ m =>
      simp only [List.cons_append, List.drop_succ_cons]
      exact ih (by simpa using h)

theorem drop_append_ge {s t : Str} {n : Nat} (h : s.length ≤ n) :
    (s ++ t).drop n = t.drop (n - s.length) := by
  induction s generalizing n with
  | nil => simp
  | cons c cs ih =>
    cases n with
    | zero => simp at h
    | succ m =>
      have h2 : cs.length ≤ m := by simpa using h
      simpa [Nat.succ_sub_succ] using ih h2

theorem occAt_of_eq {p a b : Str} {s : Str} (h : s = a ++ p ++ b) :
    OccAt p s a.length := by
  subst h
  unfold OccAt
  rw [List.append_assoc, List.drop_left]
  exact ⟨b, rfl⟩

theorem eq_of_occAt {p s : Str} {n : Nat} (h : OccAt p s n) :
    s = s.take n ++ p ++ (s.drop n).drop p.length := by
  obtain ⟨t, ht⟩ := h
  conv_lhs => rw [← List.take_append_drop n s]
  rw [← ht, List.append_assoc]
  congr 2
  rw [List.drop_left]

theorem sub_iff_occAt {p s : Str} : p <:+: s ↔ ∃ n, OccAt p s n := by
  constructor
  · rintro ⟨a, b, rfl⟩
    exact ⟨a.length, occAt_of_eq rfl⟩
  · rintro ⟨n, h⟩
    exact ⟨s.take n, (s.drop n).drop p.length, (eq_of_occAt h).symm⟩

theorem occAt_cons {p cs : Str} {c : Char} {n : Nat} (h : OccAt p cs n) :
    OccAt p (c :: cs) (n + 1) := h

theorem occAt_cons_elim {p cs : Str} {c : Char} {n : Nat}
    (h : OccAt p (c :: cs) (n + 1)) : OccAt p cs n := h

theorem occAt_append_right {p s t : Str} {m : Nat} (h : OccAt p t m) :
    OccAt p (s ++ t) (s.length + m) := by
  unfold OccAt at *
  rw [← List.drop_drop, List.drop_left]
  exact h

theorem occAt_lt_length {p s : Str} {n : Nat} (hp : p ≠ []) (h : OccAt p s n) :
    n < s.length := by
  obtain ⟨t, ht⟩ := h
  by_contra hc
  have h0 : s.drop n = [] := List.drop_eq_nil_of_le (by omega)
  rw [h0] at ht
  exact hp (List.append_eq_nil.mp ht).1

theorem length_le_of_occAt {p s : Str} {n : Nat} (hp : p ≠ []) (h : OccAt p s n) :
    n + p.length ≤ s.length := by
  obtain ⟨t, ht⟩ := h
  have hlt : n < s.length := occAt_lt_length hp ⟨t, ht⟩
  have h1 : (s.drop n).length = p.length + t.length := by
    rw [← ht, List.length_append]
  rw [List.length_drop] at h1
  omega

theorem pre_drop {x y : Str} (k : Nat) (h : x <+: y) : x.drop k <+: y.drop k := by
  obtain ⟨r, hr⟩ := h
  rcases Nat.le_total k x.length with hk | hk
  · rw [← hr, drop_append_le hk]
    exact ⟨r, rfl⟩
  · rw [List.drop_eq_nil_of_le hk]
    exact List.nil_prefix

theorem pre_of_append_le {p a b : Str} (h : p <+: a ++ b) (hl : p.length ≤ a.length) :
    p <+: a := by
  have h1 : p = (a ++ b).take p.length := List.prefix_iff_eq_take.mp h
  rw [List.take_append_of_le_length hl] at h1
  rw [h1]
  exact List.take_prefix _ _

/-- Where an occurrence inside an append can live: wholly inside the left
part, wholly inside the right part, or straddling the boundary (in which
case the right-hand remainder of the pattern starts the right part). -/
theorem occAt_append_cases {p s t : Str} {n : Nat} (h : OccAt p (s ++ t) n) :
    (n + p.length ≤ s.length ∧ OccAt p s n)
    ∨ (s.length ≤ n ∧ OccAt p t (n - s.length))
    ∨ (n < s.length ∧ s.length < n + p.length ∧ p.drop (s.length - n) <+: t) := by
  by_cases hn : s.length ≤ n
  · refine Or.inr (Or.inl ⟨hn, ?_⟩)
    unfold OccAt at h ⊢
    rwa [drop_append_ge hn] at h
  · push_neg at hn
    by_cases hf : n + p.length ≤ s.length
    · refine Or.inl ⟨hf, ?_⟩
      unfold OccAt at h ⊢
      rw [drop_append_le (le_of_lt hn)] at h
      exact pre_of_append_le h (by rw [List.length_drop]; omega)
    · push_neg at hf
      refine Or.inr (Or.inr ⟨hn, hf, ?_⟩)
      unfold OccAt at h
      rw [drop_append_le (le_of_lt hn)] at h
      have h2 := pre_drop (s.length - n) h
      have hl : s.length - n = (s.drop n).length := (List.length_drop _ _).symm
      rw [hl, List.drop_left] at h2
      rw [hl]
      exact h2

theorem occ_to_sub {p s : Str} {n : Nat} (h : OccAt p s n) : p <:+: s :=
  sub_iff_occAt.mpr ⟨n, h⟩

theorem sub_append_left {p s t : Str} (h : p <:+: s) : p <:+: s ++ t := by
  obtain ⟨a, b, rfl⟩ := h
  exact ⟨a, b ++ t, by simp⟩

theorem sub_append_right {p s t : Str} (h : p <:+: t) : p <:+: s ++ t := by
  obtain ⟨a, b, rfl⟩ := h
  exact ⟨s ++ a, b, by simp⟩

/-! ### Decomposition algebra -/

theorem renderC_append (d₁ d₂ : List Seg) :
    renderC (d₁ ++ d₂) = renderC d₁ ++ renderC d₂ := by
  induction d₁ with
  | nil => rfl
  | cons seg d ih => cases seg <;> simp [renderC, ih]

theorem renderO_append (d₁ d₂ : List Seg) :
    renderO (d₁ ++ d₂) = renderO d₁ ++ renderO d₂ := by
  induction d₁ with
  | nil => rfl
  | cons seg d ih => cases seg <;> simp [renderO, ih]

theorem recsOf_append (d₁ d₂ : List Seg) :
    recsOf (d₁ ++ d₂) = recsOf d₁ ++ recsOf d₂ := by
  induction d₁ with
  | nil => rfl
  | cons seg d ih => cases seg <;> simp [recsOf, ih]

theorem renderC_no_recs {d : List Seg} (h : recsOf d = []) : renderC d = renderO d := by
  induction d with
  | nil => rfl
  | cons seg d ih =>
    cases seg with
    | plain s =>
      simp only [recsOf] at h
      simp [renderC, renderO, ih h]
    | tok r => simp [recsOf] at h

/-- A good placeholder token: fixed length `L`, a distinguished first
character `g`, and no further `g` anywhere in the token.  All placeholders
of one extraction pass are good tokens for `g = 'G'`, `L = 9` as long as
their indices stay below 10. -/
def GoodTok (g : Char) (L : Nat) (p : Str) : Prop :=
  p.length = L ∧ ∃ t, p = g :: t ∧ g ∉ t

theorem GoodTok.ne_nil {g L p} (h : GoodTok g L p) : p ≠ [] := by
  obtain ⟨-, t, rfl, -⟩ := h
  simp

theorem GoodTok.head_drop_ne {g : Char} {L : Nat} {p : Str} (h : GoodTok g L p)
    {k : Nat} (hk1 : 1 ≤ k) : (p.drop k).head? ≠ some g := by
  obtain ⟨-, t, rfl, hg⟩ := h
  obtain ⟨k', rfl⟩ := Nat.exists_eq_add_of_le hk1
  intro hc
  have h1 : (g :: t).drop (1 + k') = t.drop k' := by
    rw [Nat.add_comm, List.drop_succ_cons]
  rw [h1] at hc
  have h2 : g ∈ t.drop k' := List.mem_of_mem_head? (by rw [hc]; rfl)
  exact hg (List.mem_of_mem_drop h2)

theorem GoodTok.head {g L p} (h : GoodTok g L p) : p.head? = some g := by
  obtain ⟨-, t, rfl, -⟩ := h
  rfl

theorem head_of_pre {p s : Str} (hp : p ≠ []) (h : p <+: s) : s.head? = p.head? := by
  obtain ⟨r, hr⟩ := h
  cases p with
  | nil => exact absurd rfl hp
  | cons c cs => rw [← hr]; rfl

/-- The central occurrence analysis: in the placeholder rendering of a
decomposition whose records all carry good tokens, an occurrence of a good
token `p` either already occurs in the original rendering, or is exactly
one of the decomposition's placeholder slots. -/
theorem occ_slot (g : Char) (L : Nat) (p : Str) (hp : GoodTok g L p) :
    ∀ N D, D.length ≤ N → (∀ r ∈ recsOf D, GoodTok g L r.ph) →
      ∀ n, OccAt p (renderC D) n →
        p <:+: renderO D ∨
          ∃ E r F, D = E ++ Seg.tok r :: F ∧ p = r.ph ∧ n = (renderC E).length := by
  intro N
  induction N with
  | zero =>
    intro D hN hD n h
    have : D = [] := List.length_eq_zero.mp (Nat.le_zero.mp hN)
    subst this
    have := occAt_lt_length hp.ne_nil h
    simp [renderC] at this
  | succ N ih =>
    intro D hN hD n h
    have key : ∀ s D', D'.length ≤ N →
        (∀ r ∈ recsOf (Seg.plain s :: D'), GoodTok g L r.ph) →
        (renderC D' = [] ∨ (renderC D').head? = some g) →
        ∀ n, OccAt p (renderC (Seg.plain s :: D')) n →
          p <:+: renderO (Seg.plain s :: D') ∨
            ∃ E r F, Seg.plain s :: D' = E ++ Seg.tok r :: F ∧ p = r.ph ∧
              n = (renderC E).length := by
      intro s D' hlen hDg hhd n h
      rcases occAt_append_cases (h : OccAt p (s ++ renderC D') n) with
        ⟨hfit, hocc⟩ | ⟨hge, hocc⟩ | ⟨hlt1, hlt2, hstr⟩
      · exact Or.inl (sub_append_left (occ_to_sub hocc))
      · have hD' : ∀ r ∈ recsOf D', GoodTok g L r.ph := by
          intro r hr; exact hDg r (by simp only [recsOf]; exact hr)
        rcases ih _ hlen hD' _ hocc with hsub | ⟨E, r, F, hEF, hpr, hn⟩
        · exact Or.inl (sub_append_right hsub)
        · refine Or.inr ⟨Seg.plain s :: E, r, F, by simp [hEF], hpr, ?_⟩
          have hsn : (renderC (Seg.plain s :: E)).length = s.length + (renderC E).length := by
            simp [renderC]
          omega
      · -- straddling the boundary: the remainder of the token starts renderC D'
        exfalso
        have hk1 : 1 ≤ s.length - n := by omega
        have hkp : s.length - n < p.length := by omega
        have hne : p.drop (s.length - n) ≠ [] := by
          intro hc
          have h9 := List.length_eq_zero.mpr hc
          rw [List.length_drop] at h9
          omega
        have hhead : (renderC D').head? = (p.drop (s.length - n)).head? :=
          head_of_pre hne hstr
        have hne2 : (p.drop (s.length - n)).head? ≠ some g := hp.head_drop_ne hk1
        rcases hhd with h0 | h0
        · rw [h0] at hstr
          exact hne (List.prefix_nil.mp hstr)
        · exact hne2 (hhead ▸ h0)
    match D with
    | [] =>
      have := occAt_lt_length hp.ne_nil h
      simp [renderC] at this
    | Seg.plain s :: Seg.plain s' :: D'' =>
      -- merge adjacent literal runs; every rendering is unchanged
      have hlen : (Seg.plain (s ++ s') :: D'').length ≤ N := by
        simp at hN ⊢; omega
      have hC : renderC (Seg.plain s :: Seg.plain s' :: D'') =
          renderC (Seg.plain (s ++ s') :: D'') := by simp [renderC]
      have hO : renderO (Seg.plain s :: Seg.plain s' :: D'') =
          renderO (Seg.plain (s ++ s') :: D'') := by simp [renderO]
      have hR : recsOf (Seg.plain s :: Seg.plain s' :: D'') =
          recsOf (Seg.plain (s ++ s') :: D'') := by simp [recsOf]
      rw [hC] at h
      rw [hR] at hD
      rcases ih _ hlen hD n h with hsub | ⟨E, r, F, hEF, hpr, hn⟩
      · exact Or.inl (hO ▸ hsub)
      · match E, hEF with
        | [], h0 => exact absurd (congrArg (fun l => l.head?) h0) (by simp)
        | Seg.plain u :: E₂, h0 =>
          have hu : u = s ++ s' ∧ D'' = E₂ ++ Seg.tok r :: F := by
            constructor
            · have h5 := congrArg (fun l => l.head?) h0
              simpa using h5.symm
            · have h5 := congrArg List.tail h0
              simpa using h5
          refine Or.inr ⟨Seg.plain s :: Seg.plain s' :: E₂, r, F, ?_, hpr, ?_⟩
          · simp [hu.2]
          · rw [hn, hu.1]
            simp [renderC, List.append_assoc]
        | Seg.tok r₂ :: E₂, h0 =>
          exact absurd (congrArg (fun l => l.head?) h0) (by simp)
    | [Seg.plain s] =>
      refine key s [] (by simp) (by simp [recsOf] at hD ⊢) (Or.inl rfl) n h
    | Seg.plain s :: Seg.tok r₂ :: D'' =>
      refine key s (Seg.tok r₂ :: D'') (by simp at hN ⊢; omega) hD (Or.inr ?_) n h
      have hg2 : GoodTok g L r₂.ph := hD r₂ (by simp [recsOf])
      obtain ⟨-, t, hrt, -⟩ := hg2
      simp [renderC, hrt]
    | Seg.tok r :: D' =>
      have hg : GoodTok g L r.ph := hD r (by simp [recsOf])
      rcases occAt_append_cases (h : OccAt p (r.ph ++ renderC D') n) with
        ⟨hfit, hocc⟩ | ⟨hge, hocc⟩ | ⟨hlt1, hlt2, hstr⟩
      · -- fits inside the slot, and the lengths agree: it is the slot
        have hn0 : n = 0 := by
          have := hp.1; have := hg.1; omega
        subst hn0
        have hpr : p = r.ph := by
          have hpre : p <+: r.ph := by simpa [OccAt] using hocc
          exact List.IsPrefix.eq_of_length hpre (by have h6 := hp.1; have h7 := hg.1; omega)
        exact Or.inr ⟨[], r, D', rfl, hpr, by simp [renderC]⟩
      · have hlen : D'.length ≤ N := by simp at hN; omega
        have hD' : ∀ r' ∈ recsOf D', GoodTok g L r'.ph := by
          intro r' hr'; exact hD r' (by simp [recsOf]; exact Or.inr hr')
        rcases ih _ hlen hD' _ hocc with hsub | ⟨E, r₂, F, hEF, hpr, hn⟩
        · exact Or.inl (sub_append_right hsub)
        · refine Or.inr ⟨Seg.tok r :: E, r₂, F, by simp [hEF], hpr, ?_⟩
          have h7 : (renderC (Seg.tok r :: E)).length = r.ph.length + (renderC E).length := by
            simp [renderC]
          omega
      · -- an occurrence cannot start strictly inside a token slot
        exfalso
        have hn1 : 1 ≤ n := by
          rcases Nat.eq_zero_or_pos n with h0 | h1
          · exfalso; subst h0; have := hp.1; have := hg.1; omega
          · exact h1
        have hocc2 : p <+: r.ph.drop n ++ renderC D' := by
          have h5 : p <+: (r.ph ++ renderC D').drop n := h
          rwa [drop_append_le (le_of_lt hlt1)] at h5
        have hne : r.ph.drop n ≠ [] := by
          intro hc
          have h9 := List.length_eq_zero.mpr hc
          rw [List.length_drop] at h9
          omega
        have h1 : (r.ph.drop n ++ renderC D').head? = (r.ph.drop n).head? := by
          cases hq : r.ph.drop n with
          | nil => exact absurd hq hne
          | cons q qs => rfl
        have h2 := head_of_pre hp.ne_nil hocc2
        have h3 : (r.ph.drop n).head? ≠ some g := hg.head_drop_ne hn1
        rw [h1] at h2
        exact h3 (h2.trans hp.head)

/-! ### Correctness of split/join replacement -/

theorem replaceAllGo_fuel (pat rep : Str) :
    ∀ f₁ f₂ s, s.length ≤ f₁ → s.length ≤ f₂ →
      replaceAllGo pat rep f₁ s = replaceAllGo pat rep f₂ s := by
  intro f₁
  induction f₁ with
  | zero =>
    intro f₂ s h1 h2
    have hs : s = [] := List.length_eq_zero.mp (Nat.le_zero.mp h1)
    subst hs
    cases f₂ <;> rfl
  | succ f ih =>
    intro f₂ s h1 h2
    match s, f₂ with
    | [], 0 => rfl
    | [], g + 1 => rfl
    | c :: cs, 0 => exact absurd h2 (by simp)
    | c :: cs, g + 1 =>
      show replaceAllGo pat rep (f + 1) (c :: cs) = replaceAllGo pat rep (g + 1) (c :: cs)
      simp only [replaceAllGo]
      by_cases hc : pat ≠ [] ∧ pat.isPrefixOf (c :: cs)
      · simp only [if_pos hc]
        congr 1
        have hp1 : 1 ≤ pat.length := by
          cases pat with
          | nil => exact absurd rfl hc.1
          | cons q qs => simp
        simp only [List.length_cons] at h1 h2
        have hlen1 : ((c :: cs).drop pat.length).length ≤ f := by
          rw [List.length_drop, List.length_cons]
          omega
        have hlen2 : ((c :: cs).drop pat.length).length ≤ g := by
          rw [List.length_drop, List.length_cons]
          omega
        exact ih g _ hlen1 hlen2
      · simp only [if_neg hc]
        congr 1
        simp only [List.length_cons] at h1 h2
        exact ih g cs (by omega) (by omega)

theorem replaceAll_nil (pat rep : Str) : replaceAll pat rep [] = [] := rfl

theorem replaceAll_cons (pat rep : Str) (c : Char) (cs : Str) :
    replaceAll pat rep (c :: cs) =
      if pat ≠ [] ∧ pat.isPrefixOf (c :: cs) then
        rep ++ replaceAll pat rep ((c :: cs).drop pat.length)
      else
        c :: replaceAll pat rep cs := by
  show replaceAllGo pat rep (cs.length + 1) (c :: cs) = _
  simp only [replaceAllGo]
  by_cases hc : pat ≠ [] ∧ pat.isPrefixOf (c :: cs)
  · simp only [if_pos hc]
    congr 1
    apply replaceAllGo_fuel
    · have hp1 : 1 ≤ pat.length := by
        cases pat with
        | nil => exact absurd rfl hc.1
        | cons q qs => simp
      rw [List.length_drop, List.length_cons]
      omega
    · exact le_refl _
  · simp only [if_neg hc]
    rfl

theorem replaceAll_no_occ {pat : Str} (rep : Str) (_hp : pat ≠ []) :
    ∀ s, (∀ n, ¬ OccAt pat s n) → replaceAll pat rep s = s := by
  intro s
  induction s with
  | nil => intro _; rfl
  | cons c cs ih =>
    intro h
    rw [replaceAll_cons]
    have hnp : ¬ (pat ≠ [] ∧ pat.isPrefixOf (c :: cs)) := by
      rintro ⟨-, hpre⟩
      exact h 0 (List.isPrefixOf_iff_prefix.mp hpre)
    rw [if_neg hnp]
    congr 1
    exact ih (fun n hn => h (n + 1) (occAt_cons hn))

/-- If `pat` occurs exactly once, split/join replaces exactly that
occurrence. -/
theorem replaceAll_unique {pat : Str} (rep : Str) (hp : pat ≠ []) :
    ∀ a b, (∀ n, OccAt pat (a ++ pat ++ b) n → n = a.length) →
      replaceAll pat rep (a ++ pat ++ b) = a ++ rep ++ b := by
  intro a
  induction a with
  | nil =>
    intro b huniq
    simp only [List.nil_append] at huniq ⊢
    obtain ⟨q, qs, rfl⟩ : ∃ q qs, pat = q :: qs := by
      cases pat with
      | nil => exact absurd rfl hp
      | cons q qs => exact ⟨q, qs, rfl⟩
    have hcons : (q :: qs) ++ b = q :: (qs ++ b) := rfl
    rw [hcons, replaceAll_cons]
    have hpre : (q :: qs).isPrefixOf (q :: (qs ++ b)) :=
      List.isPrefixOf_iff_prefix.mpr ⟨b, rfl⟩
    rw [if_pos ⟨by simp, hpre⟩]
    have hd : (q :: (qs ++ b)).drop (q :: qs).length = b := by
      rw [List.length_cons, List.drop_succ_cons, List.drop_left]
    rw [hd]
    congr 1
    apply replaceAll_no_occ rep hp
    intro n hn
    have h2 := occAt_append_right (s := q :: qs) (t := b) hn
    have h3 := huniq _ h2
    simp [List.length_cons] at h3
  | cons x a' ih =>
    intro b huniq
    simp only [List.cons_append]
    rw [replaceAll_cons]
    have hnp : ¬ (pat ≠ [] ∧ pat.isPrefixOf (x :: (a' ++ pat ++ b))) := by
      rintro ⟨-, hpre⟩
      have h0 : OccAt pat (x :: (a' ++ pat ++ b)) 0 := List.isPrefixOf_iff_prefix.mp hpre
      have h1 := huniq 0 (by simpa using h0)
      simp at h1
    rw [if_neg hnp]
    congr 1
    exact ih b (fun n hn => by
      have h2 := huniq (n + 1) (occAt_cons hn)
      simpa using h2)

/-! ### Positional uniqueness of a slot in a decomposition -/

theorem slot_eq {D : List Seg} (hnd : ((recsOf D).map Rec.ph).Nodup)
    {E r F E' r' F'} (h1 : D = E ++ Seg.tok r :: F) (h2 : D = E' ++ Seg.tok r' :: F')
    (hph : r.ph = r'.ph) : E = E' ∧ r = r' ∧ F = F' := by
  induction E generalizing E' D with
  | nil =>
    rw [List.nil_append] at h1
    cases E' with
    | nil =>
      rw [List.nil_append] at h2
      have h3 : Seg.tok r :: F = Seg.tok r' :: F' := h1.symm.trans h2
      injection h3 with h4 h5
      injection h4 with h6
      exact ⟨rfl, h6, h5⟩
    | cons e' E₂ =>
      exfalso
      have h3 : Seg.tok r :: F = e' :: (E₂ ++ Seg.tok r' :: F') := by
        rw [← h1, h2]; rfl
      injection h3 with h4 h5
      have hmem : r'.ph ∈ (recsOf F).map Rec.ph := by
        rw [h5, recsOf_append]
        refine List.mem_map_of_mem Rec.ph ?_
        simp [recsOf]
      rw [h1] at hnd
      simp only [recsOf, List.map_cons] at hnd
      exact (List.nodup_cons.mp hnd).1 (hph.symm ▸ hmem)
  | cons e E₁ ih =>
    cases E' with
    | nil =>
      exfalso
      rw [List.nil_append] at h2
      have h3 : Seg.tok r' :: F' = e :: (E₁ ++ Seg.tok r :: F) := by
        rw [← h2, h1]; rfl
      injection h3 with h4 h5
      have hmem : r.ph ∈ (recsOf F').map Rec.ph := by
        rw [h5, recsOf_append]
        refine List.mem_map_of_mem Rec.ph ?_
        simp [recsOf]
      rw [h2] at hnd
      simp only [recsOf, List.map_cons] at hnd
      exact (List.nodup_cons.mp hnd).1 (hph ▸ hmem)
    | cons e' E₂ =>
      have h3 : e :: (E₁ ++ Seg.tok r :: F) = e' :: (E₂ ++ Seg.tok r' :: F') := by
        rw [← show D = e :: (E₁ ++ Seg.tok r :: F) from h1, h2]; rfl
      injection h3 with hee htl
      have hnd' : ((recsOf (E₁ ++ Seg.tok r :: F)).map Rec.ph).Nodup := by
        rw [h1] at hnd
        cases e with
        | plain s =>
          simpa [List.cons_append, recsOf] using hnd
        | tok r₂ =>
          have h6 := (by simpa [List.cons_append, recsOf] using hnd :
            (r₂.ph :: (recsOf (E₁ ++ Seg.tok r :: F)).map Rec.ph).Nodup)
          exact (List.nodup_cons.mp h6).2
      obtain ⟨hE, hr, hF⟩ := ih hnd' rfl htl
      exact ⟨by rw [hee, hE], hr, hF⟩

/-! ### Restoring one extraction pass -/

theorem last_tok {D : List Seg} (h : recsOf D ≠ []) :
    ∃ E r F, D = E ++ Seg.tok r :: F ∧ recsOf F = [] ∧ recsOf D = recsOf E ++ [r] := by
  induction D with
  | nil => exact absurd rfl h
  | cons seg D' ih =>
    by_cases h' : recsOf D' = []
    · cases seg with
      | plain s => exact absurd (by simpa [recsOf] using h') h
      | tok r =>
        exact ⟨[], r, D', rfl, h', by simp [recsOf, h']⟩
    · obtain ⟨E, r, F, hEF, hF, hR⟩ := ih h'
      refine ⟨seg :: E, r, F, by rw [hEF]; rfl, hF, ?_⟩
      cases seg with
      | plain s => simp [recsOf, hR]
      | tok r₂ => simp [recsOf, hR]

theorem first_tok {D : List Seg} (h : recsOf D ≠ []) :
    ∃ E r F, D = E ++ Seg.tok r :: F ∧ recsOf E = [] ∧ recsOf D = r :: recsOf F := by
  induction D with
  | nil => exact absurd rfl h
  | cons seg D' ih =>
    cases seg with
    | tok r => exact ⟨[], r, D', rfl, rfl, by simp [recsOf]⟩
    | plain s =>
      have h' : recsOf D' ≠ [] := by simpa [recsOf] using h
      obtain ⟨E, r, F, hEF, hE, hR⟩ := ih h'
      exact ⟨Seg.plain s :: E, r, F, by rw [hEF]; rfl, by simp [recsOf, hE],
        by simp [recsOf, hR]⟩

/-- A slot substitution step: the renderings of the decomposition with the
slot replaced by its original. -/
theorem render_subst (E : List Seg) (r : Rec) (F : List Seg) :
    renderC (E ++ Seg.plain r.orig :: F) = renderC E ++ r.orig ++ renderC F ∧
    renderO (E ++ Seg.plain r.orig :: F) = renderO (E ++ Seg.tok r :: F) ∧
    recsOf (E ++ Seg.plain r.orig :: F) = recsOf E ++ recsOf F := by
  refine ⟨?_, ?_, ?_⟩
  · rw [renderC_append]
    simp [renderC, List.append_assoc]
  · rw [renderO_append, renderO_append]
    simp [renderO]
  · rw [recsOf_append]
    simp [recsOf]

/-- Replacing the placeholder of a record that sits at a unique slot in a
decomposition (no occurrence elsewhere, including none in the original
rendering) substitutes exactly that slot. -/
theorem replace_slot {g : Char} {L : Nat} {D : List Seg} {E F : List Seg} {r : Rec}
    (hEF : D = E ++ Seg.tok r :: F)
    (hG : ∀ r' ∈ recsOf D, GoodTok g L r'.ph)
    (hnd : ((recsOf D).map Rec.ph).Nodup)
    (hocc : ¬ r.ph <:+: renderO D) :
    replaceAll r.ph r.orig (renderC D) = renderC (E ++ Seg.plain r.orig :: F) := by
  have hrmem : r ∈ recsOf D := by
    rw [hEF, recsOf_append]
    simp [recsOf]
  have hg : GoodTok g L r.ph := hG r hrmem
  have hCD : renderC D = renderC E ++ r.ph ++ renderC F := by
    rw [hEF, renderC_append]
    simp [renderC, List.append_assoc]
  have huniq : ∀ n, OccAt r.ph (renderC D) n → n = (renderC E).length := by
    intro n hn
    rcases occ_slot g L r.ph hg D.length D (le_refl _) hG n hn with hsub | ⟨E₂, r₂, F₂, hEF₂, hph₂, hn₂⟩
    · exact absurd hsub hocc
    · obtain ⟨hE, -, -⟩ := slot_eq hnd hEF₂ hEF hph₂.symm
      rw [hn₂, hE]
  rw [hCD] at huniq ⊢
  rw [replaceAll_unique r.orig hg.ne_nil (renderC E) (renderC F) huniq]
  rw [(render_subst E r F).1]

/-- Restoring all records of one pass from last to first (the order used by
`restoreExtractions`) recovers the original rendering, provided all
placeholders are good tokens, pairwise distinct, and none of them occurs in
the original rendering. -/
theorem restore_pass_bwd (g : Char) (L : Nat) :
    ∀ N D, (recsOf D).length ≤ N →
      (∀ r ∈ recsOf D, GoodTok g L r.ph) →
      ((recsOf D).map Rec.ph).Nodup →
      (∀ r ∈ recsOf D, ¬ r.ph <:+: renderO D) →
      (recsOf D).foldr (fun r acc => replaceAll r.ph r.orig acc) (renderC D) = renderO D := by
  intro N
  induction N with
  | zero =>
    intro D hN hG hnd hocc
    have h0 : recsOf D = [] := List.length_eq_zero.mp (Nat.le_zero.mp hN)
    rw [h0, List.foldr_nil]
    exact renderC_no_recs h0
  | succ N ih =>
    intro D hN hG hnd hocc
    by_cases h0 : recsOf D = []
    · rw [h0, List.foldr_nil]
      exact renderC_no_recs h0
    · obtain ⟨E, r, F, hEF, hF, hR⟩ := last_tok h0
      rw [hR, List.foldr_append, List.foldr_cons, List.foldr_nil]
      have hstep : replaceAll r.ph r.orig (renderC D) =
          renderC (E ++ Seg.plain r.orig :: F) := replace_slot hEF hG hnd (hocc r (by
        rw [hR]; simp))
      rw [hstep]
      set D₂ := E ++ Seg.plain r.orig :: F with hD₂
      have hre := render_subst E r F
      have hrecs : recsOf D₂ = recsOf E := by
        rw [hre.2.2, hF, List.append_nil]
      have hO : renderO D₂ = renderO D := by rw [hre.2.1, ← hEF]
      have hlen : (recsOf D₂).length ≤ N := by
        rw [hrecs]
        have : (recsOf D).length = (recsOf E).length + 1 := by rw [hR]; simp
        omega
      have hsubG : ∀ r' ∈ recsOf D₂, GoodTok g L r'.ph := by
        intro r' hr'
        refine hG r' ?_
        rw [hR]
        rw [hrecs] at hr'
        exact List.mem_append_left _ hr'
      have hsubnd : ((recsOf D₂).map Rec.ph).Nodup := by
        rw [hrecs]
        rw [hR, List.map_append] at hnd
        exact List.Nodup.of_append_left hnd
      have hsubocc : ∀ r' ∈ recsOf D₂, ¬ r'.ph <:+: renderO D₂ := by
        intro r' hr'
        rw [hO]
        refine hocc r' ?_
        rw [hR]
        rw [hrecs] at hr'
        exact List.mem_append_left _ hr'
      rw [show renderO D = renderO D₂ from hO.symm, show recsOf E = recsOf D₂ from hrecs.symm]
      exact ih D₂ hlen hsubG hsubnd hsubocc

/-- Restoring all records of one pass from first to last (the order used by
`restoreMathInHtml`) likewise recovers the original rendering. -/
theorem restore_pass_fwd (g : Char) (L : Nat) :
    ∀ N D, (recsOf D).length ≤ N →
      (∀ r ∈ recsOf D, GoodTok g L r.ph) →
      ((recsOf D).map Rec.ph).Nodup →
      (∀ r ∈ recsOf D, ¬ r.ph <:+: renderO D) →
      (recsOf D).foldl (fun acc r => replaceAll r.ph r.orig acc) (renderC D) = renderO D := by
  intro N
  induction N with
  | zero =>
    intro D hN hG hnd hocc
    have h0 : recsOf D = [] := List.length_eq_zero.mp (Nat.le_zero.mp hN)
    rw [h0, List.foldl_nil]
    exact renderC_no_recs h0
  | succ N ih =>
    intro D hN hG hnd hocc
    by_cases h0 : recsOf D = []
    · rw [h0, List.foldl_nil]
      exact renderC_no_recs h0
    · obtain ⟨E, r, F, hEF, hE, hR⟩ := first_tok h0
      rw [hR, List.foldl_cons]
      have hstep : replaceAll r.ph r.orig (renderC D) =
          renderC (E ++ Seg.plain r.orig :: F) := replace_slot hEF hG hnd (hocc r (by
        rw [hR]; simp))
      rw [hstep]
      set D₂ := E ++ Seg.plain r.orig :: F with hD₂
      have hre := render_subst E r F
      have hrecs : recsOf D₂ = recsOf F := by
        rw [hre.2.2, hE, List.nil_append]
      have hO : renderO D₂ = renderO D := by rw [hre.2.1, ← hEF]
      have hlen : (recsOf D₂).length ≤ N := by
        rw [hrecs]
        have : (recsOf D).length = (recsOf F).length + 1 := by rw [hR]; simp
        omega
      have hsubG : ∀ r' ∈ recsOf D₂, GoodTok g L r'.ph := by
        intro r' hr'
        refine hG r' ?_
        rw [hR]
        rw [hrecs] at hr'
        exact List.mem_cons_of_mem _ hr'
      have hsubnd : ((recsOf D₂).map Rec.ph).Nodup := by
        rw [hrecs]
        rw [hR, List.map_cons] at hnd
        exact (List.nodup_cons.mp hnd).2
      have hsubocc : ∀ r' ∈ recsOf D₂, ¬ r'.ph <:+: renderO D₂ := by
        intro r' hr'
        rw [hO]
        refine hocc r' ?_
        rw [hR]
        rw [hrecs] at hr'
        exact List.mem_cons_of_mem _ hr'
      rw [show renderO D = renderO D₂ from hO.symm, show recsOf F = recsOf D₂ from hrecs.symm]
      exact ih D₂ hlen hsubG hsubnd hsubocc

/-! ### Placeholder arithmetic -/

theorem natChars_lt10 {n : Nat} (h : n < 10) : natChars n = [Nat.digitChar n] := by
  unfold natChars natCharsGo
  rw [if_pos h]

theorem digit_val : ∀ m, m < 10 → (Nat.digitChar m).toNat - 48 = m := by decide

theorem digitChar_ne_G : ∀ m, m < 10 → Nat.digitChar m ≠ 'G' := by decide

theorem charsVal_append (s : Str) (c : Char) :
    charsVal (s ++ [c]) = charsVal s * 10 + (c.toNat - 48) := by
  unfold charsVal
  rw [List.foldl_append]
  rfl

theorem charsVal_natCharsGo : ∀ f n, n < f → charsVal (natCharsGo f n) = n := by
  intro f
  induction f with
  | zero => intro n h; omega
  | succ f ih =>
    intro n h
    unfold natCharsGo
    by_cases h10 : n < 10
    · rw [if_pos h10]
      show charsVal ([] ++ [Nat.digitChar n]) = n
      rw [charsVal_append]
      have := digit_val n h10
      simp [charsVal]
      omega
    · rw [if_neg h10]
      rw [charsVal_append]
      have hdiv : n / 10 < n := Nat.div_lt_self (by omega) (by norm_num)
      have h1 : charsVal (natCharsGo f (n / 10)) = n / 10 := ih (n / 10) (by omega)
      have h2 := digit_val (n % 10) (Nat.mod_lt n (by norm_num))
      rw [h1, h2]
      omega

theorem charsVal_natChars (n : Nat) : charsVal (natChars n) = n :=
  charsVal_natCharsGo (n + 1) n (Nat.lt_succ_self n)

theorem natChars_inj {i j : Nat} (h : natChars i = natChars j) : i = j := by
  have h1 := charsVal_natChars i
  have h2 := charsVal_natChars j
  rw [h, h2] at h1
  exact h1.symm

theorem phTok_inj {k1 k2 : Str} {i j : Nat} (hl : k1.length = k2.length)
    (h : phTok k1 i = phTok k2 j) : k1 = k2 ∧ i = j := by
  unfold phTok at h
  rw [List.append_assoc, List.append_assoc] at h
  have h2 : k1 ++ natChars i = k2 ++ natChars j := List.append_cancel_left h
  have h3 : k1 = k2 := by
    have h4 := congrArg (List.take k1.length) h2
    rw [List.take_left] at h4
    rw [hl] at h4
    rw [List.take_left] at h4
    exact h4
  subst h3
  exact ⟨rfl, natChars_inj (List.append_cancel_left h2)⟩

theorem goodTok_phTok {kind : Str} {i : Nat} (hk : kind.length = 2)
    (hg : 'G' ∉ kind) (hi : i < 10) : GoodTok 'G' 9 (phTok kind i) := by
  constructor
  · unfold phTok
    rw [natChars_lt10 hi]
    simp [List.length_append, hk]
  · refine ⟨("DOCS_".data) ++ kind ++ [Nat.digitChar i], ?_, ?_⟩
    · unfold phTok
      rw [natChars_lt10 hi]
      rfl
    · intro hmem
      rcases List.mem_append.mp hmem with hmem2 | hmem2
      · rcases List.mem_append.mp hmem2 with hmem3 | hmem3
        · revert hmem3; decide
        · exact hg hmem3
      · have hd : Nat.digitChar i = 'G' := by
          have := List.mem_singleton.mp hmem2
          exact this.symm
        exact digitChar_ne_G i hi hd

theorem sub_of_ph_sub {kind : Str} {i : Nat} {s : Str}
    (h : phTok kind i <:+: s) : ("GDOCS_".data) <:+: s := by
  refine List.IsInfix.trans ?_ h
  exact (List.prefix_append _ _).isInfix

/-! ### Scanner soundness: originals render back to the input -/

theorem eq_append_of_pre {x s : Str} (h : x <+: s) : s = x ++ s.drop x.length := by
  obtain ⟨t, ht⟩ := h
  rw [← ht, List.drop_left]

theorem head_drop_decomp {s : Str} {n : Nat} {a : Char}
    (h : (s.drop n).head? = some a) : s.drop n = a :: s.drop (n + 1) := by
  cases hq : s.drop n with
  | nil => rw [hq] at h; simp at h
  | cons b t =>
    rw [hq] at h
    have hb : b = a := by simpa using h
    subst hb
    have ht : t = s.drop (n + 1) := by
      have h2 : (s.drop n).tail = s.drop (n + 1) := List.tail_drop s n
      rw [hq] at h2
      exact h2
    rw [ht]

theorem splitFirstGo_sound {pat : Str} :
    ∀ f s pre post, splitFirstGo pat f s = some (pre, post) → s = pre ++ pat ++ post := by
  intro f
  induction f with
  | zero => intro s pre post h; simp [splitFirstGo] at h
  | succ f ih =>
    intro s pre post h
    match s with
    | [] =>
      simp only [splitFirstGo] at h
      by_cases hp : pat = []
      · rw [if_pos hp] at h
        injection h with h2
        injection h2 with h3 h4
        rw [← h3, ← h4, hp]
        rfl
      · rw [if_neg hp] at h
        exact absurd h (by simp)
    | c :: cs =>
      simp only [splitFirstGo] at h
      by_cases hp : pat.isPrefixOf (c :: cs)
      · rw [if_pos hp] at h
        injection h with h2
        injection h2 with h3 h4
        rw [← h3, ← h4, List.nil_append]
        exact eq_append_of_pre (List.isPrefixOf_iff_prefix.mp hp)
      · rw [if_neg hp] at h
        match hrec : splitFirstGo pat f cs with
        | some (pre2, post2) =>
          rw [hrec] at h
          injection h with h2
          injection h2 with h3 h4
          rw [← h3, ← h4]
          have := ih cs pre2 post2 hrec
          rw [List.cons_append, List.cons_append, ← this]
        | none => rw [hrec] at h; exact absurd h (by simp)

theorem splitFirst_sound {pat s pre post : Str}
    (h : splitFirst pat s = some (pre, post)) : s = pre ++ pat ++ post :=
  splitFirstGo_sound _ s pre post h

theorem scanFenced_renderO :
    ∀ f cnt s, s.length + 1 ≤ f → renderO (scanFenced cnt f s) = s := by
  intro f
  induction f with
  | zero => intro cnt s h; omega
  | succ f ih =>
    intro cnt s h
    match s with
    | [] => rfl
    | c :: cs =>
      by_cases hpre : fence3.isPrefixOf (c :: cs)
      · match hsp : splitFirst fence3 ((c :: cs).drop 3) with
        | some (inner, rest) =>
          have hs1 : c :: cs = fence3 ++ (c :: cs).drop 3 := by
            have := eq_append_of_pre (List.isPrefixOf_iff_prefix.mp hpre)
            simpa [fence3] using this
          have hs2 : (c :: cs).drop 3 = inner ++ fence3 ++ rest := splitFirst_sound hsp
          have hrest : rest.length + 1 ≤ f := by
            have hlen3 : ((c :: cs).drop 3).length = inner.length + fence3.length + rest.length := by
              rw [hs2]; simp; try omega
            have hlen4 : ((c :: cs).drop 3).length = (c :: cs).length - 3 := List.length_drop _ _
            simp [fence3] at hlen3 hlen4
            simp at h
            omega
          have hsp2 : splitFirst fence3 (cs.drop 2) = some (inner, rest) := by
            simpa using hsp
          have hstep : scanFenced cnt (f + 1) (c :: cs) =
              Seg.tok ⟨phCB cnt, fence3 ++ inner ++ fence3⟩ :: scanFenced (cnt + 1) f rest := by
            simp [scanFenced, hpre, hsp2]
          rw [hstep]
          show (fence3 ++ inner ++ fence3) ++ renderO (scanFenced (cnt + 1) f rest) = c :: cs
          rw [ih (cnt + 1) rest hrest]
          rw [hs1, hs2]
          simp [List.append_assoc]
        | none =>
          have hsp2 : splitFirst fence3 (cs.drop 2) = none := by
            simpa using hsp
          have hstep : scanFenced cnt (f + 1) (c :: cs) = [Seg.plain (c :: cs)] := by
            simp [scanFenced, hpre, hsp2]
          rw [hstep]
          simp [renderO]
      · have hstep : scanFenced cnt (f + 1) (c :: cs) = Seg.plain [c] :: scanFenced cnt f cs := by
          simp [scanFenced, hpre]
        rw [hstep]
        show [c] ++ renderO (scanFenced cnt f cs) = c :: cs
        rw [ih cnt cs (by simp at h; omega)]
        rfl

theorem scanFenced_phs :
    ∀ f cnt s, ∃ k, (recsOf (scanFenced cnt f s)).map Rec.ph =
      (List.range' cnt k).map phCB := by
  intro f
  induction f with
  | zero =>
    intro cnt s
    exact ⟨0, by simp [scanFenced, recsOf]⟩
  | succ f ih =>
    intro cnt s
    match s with
    | [] => exact ⟨0, by simp [scanFenced, recsOf]⟩
    | c :: cs =>
      by_cases hpre : fence3.isPrefixOf (c :: cs)
      · match hsp : splitFirst fence3 ((c :: cs).drop 3) with
        | some (inner, rest) =>
          obtain ⟨k, hk⟩ := ih (cnt + 1) rest
          refine ⟨k + 1, ?_⟩
          have hsp2 : splitFirst fence3 (cs.drop 2) = some (inner, rest) := by
            simpa using hsp
          have hstep : scanFenced cnt (f + 1) (c :: cs) =
              Seg.tok ⟨phCB cnt, fence3 ++ inner ++ fence3⟩ :: scanFenced (cnt + 1) f rest := by
            simp [scanFenced, hpre, hsp2]
          rw [hstep]
          show ((⟨phCB cnt, fence3 ++ inner ++ fence3⟩ : Rec) ::
            recsOf (scanFenced (cnt + 1) f rest)).map Rec.ph = _
          rw [List.map_cons, hk, List.range'_succ]
          rfl
        | none =>
          refine ⟨0, ?_⟩
          have hsp2 : splitFirst fence3 (cs.drop 2) = none := by
            simpa using hsp
          have hstep : scanFenced cnt (f + 1) (c :: cs) = [Seg.plain (c :: cs)] := by
            simp [scanFenced, hpre, hsp2]
          rw [hstep]
          simp [recsOf]
      · obtain ⟨k, hk⟩ := ih cnt cs
        refine ⟨k, ?_⟩
        have hstep : scanFenced cnt (f + 1) (c :: cs) = Seg.plain [c] :: scanFenced cnt f cs := by
          simp [scanFenced, hpre]
        rw [hstep]
        show (recsOf (Seg.plain [c] :: scanFenced cnt f cs)).map Rec.ph = _
        simpa [recsOf] using hk

theorem scanInlineCode_renderO :
    ∀ f cnt s, s.length + 1 ≤ f → renderO (scanInlineCode cnt f s) = s := by
  intro f
  induction f with
  | zero => intro cnt s h; omega
  | succ f ih =>
    intro cnt s h
    match s with
    | [] => rfl
    | c :: cs =>
      by_cases hc : c = btick
      · set run := cs.takeWhile (fun ch => ch ≠ btick && ch ≠ '\n') with hrun
        by_cases hok : run ≠ [] ∧ (cs.drop run.length).head? = some btick
        · have hcs : cs = run ++ btick :: cs.drop (run.length + 1) := by
            have h1 : cs = run ++ cs.drop run.length :=
              eq_append_of_pre (by rw [hrun]; exact List.takeWhile_prefix _)
            have h2 : cs.drop run.length = btick :: cs.drop (run.length + 1) :=
              head_drop_decomp hok.2
            rw [← h2]; exact h1
          have hrest : (cs.drop (run.length + 1)).length + 1 ≤ f := by
            rw [List.length_drop]
            simp at h
            have hrl : run.length ≤ cs.length := by
              have := congrArg List.length hcs
              simp at this
              omega
            omega
          have hstep : scanInlineCode cnt (f + 1) (c :: cs) =
              Seg.tok ⟨phCI cnt, btick :: run ++ [btick]⟩ ::
                scanInlineCode (cnt + 1) f (cs.drop (run.length + 1)) := by
            simp only [scanInlineCode, ← hrun]
            rw [if_pos hc, if_pos hok]
          rw [hstep]
          show (btick :: run ++ [btick]) ++
            renderO (scanInlineCode (cnt + 1) f (cs.drop (run.length + 1))) = c :: cs
          rw [ih (cnt + 1) _ hrest, hc]
          rw [show cs = run ++ btick :: cs.drop (run.length + 1) from hcs]
          simp
        · have hstep : scanInlineCode cnt (f + 1) (c :: cs) =
              Seg.plain [c] :: scanInlineCode cnt f cs := by
            simp only [scanInlineCode, ← hrun]
            rw [if_pos hc, if_neg hok]
          rw [hstep]
          show [c] ++ renderO (scanInlineCode cnt f cs) = c :: cs
          rw [ih cnt cs (by simp at h; omega)]
          rfl
      · have hstep : scanInlineCode cnt (f + 1) (c :: cs) =
            Seg.plain [c] :: scanInlineCode cnt f cs := by
          simp only [scanInlineCode]
          rw [if_neg hc]
        rw [hstep]
        show [c] ++ renderO (scanInlineCode cnt f cs) = c :: cs
        rw [ih cnt cs (by simp at h; omega)]
        rfl

theorem scanInlineCode_phs :
    ∀ f cnt s, ∃ k, (recsOf (scanInlineCode cnt f s)).map Rec.ph =
      (List.range' cnt k).map phCI := by
  intro f
  induction f with
  | zero => intro cnt s; exact ⟨0, by simp [scanInlineCode, recsOf]⟩
  | succ f ih =>
    intro cnt s
    match s with
    | [] => exact ⟨0, by simp [scanInlineCode, recsOf]⟩
    | c :: cs =>
      by_cases hc : c = btick
      · set run := cs.takeWhile (fun ch => ch ≠ btick && ch ≠ '\n') with hrun
        by_cases hok : run ≠ [] ∧ (cs.drop run.length).head? = some btick
        · obtain ⟨k, hk⟩ := ih (cnt + 1) (cs.drop (run.length + 1))
          refine ⟨k + 1, ?_⟩
          have hstep : scanInlineCode cnt (f + 1) (c :: cs) =
              Seg.tok ⟨phCI cnt, btick :: run ++ [btick]⟩ ::
                scanInlineCode (cnt + 1) f (cs.drop (run.length + 1)) := by
            simp only [scanInlineCode, ← hrun]
            rw [if_pos hc, if_pos hok]
          rw [hstep]
          show ((⟨phCI cnt, btick :: run ++ [btick]⟩ : Rec) ::
            recsOf (scanInlineCode (cnt + 1) f (cs.drop (run.length + 1)))).map Rec.ph = _
          rw [List.map_cons, hk, List.range'_succ]
          rfl
        · obtain ⟨k, hk⟩ := ih cnt cs
          refine ⟨k, ?_⟩
          have hstep : scanInlineCode cnt (f + 1) (c :: cs) =
              Seg.plain [c] :: scanInlineCode cnt f cs := by
            simp only [scanInlineCode, ← hrun]
            rw [if_pos hc, if_neg hok]
          rw [hstep]
          show (recsOf (Seg.plain [c] :: scanInlineCode cnt f cs)).map Rec.ph = _
          simpa [recsOf] using hk
      · obtain ⟨k, hk⟩ := ih cnt cs
        refine ⟨k, ?_⟩
        have hstep : scanInlineCode cnt (f + 1) (c :: cs) =
            Seg.plain [c] :: scanInlineCode cnt f cs := by
          simp only [scanInlineCode]
          rw [if_neg hc]
        rw [hstep]
        show (recsOf (Seg.plain [c] :: scanInlineCode cnt f cs)).map Rec.ph = _
        simpa [recsOf] using hk

theorem recsOf_msegs (d : List MSeg) :
    recsOf (msegs d) = (mrecsOf d).map MathRec.toRec := by
  induction d with
  | nil => rfl
  | cons seg d ih => cases seg <;> simp [msegs, recsOf, mrecsOf, ih] <;>
      simpa [msegs] using ih

theorem scanMathDisplay_renderO :
    ∀ f cnt s, s.length + 1 ≤ f → renderO (msegs (scanMathDisplay cnt f s)) = s := by
  intro f
  induction f with
  | zero => intro cnt s h; omega
  | succ f ih =>
    intro cnt s h
    match s with
    | [] => rfl
    | c :: cs =>
      by_cases hpre : dd.isPrefixOf (c :: cs)
      · match hdrop : (c :: cs).drop 2 with
        | [] =>
          have hdrop2 : cs.drop 1 = [] := by simpa using hdrop
          have hstep : scanMathDisplay cnt (f + 1) (c :: cs) = [MSeg.plain (c :: cs)] := by
            simp [scanMathDisplay, hpre, hdrop2]
          rw [hstep]
          simp [msegs, renderO]
        | r0 :: rtail =>
          have hdrop2 : cs.drop 1 = r0 :: rtail := by simpa using hdrop
          match hsp : splitFirst dd rtail with
          | some (pre, post) =>
            have hstep : scanMathDisplay cnt (f + 1) (c :: cs) =
                MSeg.tok ⟨phMD cnt, dd ++ (r0 :: pre) ++ dd, true, jsTrim (r0 :: pre)⟩ ::
                  scanMathDisplay (cnt + 1) f post := by
              simp [scanMathDisplay, hpre, hdrop2, hsp]
            have hs1 : c :: cs = dd ++ (c :: cs).drop 2 :=
              eq_append_of_pre (List.isPrefixOf_iff_prefix.mp hpre)
            have hs2 : rtail = pre ++ dd ++ post := splitFirst_sound hsp
            have hpost : post.length + 1 ≤ f := by
              have hl1 : rtail.length = pre.length + dd.length + post.length := by
                rw [hs2]; simp; try omega
              have hl2 := congrArg List.length hdrop
              simp [dd] at hl1 hl2
              simp at h
              omega
            rw [hstep]
            show (dd ++ (r0 :: pre) ++ dd) ++
              renderO (msegs (scanMathDisplay (cnt + 1) f post)) = c :: cs
            rw [ih (cnt + 1) post hpost]
            rw [hs1, hdrop, hs2]
            simp [List.append_assoc]
          | none =>
            have hstep : scanMathDisplay cnt (f + 1) (c :: cs) = [MSeg.plain (c :: cs)] := by
              simp [scanMathDisplay, hpre, hdrop2, hsp]
            rw [hstep]
            simp [msegs, renderO]
      · have hstep : scanMathDisplay cnt (f + 1) (c :: cs) =
            MSeg.plain [c] :: scanMathDisplay cnt f cs := by
          simp [scanMathDisplay, hpre]
        rw [hstep]
        show [c] ++ renderO (msegs (scanMathDisplay cnt f cs)) = c :: cs
        rw [ih cnt cs (by simp at h; omega)]
        rfl

theorem scanMathDisplay_phs :
    ∀ f cnt s, ∃ k, (mrecsOf (scanMathDisplay cnt f s)).map MathRec.ph =
      (List.range' cnt k).map phMD := by
  intro f
  induction f with
  | zero => intro cnt s; exact ⟨0, by simp [scanMathDisplay, mrecsOf]⟩
  | succ f ih =>
    intro cnt s
    match s with
    | [] => exact ⟨0, by simp [scanMathDisplay, mrecsOf]⟩
    | c :: cs =>
      by_cases hpre : dd.isPrefixOf (c :: cs)
      · match hdrop : (c :: cs).drop 2 with
        | [] =>
          have hdrop2 : cs.drop 1 = [] := by simpa using hdrop
          exact ⟨0, by simp [scanMathDisplay, hpre, hdrop2, mrecsOf]⟩
        | r0 :: rtail =>
          have hdrop2 : cs.drop 1 = r0 :: rtail := by simpa using hdrop
          match hsp : splitFirst dd rtail with
          | some (pre, post) =>
            obtain ⟨k, hk⟩ := ih (cnt + 1) post
            refine ⟨k + 1, ?_⟩
            have hstep : scanMathDisplay cnt (f + 1) (c :: cs) =
                MSeg.tok ⟨phMD cnt, dd ++ (r0 :: pre) ++ dd, true, jsTrim (r0 :: pre)⟩ ::
                  scanMathDisplay (cnt + 1) f post := by
              simp [scanMathDisplay, hpre, hdrop2, hsp]
            rw [hstep]
            show ((⟨phMD cnt, dd ++ (r0 :: pre) ++ dd, true, jsTrim (r0 :: pre)⟩ : MathRec) ::
              mrecsOf (scanMathDisplay (cnt + 1) f post)).map MathRec.ph = _
            rw [List.map_cons, hk, List.range'_succ]
            rfl
          | none =>
            exact ⟨0, by simp [scanMathDisplay, hpre, hdrop2, hsp, mrecsOf]⟩
      · obtain ⟨k, hk⟩ := ih cnt cs
        refine ⟨k, ?_⟩
        have hstep : scanMathDisplay cnt (f + 1) (c :: cs) =
            MSeg.plain [c] :: scanMathDisplay cnt f cs := by
          simp [scanMathDisplay, hpre]
        rw [hstep]
        show (mrecsOf (MSeg.plain [c] :: scanMathDisplay cnt f cs)).map MathRec.ph = _
        simpa [mrecsOf] using hk

theorem scanMathInline_renderO :
    ∀ f cnt prev s, s.length + 1 ≤ f →
      renderO (msegs (scanMathInline cnt f prev s)) = s := by
  intro f
  induction f with
  | zero => intro cnt prev s h; omega
  | succ f ih =>
    intro cnt prev s h
    match s with
    | [] => rfl
    | c :: cs =>
      by_cases hopen : mathOpenOk prev c cs
      · set run := cs.takeWhile (fun ch => ch ≠ '$' && ch ≠ '\n') with hrun
        by_cases hclose : mathCloseOk run cs
        · have hhd : (cs.drop run.length).head? = some '$' := by
            have := hclose
            unfold mathCloseOk at this
            simp only [Bool.and_eq_true, decide_eq_true_eq] at this
            exact this.1.1
          have hcs : cs = run ++ '$' :: cs.drop (run.length + 1) := by
            have h1 : cs = run ++ cs.drop run.length :=
              eq_append_of_pre (by rw [hrun]; exact List.takeWhile_prefix _)
            have h2 : cs.drop run.length = '$' :: cs.drop (run.length + 1) :=
              head_drop_decomp hhd
            rw [← h2]; exact h1
          have hrest : (cs.drop (run.length + 1)).length + 1 ≤ f := by
            rw [List.length_drop]
            simp at h
            have hrl : run.length ≤ cs.length := by
              have := congrArg List.length hcs
              simp at this
              omega
            omega
          have hstep : scanMathInline cnt (f + 1) prev (c :: cs) =
              MSeg.tok ⟨phMI cnt, '$' :: run ++ ['$'], false, jsTrim run⟩ ::
                scanMathInline (cnt + 1) f (some '$') (cs.drop (run.length + 1)) := by
            simp only [scanMathInline, ← hrun]
            rw [if_pos hopen, if_pos hclose]
          rw [hstep]
          show ('$' :: run ++ ['$']) ++
            renderO (msegs (scanMathInline (cnt + 1) f (some '$') (cs.drop (run.length + 1)))) =
              c :: cs
          rw [ih (cnt + 1) (some '$') _ hrest]
          have hcd : c = '$' := by
            unfold mathOpenOk at hopen
            simp only [Bool.and_eq_true, decide_eq_true_eq] at hopen
            exact hopen.1.1
          rw [hcd, show cs = run ++ '$' :: cs.drop (run.length + 1) from hcs]
          simp
        · have hstep : scanMathInline cnt (f + 1) prev (c :: cs) =
              MSeg.plain [c] :: scanMathInline cnt f (some c) cs := by
            simp only [scanMathInline, ← hrun]
            rw [if_pos hopen, if_neg hclose]
          rw [hstep]
          show [c] ++ renderO (msegs (scanMathInline cnt f (some c) cs)) = c :: cs
          rw [ih cnt (some c) cs (by simp at h; omega)]
          rfl
      · have hstep : scanMathInline cnt (f + 1) prev (c :: cs) =
            MSeg.plain [c] :: scanMathInline cnt f (some c) cs := by
          simp only [scanMathInline]
          rw [if_neg hopen]
        rw [hstep]
        show [c] ++ renderO (msegs (scanMathInline cnt f (some c) cs)) = c :: cs
        rw [ih cnt (some c) cs (by simp at h; omega)]
        rfl

theorem scanMathInline_phs :
    ∀ f cnt prev s, ∃ k, (mrecsOf (scanMathInline cnt f prev s)).map MathRec.ph =
      (List.range' cnt k).map phMI := by
  intro f
  induction f with
  | zero => intro cnt prev s; exact ⟨0, by simp [scanMathInline, mrecsOf]⟩
  | succ f ih =>
    intro cnt prev s
    match s with
    | [] => exact ⟨0, by simp [scanMathInline, mrecsOf]⟩
    | c :: cs =>
      by_cases hopen : mathOpenOk prev c cs
      · set run := cs.takeWhile (fun ch => ch ≠ '$' && ch ≠ '\n') with hrun
        by_cases hclose : mathCloseOk run cs
        · obtain ⟨k, hk⟩ := ih (cnt + 1) (some '$') (cs.drop (run.length + 1))
          refine ⟨k + 1, ?_⟩
          have hstep : scanMathInline cnt (f + 1) prev (c :: cs) =
              MSeg.tok ⟨phMI cnt, '$' :: run ++ ['$'], false, jsTrim run⟩ ::
                scanMathInline (cnt + 1) f (some '$') (cs.drop (run.length + 1)) := by
            simp only [scanMathInline, ← hrun]
            rw [if_pos hopen, if_pos hclose]
          rw [hstep]
          show ((⟨phMI cnt, '$' :: run ++ ['$'], false, jsTrim run⟩ : MathRec) ::
            mrecsOf (scanMathInline (cnt + 1) f (some '$') (cs.drop (run.length + 1)))).map
              MathRec.ph = _
          rw [List.map_cons, hk, List.range'_succ]
          rfl
        · obtain ⟨k, hk⟩ := ih cnt (some c) cs
          refine ⟨k, ?_⟩
          have hstep : scanMathInline cnt (f + 1) prev (c :: cs) =
              MSeg.plain [c] :: scanMathInline cnt f (some c) cs := by
            simp only [scanMathInline, ← hrun]
            rw [if_pos hopen, if_neg hclose]
          rw [hstep]
          show (mrecsOf (MSeg.plain [c] :: scanMathInline cnt f (some c) cs)).map MathRec.ph = _
          simpa [mrecsOf] using hk
      · obtain ⟨k, hk⟩ := ih cnt (some c) cs
        refine ⟨k, ?_⟩
        have hstep : scanMathInline cnt (f + 1) prev (c :: cs) =
            MSeg.plain [c] :: scanMathInline cnt f (some c) cs := by
          simp only [scanMathInline]
          rw [if_neg hopen]
        rw [hstep]
        show (mrecsOf (MSeg.plain [c] :: scanMathInline cnt f (some c) cs)).map MathRec.ph = _
        simpa [mrecsOf] using hk

theorem recsOf_isegs (d : List ISeg) :
    recsOf (isegs d) = (irecsOf d).map ImageRec.toRec := by
  induction d with
  | nil => rfl
  | cons seg d ih => cases seg <;> simp [isegs, recsOf, irecsOf, ih] <;>
      simpa [isegs] using ih

theorem head_decomp {s : Str} {a : Char} (h : s.head? = some a) :
    s = a :: s.drop 1 := by
  cases s with
  | nil => simp at h
  | cons b t =>
    have hb : b = a := by simpa using h
    rw [hb]
    rfl

theorem mkWikiImage_orig (cnt : Nat) (orig path : Str) (so : Option Str) :
    (mkWikiImage cnt orig path so).orig = orig := by
  unfold mkWikiImage
  rcases so with _ | s0
  · rfl
  · simp only []
    split_ifs <;> rfl

theorem mkWikiImage_ph (cnt : Nat) (orig path : Str) (so : Option Str) :
    (mkWikiImage cnt orig path so).ph = phIM cnt := by
  unfold mkWikiImage
  rcases so with _ | s0
  · rfl
  · simp only []
    split_ifs <;> rfl

theorem scanWikiImage_renderO :
    ∀ f cnt s, s.length + 1 ≤ f → renderO (isegs (scanWikiImage cnt f s)) = s := by
  intro f
  induction f with
  | zero => intro cnt s h; omega
  | succ f ih =>
    intro cnt s h
    match s with
    | [] => rfl
    | c :: cs =>
      set p := (c :: cs).drop 3 with hpdef
      set path := p.takeWhile (fun ch => ch ≠ ']' && ch ≠ '|') with hpathdef
      set after := p.drop path.length with hafterdef
      by_cases hpre : ("![[".data).isPrefixOf (c :: cs)
      · have h1 : c :: cs = ("![[".data) ++ p :=
          eq_append_of_pre (List.isPrefixOf_iff_prefix.mp hpre)
        have hpp : p = path ++ after := by
          rw [hafterdef, hpathdef]
          exact eq_append_of_pre (List.takeWhile_prefix _)
        by_cases hpath : path ≠ []
        · by_cases hbar : after.head? = some '|'
          · set sfx := (after.drop 1).takeWhile (fun ch => ch ≠ ']') with hsfxdef
            set r2 := after.drop (1 + sfx.length) with hr2def
            by_cases hbr : ("]]".data).isPrefixOf r2
            · have hafter1 : after = '|' :: after.drop 1 := head_decomp hbar
              have hsfx1 : after.drop 1 = sfx ++ r2 := by
                have ha : after.drop 1 = sfx ++ (after.drop 1).drop sfx.length := by
                  rw [hsfxdef]
                  exact eq_append_of_pre (List.takeWhile_prefix _)
                have hb : (after.drop 1).drop sfx.length = after.drop (1 + sfx.length) := by
                  rw [← List.drop_drop]
                rw [hb] at ha
                exact ha
              have hr21 : r2 = ("]]".data) ++ r2.drop 2 :=
                eq_append_of_pre (List.isPrefixOf_iff_prefix.mp hbr)
              have hfull : c :: cs =
                  (("![[".data) ++ path ++ '|' :: sfx ++ ("]]".data)) ++ r2.drop 2 := by
                rw [h1, hpp, hafter1, hsfx1, hr21]
                simp [List.append_assoc]
              have hrest : (r2.drop 2).length + 1 ≤ f := by
                have hlen := congrArg List.length hfull
                simp [List.length_drop] at hlen h ⊢
                omega
              have hstep : scanWikiImage cnt (f + 1) (c :: cs) =
                  ISeg.tok (mkWikiImage cnt
                      (("![[".data) ++ path ++ '|' :: sfx ++ ("]]".data)) path (some sfx)) ::
                    scanWikiImage (cnt + 1) f (r2.drop 2) := by
                simp only [scanWikiImage, ← hpdef, ← hpathdef, ← hafterdef, ← hsfxdef, ← hr2def]
                rw [if_pos hpre, if_pos hpath, if_pos hbar, if_pos hbr]
              rw [hstep]
              have hO : renderO (isegs (ISeg.tok (mkWikiImage cnt
                    (("![[".data) ++ path ++ '|' :: sfx ++ ("]]".data)) path (some sfx)) ::
                  scanWikiImage (cnt + 1) f (r2.drop 2))) =
                  (mkWikiImage cnt (("![[".data) ++ path ++ '|' :: sfx ++ ("]]".data)) path
                    (some sfx)).orig ++
                    renderO (isegs (scanWikiImage (cnt + 1) f (r2.drop 2))) := rfl
              rw [hO, mkWikiImage_orig, ih (cnt + 1) _ hrest]
              exact hfull.symm
            · have hstep : scanWikiImage cnt (f + 1) (c :: cs) =
                  ISeg.plain [c] :: scanWikiImage cnt f cs := by
                simp only [scanWikiImage, ← hpdef, ← hpathdef, ← hafterdef, ← hsfxdef, ← hr2def]
                rw [if_pos hpre, if_pos hpath, if_pos hbar, if_neg hbr]
              rw [hstep]
              show [c] ++ renderO (isegs (scanWikiImage cnt f cs)) = c :: cs
              rw [ih cnt cs (by simp at h; omega)]
              rfl
          · by_cases hbr : ("]]".data).isPrefixOf after
            · have hafter2 : after = ("]]".data) ++ after.drop 2 :=
                eq_append_of_pre (List.isPrefixOf_iff_prefix.mp hbr)
              have hfull : c :: cs =
                  (("![[".data) ++ path ++ ("]]".data)) ++ after.drop 2 := by
                rw [h1, hpp, hafter2]
                simp [List.append_assoc]
              have hrest : (after.drop 2).length + 1 ≤ f := by
                have hlen := congrArg List.length hfull
                simp [List.length_drop] at hlen h ⊢
                omega
              have hstep : scanWikiImage cnt (f + 1) (c :: cs) =
                  ISeg.tok (mkWikiImage cnt
                      (("![[".data) ++ path ++ ("]]".data)) path none) ::
                    scanWikiImage (cnt + 1) f (after.drop 2) := by
                simp only [scanWikiImage, ← hpdef, ← hpathdef, ← hafterdef]
                rw [if_pos hpre, if_pos hpath, if_neg hbar, if_pos hbr]
              rw [hstep]
              have hO : renderO (isegs (ISeg.tok (mkWikiImage cnt
                    (("![[".data) ++ path ++ ("]]".data)) path none) ::
                  scanWikiImage (cnt + 1) f (after.drop 2))) =
                  (mkWikiImage cnt (("![[".data) ++ path ++ ("]]".data)) path none).orig ++
                    renderO (isegs (scanWikiImage (cnt + 1) f (after.drop 2))) := rfl
              rw [hO, mkWikiImage_orig, ih (cnt + 1) _ hrest]
              exact hfull.symm
            · have hstep : scanWikiImage cnt (f + 1) (c :: cs) =
                  ISeg.plain [c] :: scanWikiImage cnt f cs := by
                simp only [scanWikiImage, ← hpdef, ← hpathdef, ← hafterdef]
                rw [if_pos hpre, if_pos hpath, if_neg hbar, if_neg hbr]
              rw [hstep]
              show [c] ++ renderO (isegs (scanWikiImage cnt f cs)) = c :: cs
              rw [ih cnt cs (by simp at h; omega)]
              rfl
        · have hstep : scanWikiImage cnt (f + 1) (c :: cs) =
              ISeg.plain [c] :: scanWikiImage cnt f cs := by
            simp only [scanWikiImage, ← hpdef, ← hpathdef, ← hafterdef]
            rw [if_pos hpre, if_neg hpath]
          rw [hstep]
          show [c] ++ renderO (isegs (scanWikiImage cnt f cs)) = c :: cs
          rw [ih cnt cs (by simp at h; omega)]
          rfl
      · have hstep : scanWikiImage cnt (f + 1) (c :: cs) =
            ISeg.plain [c] :: scanWikiImage cnt f cs := by
          simp only [scanWikiImage]
          rw [if_neg hpre]
        rw [hstep]
        show [c] ++ renderO (isegs (scanWikiImage cnt f cs)) = c :: cs
        rw [ih cnt cs (by simp at h; omega)]
        rfl

theorem scanMdImage_renderO :
    ∀ f cnt s, s.length + 1 ≤ f → renderO (isegs (scanMdImage cnt f s)) = s := by
  intro f
  induction f with
  | zero => intro cnt s h; omega
  | succ f ih =>
    intro cnt s h
    match s with
    | [] => rfl
    | c :: cs =>
      set p := (c :: cs).drop 2 with hpdef
      set alt := p.takeWhile (fun ch => ch ≠ ']') with haltdef
      set r1 := p.drop alt.length with hr1def
      by_cases hpre : ("![".data).isPrefixOf (c :: cs)
      · have h1 : c :: cs = ("![".data) ++ p :=
          eq_append_of_pre (List.isPrefixOf_iff_prefix.mp hpre)
        have hpp : p = alt ++ r1 := by
          rw [hr1def, haltdef]
          exact eq_append_of_pre (List.takeWhile_prefix _)
        by_cases hbp : ("](".data).isPrefixOf r1
        · set r2 := r1.drop 2 with hr2def
          set pathP := r2.takeWhile (fun ch => ch ≠ ')') with hpathdef
          by_cases hok : pathP ≠ [] ∧ (r2.drop pathP.length).head? = some ')'
          · have hr11 : r1 = ("](".data) ++ r2 :=
              eq_append_of_pre (List.isPrefixOf_iff_prefix.mp hbp)
            have hr21 : r2 = pathP ++ ')' :: r2.drop (pathP.length + 1) := by
              have ha : r2 = pathP ++ r2.drop pathP.length := by
                rw [hpathdef]
                exact eq_append_of_pre (List.takeWhile_prefix _)
              have hb : r2.drop pathP.length = ')' :: r2.drop (pathP.length + 1) :=
                head_drop_decomp hok.2
              rw [← hb]
              exact ha
            have hfull : c :: cs =
                (("![".data) ++ alt ++ ("](".data) ++ pathP ++ (")".data)) ++
                  r2.drop (pathP.length + 1) := by
              rw [h1, hpp, hr11, hr21]
              simp [List.append_assoc]
            have hrest : (r2.drop (pathP.length + 1)).length + 1 ≤ f := by
              have hlen := congrArg List.length hfull
              simp [List.length_drop] at hlen h ⊢
              omega
            have hstep : scanMdImage cnt (f + 1) (c :: cs) =
                ISeg.tok ⟨phIM cnt,
                    ("![".data) ++ alt ++ ("](".data) ++ pathP ++ (")".data),
                    decodeURIComp (pathP.length + 1) (jsTrim pathP), alt, none,
                    endsSvg (decodeURIComp (pathP.length + 1) (jsTrim pathP))⟩ ::
                  scanMdImage (cnt + 1) f (r2.drop (pathP.length + 1)) := by
              simp only [scanMdImage, ← hpdef, ← haltdef, ← hr1def, ← hr2def, ← hpathdef]
              rw [if_pos hpre, if_pos hbp, if_pos hok]
            rw [hstep]
            show (("![".data) ++ alt ++ ("](".data) ++ pathP ++ (")".data)) ++
              renderO (isegs (scanMdImage (cnt + 1) f (r2.drop (pathP.length + 1)))) = c :: cs
            rw [ih (cnt + 1) _ hrest]
            exact hfull.symm
          · have hstep : scanMdImage cnt (f + 1) (c :: cs) =
                ISeg.plain [c] :: scanMdImage cnt f cs := by
              simp only [scanMdImage, ← hpdef, ← haltdef, ← hr1def, ← hr2def, ← hpathdef]
              rw [if_pos hpre, if_pos hbp, if_neg hok]
            rw [hstep]
            show [c] ++ renderO (isegs (scanMdImage cnt f cs)) = c :: cs
            rw [ih cnt cs (by simp at h; omega)]
            rfl
        · have hstep : scanMdImage cnt (f + 1) (c :: cs) =
              ISeg.plain [c] :: scanMdImage cnt f cs := by
            simp only [scanMdImage, ← hpdef, ← haltdef, ← hr1def]
            rw [if_pos hpre, if_neg hbp]
          rw [hstep]
          show [c] ++ renderO (isegs (scanMdImage cnt f cs)) = c :: cs
          rw [ih cnt cs (by simp at h; omega)]
          rfl
      · have hstep : scanMdImage cnt (f + 1) (c :: cs) =
            ISeg.plain [c] :: scanMdImage cnt f cs := by
          simp only [scanMdImage]
          rw [if_neg hpre]
        rw [hstep]
        show [c] ++ renderO (isegs (scanMdImage cnt f cs)) = c :: cs
        rw [ih cnt cs (by simp at h; omega)]
        rfl

theorem scanWikiImage_phs :
    ∀ f cnt s, ∃ k, (irecsOf (scanWikiImage cnt f s)).map ImageRec.ph =
      (List.range' cnt k).map phIM := by
  intro f
  induction f with
  | zero => intro cnt s; exact ⟨0, by simp [scanWikiImage, irecsOf]⟩
  | succ f ih =>
    intro cnt s
    match s with
    | [] => exact ⟨0, by simp [scanWikiImage, irecsOf]⟩
    | c :: cs =>
      set p := (c :: cs).drop 3 with hpdef
      set path := p.takeWhile (fun ch => ch ≠ ']' && ch ≠ '|') with hpathdef
      set after := p.drop path.length with hafterdef
      by_cases hpre : ("![[".data).isPrefixOf (c :: cs)
      · by_cases hpath : path ≠ []
        · by_cases hbar : after.head? = some '|'
          · set sfx := (after.drop 1).takeWhile (fun ch => ch ≠ ']') with hsfxdef
            set r2 := after.drop (1 + sfx.length) with hr2def
            by_cases hbr : ("]]".data).isPrefixOf r2
            · obtain ⟨k, hk⟩ := ih (cnt + 1) (r2.drop 2)
              refine ⟨k + 1, ?_⟩
              have hstep : scanWikiImage cnt (f + 1) (c :: cs) =
                  ISeg.tok (mkWikiImage cnt
                      (("![[".data) ++ path ++ '|' :: sfx ++ ("]]".data)) path (some sfx)) ::
                    scanWikiImage (cnt + 1) f (r2.drop 2) := by
                simp only [scanWikiImage, ← hpdef, ← hpathdef, ← hafterdef, ← hsfxdef, ← hr2def]
                rw [if_pos hpre, if_pos hpath, if_pos hbar, if_pos hbr]
              rw [hstep]
              show ((mkWikiImage cnt _ path (some sfx)) ::
                irecsOf (scanWikiImage (cnt + 1) f (r2.drop 2))).map ImageRec.ph = _
              rw [List.map_cons, hk, List.range'_succ, mkWikiImage_ph]
              rfl
            · obtain ⟨k, hk⟩ := ih cnt cs
              refine ⟨k, ?_⟩
              have hstep : scanWikiImage cnt (f + 1) (c :: cs) =
                  ISeg.plain [c] :: scanWikiImage cnt f cs := by
                simp only [scanWikiImage, ← hpdef, ← hpathdef, ← hafterdef, ← hsfxdef, ← hr2def]
                rw [if_pos hpre, if_pos hpath, if_pos hbar, if_neg hbr]
              rw [hstep]
              show (irecsOf (ISeg.plain [c] :: scanWikiImage cnt f cs)).map ImageRec.ph = _
              simpa [irecsOf] using hk
          · by_cases hbr : ("]]".data).isPrefixOf after
            · obtain ⟨k, hk⟩ := ih (cnt + 1) (after.drop 2)
              refine ⟨k + 1, ?_⟩
              have hstep : scanWikiImage cnt (f + 1) (c :: cs) =
                  ISeg.tok (mkWikiImage cnt
                      (("![[".data) ++ path ++ ("]]".data)) path none) ::
                    scanWikiImage (cnt + 1) f (after.drop 2) := by
                simp only [scanWikiImage, ← hpdef, ← hpathdef, ← hafterdef]
                rw [if_pos hpre, if_pos hpath, if_neg hbar, if_pos hbr]
              rw [hstep]
              show ((mkWikiImage cnt _ path none) ::
                irecsOf (scanWikiImage (cnt + 1) f (after.drop 2))).map ImageRec.ph = _
              rw [List.map_cons, hk, List.range'_succ, mkWikiImage_ph]
              rfl
            · obtain ⟨k, hk⟩ := ih cnt cs
              refine ⟨k, ?_⟩
              have hstep : scanWikiImage cnt (f + 1) (c :: cs) =
                  ISeg.plain [c] :: scanWikiImage cnt f cs := by
                simp only [scanWikiImage, ← hpdef, ← hpathdef, ← hafterdef]
                rw [if_pos hpre, if_pos hpath, if_neg hbar, if_neg hbr]
              rw [hstep]
              show (irecsOf (ISeg.plain [c] :: scanWikiImage cnt f cs)).map ImageRec.ph = _
              simpa [irecsOf] using hk
        · obtain ⟨k, hk⟩ := ih cnt cs
          refine ⟨k, ?_⟩
          have hstep : scanWikiImage cnt (f + 1) (c :: cs) =
              ISeg.plain [c] :: scanWikiImage cnt f cs := by
            simp only [scanWikiImage, ← hpdef, ← hpathdef, ← hafterdef]
            rw [if_pos hpre, if_neg hpath]
          rw [hstep]
          show (irecsOf (ISeg.plain [c] :: scanWikiImage cnt f cs)).map ImageRec.ph = _
          simpa [irecsOf] using hk
      · obtain ⟨k, hk⟩ := ih cnt cs
        refine ⟨k, ?_⟩
        have hstep : scanWikiImage cnt (f + 1) (c :: cs) =
            ISeg.plain [c] :: scanWikiImage cnt f cs := by
          simp only [scanWikiImage]
          rw [if_neg hpre]
        rw [hstep]
        show (irecsOf (ISeg.plain [c] :: scanWikiImage cnt f cs)).map ImageRec.ph = _
        simpa [irecsOf] using hk

theorem scanMdImage_phs :
    ∀ f cnt s, ∃ k, (irecsOf (scanMdImage cnt f s)).map ImageRec.ph =
      (List.range' cnt k).map phIM := by
  intro f
  induction f with
  | zero => intro cnt s; exact ⟨0, by simp [scanMdImage, irecsOf]⟩
  | succ f ih =>
    intro cnt s
    match s with
    | [] => exact ⟨0, by simp [scanMdImage, irecsOf]⟩
    | c :: cs =>
      set p := (c :: cs).drop 2 with hpdef
      set alt := p.takeWhile (fun ch => ch ≠ ']') with haltdef
      set r1 := p.drop alt.length with hr1def
      by_cases hpre : ("![".data).isPrefixOf (c :: cs)
      · by_cases hbp : ("](".data).isPrefixOf r1
        · set r2 := r1.drop 2 with hr2def
          set pathP := r2.takeWhile (fun ch => ch ≠ ')') with hpathdef
          by_cases hok : pathP ≠ [] ∧ (r2.drop pathP.length).head? = some ')'
          · obtain ⟨k, hk⟩ := ih (cnt + 1) (r2.drop (pathP.length + 1))
            refine ⟨k + 1, ?_⟩
            have hstep : scanMdImage cnt (f + 1) (c :: cs) =
                ISeg.tok ⟨phIM cnt,
                    ("![".data) ++ alt ++ ("](".data) ++ pathP ++ (")".data),
                    decodeURIComp (pathP.length + 1) (jsTrim pathP), alt, none,
                    endsSvg (decodeURIComp (pathP.length + 1) (jsTrim pathP))⟩ ::
                  scanMdImage (cnt + 1) f (r2.drop (pathP.length + 1)) := by
              simp only [scanMdImage, ← hpdef, ← haltdef, ← hr1def, ← hr2def, ← hpathdef]
              rw [if_pos hpre, if_pos hbp, if_pos hok]
            rw [hstep]
            show ((⟨phIM cnt, _, _, alt, none, _⟩ : ImageRec) ::
              irecsOf (scanMdImage (cnt + 1) f (r2.drop (pathP.length + 1)))).map ImageRec.ph = _
            rw [List.map_cons, hk, List.range'_succ]
            rfl
          · obtain ⟨k, hk⟩ := ih cnt cs
            refine ⟨k, ?_⟩
            have hstep : scanMdImage cnt (f + 1) (c :: cs) =
                ISeg.plain [c] :: scanMdImage cnt f cs := by
              simp only [scanMdImage, ← hpdef, ← haltdef, ← hr1def, ← hr2def, ← hpathdef]
              rw [if_pos hpre, if_pos hbp, if_neg hok]
            rw [hstep]
            show (irecsOf (ISeg.plain [c] :: scanMdImage cnt f cs)).map ImageRec.ph = _
            simpa [irecsOf] using hk
        · obtain ⟨k, hk⟩ := ih cnt cs
          refine ⟨k, ?_⟩
          have hstep : scanMdImage cnt (f + 1) (c :: cs) =
              ISeg.plain [c] :: scanMdImage cnt f cs := by
            simp only [scanMdImage, ← hpdef, ← haltdef, ← hr1def]
            rw [if_pos hpre, if_neg hbp]
          rw [hstep]
          show (irecsOf (ISeg.plain [c] :: scanMdImage cnt f cs)).map ImageRec.ph = _
          simpa [irecsOf] using hk
      · obtain ⟨k, hk⟩ := ih cnt cs
        refine ⟨k, ?_⟩
        have hstep : scanMdImage cnt (f + 1) (c :: cs) =
            ISeg.plain [c] :: scanMdImage cnt f cs := by
          simp only [scanMdImage]
          rw [if_neg hpre]
        rw [hstep]
        show (irecsOf (ISeg.plain [c] :: scanMdImage cnt f cs)).map ImageRec.ph = _
        simpa [irecsOf] using hk

/-! ### The two-pass round trip -/

theorem good_of_shape {kind : Str} (hk : kind.length = 2) (hg : 'G' ∉ kind)
    {recs : List Rec} {a k : Nat}
    (hsh : recs.map Rec.ph = (List.range' a k).map (phTok kind))
    (hbound : a + k ≤ 10) : ∀ r ∈ recs, GoodTok 'G' 9 r.ph := by
  intro r hr
  have hmem : r.ph ∈ (List.range' a k).map (phTok kind) :=
    hsh ▸ List.mem_map_of_mem Rec.ph hr
  obtain ⟨i, hi, hphi⟩ := List.mem_map.mp hmem
  have hilt : i < 10 := by
    have := (List.mem_range'_1.mp hi).2
    omega
  exact hphi ▸ goodTok_phTok hk hg hilt

theorem fresh_of_shape {kind : Str} {recs : List Rec} {a k : Nat}
    (hsh : recs.map Rec.ph = (List.range' a k).map (phTok kind))
    {md : Str} (hfresh : ¬ ("GDOCS_".data) <:+: md) :
    ∀ r ∈ recs, ¬ r.ph <:+: md := by
  intro r hr hsub
  have hmem : r.ph ∈ (List.range' a k).map (phTok kind) :=
    hsh ▸ List.mem_map_of_mem Rec.ph hr
  obtain ⟨i, hi, hphi⟩ := List.mem_map.mp hmem
  rw [← hphi] at hsub
  exact hfresh (sub_of_ph_sub hsub)

theorem nodup_phTok_shape {kind : Str} {a k : Nat} :
    ((List.range' a k).map (phTok kind)).Nodup :=
  (List.nodup_range' _ _).map (fun _ _ h => (phTok_inj rfl h).2)

theorem disjoint_phTok {kA kB : Str} {a na b nb : Nat}
    (hl : kA.length = kB.length)
    (hcase : kA ≠ kB ∨ a + na ≤ b) :
    List.Disjoint ((List.range' a na).map (phTok kA))
      ((List.range' b nb).map (phTok kB)) := by
  intro x hx1 hx2
  obtain ⟨i, hi, rfl⟩ := List.mem_map.mp hx1
  obtain ⟨j, hj, hji⟩ := List.mem_map.mp hx2
  obtain ⟨hKeq, hieq⟩ := phTok_inj hl.symm hji
  rcases hcase with hcase | hcase
  · exact hcase hKeq.symm
  · have h1 := (List.mem_range'_1.mp hi).2
    have h2 := (List.mem_range'_1.mp hj).1
    omega

theorem nodup_phTok_append {kA kB : Str} {a na b nb : Nat}
    (hl : kA.length = kB.length)
    (hcase : kA ≠ kB ∨ a + na ≤ b) :
    (((List.range' a na).map (phTok kA)) ++ ((List.range' b nb).map (phTok kB))).Nodup :=
  List.Nodup.append nodup_phTok_shape nodup_phTok_shape (disjoint_phTok hl hcase)

/-- A full two-pass extraction (one scanner pass producing `d1`, then a
second pass over the first pass's cleaned text producing `d2`) restores to
the original text, provided all placeholders are good `G`-tokens, pairwise
distinct, and none of them occurs as a substring of the input. -/
theorem two_pass_restore (md : Str) (d1 d2 : List Seg)
    (hO1 : renderO d1 = md)
    (hO2 : renderO d2 = renderC d1)
    (hG1 : ∀ r ∈ recsOf d1, GoodTok 'G' 9 r.ph)
    (hG2 : ∀ r ∈ recsOf d2, GoodTok 'G' 9 r.ph)
    (hnd : ((recsOf d1).map Rec.ph ++ (recsOf d2).map Rec.ph).Nodup)
    (hfr1 : ∀ r ∈ recsOf d1, ¬ r.ph <:+: md)
    (hfr2 : ∀ r ∈ recsOf d2, ¬ r.ph <:+: md) :
    restoreExtractions (renderC d2) (recsOf d1 ++ recsOf d2) = md := by
  unfold restoreExtractions
  rw [List.foldr_append]
  have hocc2 : ∀ r ∈ recsOf d2, ¬ r.ph <:+: renderO d2 := by
    intro r hr hsub
    rw [hO2] at hsub
    obtain ⟨n, hocc⟩ := sub_iff_occAt.mp hsub
    rcases occ_slot 'G' 9 r.ph (hG2 r hr) d1.length d1 (le_refl _) hG1 n hocc with
      hsub1 | ⟨E, r1, F, hEF, hph, -⟩
    · rw [hO1] at hsub1
      exact hfr2 r hr hsub1
    · have hmem1 : r1.ph ∈ (recsOf d1).map Rec.ph := by
        refine List.mem_map_of_mem Rec.ph ?_
        rw [hEF, recsOf_append]
        simp [recsOf]
      have hmem2 : r.ph ∈ (recsOf d2).map Rec.ph := List.mem_map_of_mem Rec.ph hr
      have hdisj := List.disjoint_of_nodup_append hnd
      exact hdisj (hph ▸ hmem1) hmem2
  have hnd2 : ((recsOf d2).map Rec.ph).Nodup := List.Nodup.of_append_right hnd
  have h2 := restore_pass_bwd 'G' 9 (recsOf d2).length d2 (le_refl _) hG2 hnd2 hocc2
  rw [h2, hO2]
  have hocc1 : ∀ r ∈ recsOf d1, ¬ r.ph <:+: renderO d1 := by
    intro r hr
    rw [hO1]
    exact hfr1 r hr
  have hnd1 : ((recsOf d1).map Rec.ph).Nodup := List.Nodup.of_append_left hnd
  have h1 := restore_pass_bwd 'G' 9 (recsOf d1).length d1 (le_refl _) hG1 hnd1 hocc1
  rw [h1, hO1]

/-- Round trip of `extractCodeBlocks` followed by `restoreExtractions`, for
inputs that avoid the placeholder prefix and produce at most 10 records. -/
theorem extractCodeBlocks_restore (md : Str)
    (hfresh : ¬ ("GDOCS_".data) <:+: md)
    (hsize : (extractCodeBlocks md).2.length ≤ 10) :
    restoreExtractions (extractCodeBlocks md).1 (extractCodeBlocks md).2 = md := by
  obtain ⟨k1, hk1⟩ := scanFenced_phs (md.length + 1) 0 md
  obtain ⟨k2, hk2⟩ :=
    scanInlineCode_phs ((renderC (scanFenced 0 (md.length + 1) md)).length + 1)
      (recsOf (scanFenced 0 (md.length + 1) md)).length
      (renderC (scanFenced 0 (md.length + 1) md))
  set d1 := scanFenced 0 (md.length + 1) md with hd1
  set c1 := renderC d1 with hc1
  set d2 := scanInlineCode (recsOf d1).length (c1.length + 1) c1 with hd2
  have hlen1 : (recsOf d1).length = k1 := by
    have := congrArg List.length hk1
    simpa using this
  have hlen2 : (recsOf d2).length = k2 := by
    have := congrArg List.length hk2
    simpa using this
  have hsize2 : (recsOf d1 ++ recsOf d2).length ≤ 10 := hsize
  have hbound : k1 + k2 ≤ 10 := by
    simp at hsize2
    omega
  have hk2' : (recsOf d2).map Rec.ph = (List.range' k1 k2).map (phTok ("CI".data)) := by
    rw [← hlen1]
    exact hk2
  show restoreExtractions (renderC d2) (recsOf d1 ++ recsOf d2) = md
  apply two_pass_restore md d1 d2
  · exact scanFenced_renderO _ 0 md (le_refl _)
  · exact scanInlineCode_renderO _ _ c1 (le_refl _)
  · exact good_of_shape (by decide) (by decide) hk1 (by omega)
  · exact good_of_shape (by decide) (by decide) hk2' (by omega)
  · rw [hk1, hk2']
    exact nodup_phTok_append rfl (Or.inr (by omega))
  · exact fresh_of_shape hk1 hfresh
  · exact fresh_of_shape hk2' hfresh

theorem map_ph_toRecM (l : List MathRec) :
    (l.map MathRec.toRec).map Rec.ph = l.map MathRec.ph := by
  induction l with
  | nil => rfl
  | cons m l ih => simp [MathRec.toRec, ih]

theorem map_ph_toRecI (l : List ImageRec) :
    (l.map ImageRec.toRec).map Rec.ph = l.map ImageRec.ph := by
  induction l with
  | nil => rfl
  | cons m l ih => simp [ImageRec.toRec, ih]

/-- Round trip of `extractMath` followed by `restoreExtractions` (the math
records are passed to the restorer through their base extraction part, as
in the source, where `MathExtraction[]` is assignable to `Extraction[]`). -/
theorem extractMath_restore (md : Str)
    (hfresh : ¬ ("GDOCS_".data) <:+: md)
    (hsize : (extractMath md).2.length ≤ 10) :
    restoreExtractions (extractMath md).1 ((extractMath md).2.map MathRec.toRec) = md := by
  obtain ⟨k1, hk1⟩ := scanMathDisplay_phs (md.length + 1) 0 md
  obtain ⟨k2, hk2⟩ :=
    scanMathInline_phs ((renderCM (scanMathDisplay 0 (md.length + 1) md)).length + 1)
      (mrecsOf (scanMathDisplay 0 (md.length + 1) md)).length none
      (renderCM (scanMathDisplay 0 (md.length + 1) md))
  set dm1 := scanMathDisplay 0 (md.length + 1) md with hdm1
  set c1 := renderCM dm1 with hc1
  set dm2 := scanMathInline (mrecsOf dm1).length (c1.length + 1) none c1 with hdm2
  have hlen1 : (mrecsOf dm1).length = k1 := by
    have := congrArg List.length hk1
    simpa using this
  have hlen2 : (mrecsOf dm2).length = k2 := by
    have := congrArg List.length hk2
    simpa using this
  have hsize2 : (mrecsOf dm1 ++ mrecsOf dm2).length ≤ 10 := hsize
  have hbound : k1 + k2 ≤ 10 := by
    simp at hsize2
    omega
  have hk2' : (mrecsOf dm2).map MathRec.ph = (List.range' k1 k2).map (phTok ("MI".data)) := by
    rw [← hlen1]
    exact hk2
  have hrec1 : (recsOf (msegs dm1)).map Rec.ph = (List.range' 0 k1).map (phTok ("MD".data)) := by
    rw [recsOf_msegs, map_ph_toRecM]
    exact hk1
  have hrec2 : (recsOf (msegs dm2)).map Rec.ph = (List.range' k1 k2).map (phTok ("MI".data)) := by
    rw [recsOf_msegs, map_ph_toRecM]
    exact hk2'
  have hmain : restoreExtractions (renderC (msegs dm2))
      (recsOf (msegs dm1) ++ recsOf (msegs dm2)) = md := by
    apply two_pass_restore md (msegs dm1) (msegs dm2)
    · exact scanMathDisplay_renderO _ 0 md (le_refl _)
    · exact scanMathInline_renderO _ _ none c1 (le_refl _)
    · exact good_of_shape (by decide) (by decide) hrec1 (by omega)
    · exact good_of_shape (by decide) (by decide) hrec2 (by omega)
    · rw [hrec1, hrec2]
      exact nodup_phTok_append rfl (Or.inr (by omega))
    · exact fresh_of_shape hrec1 hfresh
    · exact fresh_of_shape hrec2 hfresh
  have heq : (extractMath md).2.map MathRec.toRec =
      recsOf (msegs dm1) ++ recsOf (msegs dm2) := by
    show (mrecsOf dm1 ++ mrecsOf dm2).map MathRec.toRec = _
    rw [List.map_append, recsOf_msegs, recsOf_msegs]
  rw [heq]
  exact hmain

/-- Round trip of `extractImageEmbeds` followed by `restoreExtractions`. -/
theorem extractImageEmbeds_restore (md : Str)
    (hfresh : ¬ ("GDOCS_".data) <:+: md)
    (hsize : (extractImageEmbeds md).2.length ≤ 10) :
    restoreExtractions (extractImageEmbeds md).1
      ((extractImageEmbeds md).2.map ImageRec.toRec) = md := by
  obtain ⟨k1, hk1⟩ := scanWikiImage_phs (md.length + 1) 0 md
  obtain ⟨k2, hk2⟩ :=
    scanMdImage_phs ((renderCI (scanWikiImage 0 (md.length + 1) md)).length + 1)
      (irecsOf (scanWikiImage 0 (md.length + 1) md)).length
      (renderCI (scanWikiImage 0 (md.length + 1) md))
  set di1 := scanWikiImage 0 (md.length + 1) md with hdi1
  set c1 := renderCI di1 with hc1
  set di2 := scanMdImage (irecsOf di1).length (c1.length + 1) c1 with hdi2
  have hlen1 : (irecsOf di1).length = k1 := by
    have := congrArg List.length hk1
    simpa using this
  have hlen2 : (irecsOf di2).length = k2 := by
    have := congrArg List.length hk2
    simpa using this
  have hsize2 : (irecsOf di1 ++ irecsOf di2).length ≤ 10 := hsize
  have hbound : k1 + k2 ≤ 10 := by
    simp at hsize2
    omega
  have hk2' : (irecsOf di2).map ImageRec.ph = (List.range' k1 k2).map (phTok ("IM".data)) := by
    rw [← hlen1]
    exact hk2
  have hrec1 : (recsOf (isegs di1)).map Rec.ph = (List.range' 0 k1).map (phTok ("IM".data)) := by
    rw [recsOf_isegs, map_ph_toRecI]
    exact hk1
  have hrec2 : (recsOf (isegs di2)).map Rec.ph = (List.range' k1 k2).map (phTok ("IM".data)) := by
    rw [recsOf_isegs, map_ph_toRecI]
    exact hk2'
  have hmain : restoreExtractions (renderC (isegs di2))
      (recsOf (isegs di1) ++ recsOf (isegs di2)) = md := by
    apply two_pass_restore md (isegs di1) (isegs di2)
    · exact scanWikiImage_renderO _ 0 md (le_refl _)
    · exact scanMdImage_renderO _ _ c1 (le_refl _)
    · exact good_of_shape (by decide) (by decide) hrec1 (by omega)
    · exact good_of_shape (by decide) (by decide) hrec2 (by omega)
    · rw [hrec1, hrec2]
      exact nodup_phTok_append rfl (Or.inr (by omega))
    · exact fresh_of_shape hrec1 hfresh
    · exact fresh_of_shape hrec2 hfresh
  have heq : (extractImageEmbeds md).2.map ImageRec.toRec =
      recsOf (isegs di1) ++ recsOf (isegs di2) := by
    show (irecsOf di1 ++ irecsOf di2).map ImageRec.toRec = _
    rw [List.map_append, recsOf_isegs, recsOf_isegs]
  rw [heq]
  exact hmain

/-! ## Claim C1 -/

/-- A markdown input that already contains the literal text `GDOCS_CB0`:
`"GDOCS_CB0 ```x```"`. -/
def c1bad : Str := ("GDOCS_CB0 ".data) ++ fence3 ++ ("x".data) ++ fence3

/-- Claim C1 counterexample: the round trip fails when the input text itself
contains a placeholder string.  On the input `"GDOCS_CB0 ```x```"` the code
block extractor records the fenced block under placeholder `GDOCS_CB0`, and
`restoreExtractions` replaces *both* occurrences of that string — including the
literal one the author wrote — so the restored text is
`"```x``` ```x```"`, not the original. -/
theorem c1_extract_restore_counterexample :
    restoreExtractions (extractCodeBlocks c1bad).1 (extractCodeBlocks c1bad).2 ≠ c1bad := by
  decide

/-- Claim C1 (amended): for every input text that does not already contain the
string `GDOCS_` and for which each extractor produces at most 10 records (so
all placeholder indices are single digits), restoring the returned extraction
records into the cleaned text yields the original text exactly, for each of
the three extractors (code blocks, math, image embeds). -/
theorem c1_extract_restore_roundtrip (md : Str)
    (hfresh : ¬ ("GDOCS_".data) <:+: md)
    (hc : (extractCodeBlocks md).2.length ≤ 10)
    (hm : (extractMath md).2.length ≤ 10)
    (hi : (extractImageEmbeds md).2.length ≤ 10) :
    restoreExtractions (extractCodeBlocks md).1 (extractCodeBlocks md).2 = md ∧
    restoreExtractions (extractMath md).1 ((extractMath md).2.map MathRec.toRec) = md ∧
    restoreExtractions (extractImageEmbeds md).1
      ((extractImageEmbeds md).2.map ImageRec.toRec) = md :=
  ⟨extractCodeBlocks_restore md hfresh hc, extractMath_restore md hfresh hm,
   extractImageEmbeds_restore md hfresh hi⟩

/-- A small markdown document exercising all three extractors. -/
def c1doc : Str := ("a ".data) ++ fence3 ++ ("c".data) ++ fence3 ++ (" b $$x$$ ![[p.png]]".data)

theorem c1_extract_restore_roundtrip_witness :
    (¬ ("GDOCS_".data) <:+: c1doc) ∧
    (extractCodeBlocks c1doc).2.length ≤ 10 ∧
    (extractMath c1doc).2.length ≤ 10 ∧
    (extractImageEmbeds c1doc).2.length ≤ 10 ∧
    (restoreExtractions (extractCodeBlocks c1doc).1 (extractCodeBlocks c1doc).2 = c1doc ∧
     restoreExtractions (extractMath c1doc).1 ((extractMath c1doc).2.map MathRec.toRec) = c1doc ∧
     restoreExtractions (extractImageEmbeds c1doc).1
       ((extractImageEmbeds c1doc).2.map ImageRec.toRec) = c1doc) :=
  ⟨by decide, by decide, by decide, by decide,
   c1_extract_restore_roundtrip c1doc (by decide) (by decide) (by decide) (by decide)⟩

/-! ## Claim C2 -/

/-- Placeholder names generated by one conversion pass, in generation order and
chained as in `convertNoteToHtml`: code-block placeholders from the raw
markdown, math placeholders from the code-cleaned text, image placeholders
from the math-cleaned text. -/
def passPlaceholders (md : Str) : List Str :=
  (extractCodeBlocks md).2.map Rec.ph ++
  (extractMath (extractCodeBlocks md).1).2.map MathRec.ph ++
  (extractImageEmbeds (extractMath (extractCodeBlocks md).1).1).2.map ImageRec.ph

theorem extractCodeBlocks_ph_shape (md : Str) :
    ∃ n1 n2, (extractCodeBlocks md).2.map Rec.ph =
      ((List.range' 0 n1).map phCB) ++ ((List.range' n1 n2).map phCI) := by
  obtain ⟨k1, hk1⟩ := scanFenced_phs (md.length + 1) 0 md
  obtain ⟨k2, hk2⟩ :=
    scanInlineCode_phs ((renderC (scanFenced 0 (md.length + 1) md)).length + 1)
      (recsOf (scanFenced 0 (md.length + 1) md)).length
      (renderC (scanFenced 0 (md.length + 1) md))
  set d1 := scanFenced 0 (md.length + 1) md with hd1
  set c1 := renderC d1 with hc1
  set d2 := scanInlineCode (recsOf d1).length (c1.length + 1) c1 with hd2
  have hlen1 : (recsOf d1).length = k1 := by
    have := congrArg List.length hk1
    simpa using this
  rw [hlen1] at hk2
  refine ⟨k1, k2, ?_⟩
  show (recsOf d1 ++ recsOf d2).map Rec.ph = _
  rw [List.map_append, hk1, hk2]

theorem extractMath_ph_shape (md : Str) :
    ∃ n1 n2, (extractMath md).2.map MathRec.ph =
      ((List.range' 0 n1).map phMD) ++ ((List.range' n1 n2).map phMI) := by
  obtain ⟨k1, hk1⟩ := scanMathDisplay_phs (md.length + 1) 0 md
  obtain ⟨k2, hk2⟩ :=
    scanMathInline_phs ((renderCM (scanMathDisplay 0 (md.length + 1) md)).length + 1)
      (mrecsOf (scanMathDisplay 0 (md.length + 1) md)).length none
      (renderCM (scanMathDisplay 0 (md.length + 1) md))
  set d1 := scanMathDisplay 0 (md.length + 1) md with hd1
  set c1 := renderCM d1 with hc1
  set d2 := scanMathInline (mrecsOf d1).length (c1.length + 1) none c1 with hd2
  have hlen1 : (mrecsOf d1).length = k1 := by
    have := congrArg List.length hk1
    simpa using this
  rw [hlen1] at hk2
  refine ⟨k1, k2, ?_⟩
  show (mrecsOf d1 ++ mrecsOf d2).map MathRec.ph = _
  rw [List.map_append, hk1, hk2]

theorem extractImageEmbeds_ph_shape (md : Str) :
    ∃ n1 n2, (extractImageEmbeds md).2.map ImageRec.ph =
      ((List.range' 0 n1).map phIM) ++ ((List.range' n1 n2).map phIM) := by
  obtain ⟨k1, hk1⟩ := scanWikiImage_phs (md.length + 1) 0 md
  obtain ⟨k2, hk2⟩ :=
    scanMdImage_phs ((renderCI (scanWikiImage 0 (md.length + 1) md)).length + 1)
      (irecsOf (scanWikiImage 0 (md.length + 1) md)).length
      (renderCI (scanWikiImage 0 (md.length + 1) md))
  set d1 := scanWikiImage 0 (md.length + 1) md with hd1
  set c1 := renderCI d1 with hc1
  set d2 := scanMdImage (irecsOf d1).length (c1.length + 1) c1 with hd2
  have hlen1 : (irecsOf d1).length = k1 := by
    have := congrArg List.length hk1
    simpa using this
  rw [hlen1] at hk2
  refine ⟨k1, k2, ?_⟩
  show (irecsOf d1 ++ irecsOf d2).map ImageRec.ph = _
  rw [List.map_append, hk1, hk2]

/-- A markdown input whose prose mentions the literal text `GDOCS_CI0`. -/
def c2bad : Str := ("see GDOCS_CI0: ".data) ++ [btick] ++ ("y".data) ++ [btick]

/-- Claim C2 counterexample: on the input `"see GDOCS_CI0: `y`"` the inline
code extractor generates the placeholder `GDOCS_CI0`, yet that very string
occurs as a substring of the input — in the ordinary prose, not inside any
extracted snippet (the only extracted original is the code span itself). -/
theorem c2_placeholder_counterexample :
    ("GDOCS_CI0".data) ∈ passPlaceholders c2bad ∧
    ("GDOCS_CI0".data) <:+: c2bad ∧
    (∀ r ∈ (extractCodeBlocks c2bad).2, ¬ ("GDOCS_CI0".data) <:+: r.orig) := by
  refine ⟨by decide, by decide, by decide⟩

/-- Claim C2 (amended): for every input text that does not already contain the
string `GDOCS_`, no placeholder generated during a single conversion pass
occurs as a substring of the input text (hence not of its non-extracted
prose), and all placeholders generated within one pass are pairwise
distinct. -/
theorem c2_placeholder_freshness (md : Str)
    (hfresh : ¬ ("GDOCS_".data) <:+: md) :
    (∀ p ∈ passPlaceholders md, ¬ p <:+: md) ∧ (passPlaceholders md).Nodup := by
  obtain ⟨a1, a2, hA⟩ := extractCodeBlocks_ph_shape md
  obtain ⟨b1, b2, hB⟩ := extractMath_ph_shape (extractCodeBlocks md).1
  obtain ⟨e1, e2, hC⟩ :=
    extractImageEmbeds_ph_shape (extractMath (extractCodeBlocks md).1).1
  have hP : passPlaceholders md =
      (((List.range' 0 a1).map phCB) ++ ((List.range' a1 a2).map phCI)) ++
      ((((List.range' 0 b1).map phMD) ++ ((List.range' b1 b2).map phMI)) ++
       (((List.range' 0 e1).map phIM) ++ ((List.range' e1 e2).map phIM))) := by
    simp only [passPlaceholders]
    rw [hA, hB, hC, List.append_assoc]
  constructor
  · intro p hp hsub
    rw [hP] at hp
    simp only [List.mem_append, List.mem_map] at hp
    rcases hp with ((⟨i, _, rfl⟩ | ⟨i, _, rfl⟩) |
      ((⟨i, _, rfl⟩ | ⟨i, _, rfl⟩) | (⟨i, _, rfl⟩ | ⟨i, _, rfl⟩))) <;>
      exact hfresh (sub_of_ph_sub hsub)
  · rw [hP]
    refine List.Nodup.append ?_ ?_ ?_
    · exact List.Nodup.append nodup_phTok_shape nodup_phTok_shape
        (disjoint_phTok rfl (Or.inl (by decide)))
    · refine List.Nodup.append ?_ ?_ ?_
      · exact List.Nodup.append nodup_phTok_shape nodup_phTok_shape
          (disjoint_phTok rfl (Or.inl (by decide)))
      · exact List.Nodup.append nodup_phTok_shape nodup_phTok_shape
          (disjoint_phTok rfl (Or.inr (by omega)))
      · simp only [List.disjoint_append_left, List.disjoint_append_right]
        repeat' apply And.intro
        all_goals exact disjoint_phTok rfl (Or.inl (by decide))
    · simp only [List.disjoint_append_left, List.disjoint_append_right]
      repeat' apply And.intro
      all_goals exact disjoint_phTok rfl (Or.inl (by decide))

/-- A small document generating one placeholder of each of the code and math
kinds. -/
def c2doc : Str := ("hi ".data) ++ [btick] ++ ("y".data) ++ [btick] ++ (" $$z$$ ![[p.png]]".data)

theorem c2_placeholder_freshness_witness :
    (¬ ("GDOCS_".data) <:+: c2doc) ∧
    ((∀ p ∈ passPlaceholders c2doc, ¬ p <:+: c2doc) ∧ (passPlaceholders c2doc).Nodup) :=
  ⟨by decide, c2_placeholder_freshness c2doc (by decide)⟩

/-! ## Claim C3 -/

/-- Two math records whose "placeholders" overlap: `B` is a suffix of `AB`. -/
def c3bad : List MathRec :=
  [⟨("B".data), ("$x$".data), false, ("x".data)⟩,
   ⟨("AB".data), ("$y$".data), false, ("y".data)⟩]

/-- Claim C3 counterexample: the claim quantifies over *every* list of math
records, but with records whose placeholders overlap (`B` and `AB`) the
substitution for the first corrupts the second: on html `"AB"` the result is
`"A\(x\)"`, the second placeholder occurred in the html, yet its wrapped
LaTeX `\(y\)` appears nowhere in the output. -/
theorem c3_restore_counterexample :
    restoreMathInHtml ("AB".data) c3bad = ("A\\(x\\)".data) ∧
    ("AB".data) <:+: ("AB".data) ∧
    ¬ (("\\(y\\)".data) <:+: restoreMathInHtml ("AB".data) c3bad) := by
  refine ⟨by decide, by decide, by decide⟩

/-- Claim C3 (amended): whenever the html decomposes into plain segments and
placeholder slots (`renderC D`) whose slot records are exactly the math
records' placeholders paired with their wrapped escaped LaTeX, the
placeholders are good tokens (fixed length `L`, head character `g` occurring
nowhere else in them), pairwise distinct, and none occurs in the restored
text, `restoreMathInHtml` replaces every placeholder slot by that record's
HTML-escaped LaTeX wrapped in `\( \)` (inline) or `\[ \]` (display), and no
substitution corrupts another record's placeholder: the result is exactly
`renderO D`. -/
theorem c3_restoreMathInHtml (g : Char) (L : Nat) (ms : List MathRec) (D : List Seg)
    (hrecs : recsOf D = ms.map (fun m => ⟨m.ph, wrapMath m⟩))
    (hG : ∀ r ∈ recsOf D, GoodTok g L r.ph)
    (hnd : ((recsOf D).map Rec.ph).Nodup)
    (hocc : ∀ r ∈ recsOf D, ¬ r.ph <:+: renderO D) :
    restoreMathInHtml (renderC D) ms = renderO D := by
  have h := restore_pass_fwd g L (recsOf D).length D (le_refl _) hG hnd hocc
  unfold restoreMathInHtml
  rw [← h, hrecs, List.foldl_map]

/-- A display math record under its real placeholder. -/
def c3m : MathRec := ⟨("GDOCS_MD0".data), ("$$a$$".data), true, ("a".data)⟩

/-- The decomposition of the html `"x GDOCS_MD0 y"` around the slot. -/
def c3D : List Seg :=
  [Seg.plain ("x ".data), Seg.tok ⟨("GDOCS_MD0".data), wrapMath c3m⟩, Seg.plain (" y".data)]

theorem c3_restoreMathInHtml_witness :
    restoreMathInHtml (renderC c3D) [c3m] = renderO c3D :=
  c3_restoreMathInHtml 'G' 9 [c3m] c3D (by decide)
    (by
      intro r hr
      have he : recsOf c3D = [⟨("GDOCS_MD0".data), wrapMath c3m⟩] := by decide
      rw [he] at hr
      rw [List.mem_singleton.mp hr]
      exact ⟨by decide, ("DOCS_MD0".data), by decide, by decide⟩)
    (by decide) (by decide)

/-! ## Claim C4 -/

/-- Claim C4: `extractMath` on `"$$a=b$$"` yields exactly one display record
with latex `"a=b"`; on `"$a=b$"` (no whitespace adjacent to the delimiters) it
yields exactly one inline record; and on `"costs $5 or $10"` it yields no
records at all (the candidate closing `$` is preceded by whitespace, so the
inline-math lookbehind rejects it). -/
theorem c4_extractMath_examples :
    (extractMath ("$$a=b$$".data)).2 =
      [⟨("GDOCS_MD0".data), ("$$a=b$$".data), true, ("a=b".data)⟩] ∧
    (extractMath ("$a=b$".data)).2 =
      [⟨("GDOCS_MI0".data), ("$a=b$".data), false, ("a=b".data)⟩] ∧
    (extractMath ("costs $5 or $10".data)).2 = [] := by
  refine ⟨by decide, by decide, by decide⟩

/-! ## Claim C5: `processAndRestoreImages` failure handling -/

/-- The vault file fields the image processor uses (`TFile`). -/
structure ImageFile where
  extension : Str
  name : Str
  basename : Str
deriving DecidableEq, Repr

/-- `imageMode: 'upload' | 'embed'`. -/
inductive Mode where
  | upload : Mode
  | embed : Mode
deriving DecidableEq, Repr

/-- The effectful environment of `processAndRestoreImages`: vault link
resolution, binary read, SVG rasterization and the upload callback (`none`
models a thrown error; a `none` callback models a null `uploadImageFn`). -/
structure ImgOracle where
  resolve : Str → Option ImageFile
  readBinary : ImageFile → Option (List Nat)
  rasterize : List Nat → Option (List Nat)
  upload : Option (List Nat → Str → Str → Option Str)

/-- One base64 digit. -/
def b64Char (n : Nat) : Char :=
  if n < 26 then Char.ofNat (65 + n)
  else if n < 52 then Char.ofNat (97 + (n - 26))
  else if n < 62 then Char.ofNat (48 + (n - 52))
  else if n = 62 then '+'
  else '/'

/-- `btoa` on a byte list (the `String.fromCharCode` loop plus `btoa`). -/
def btoa : List Nat → Str
  | [] => []
  | [b0] => [b64Char (b0 / 4), b64Char (b0 % 4 * 16), '=', '=']
  | [b0, b1] => [b64Char (b0 / 4), b64Char (b0 % 4 * 16 + b1 / 16), b64Char (b1 % 16 * 4), '=']
  | b0 :: b1 :: b2 :: rest =>
    b64Char (b0 / 4) :: b64Char (b0 % 4 * 16 + b1 / 16) ::
      b64Char (b1 % 16 * 4 + b2 / 64) :: b64Char (b2 % 64) :: btoa rest

/-- `fileName.replace(/\.svg$/i, '.png')`. -/
def svgToPngName (n : Str) : Str :=
  if lowerStr (n.drop (n.length - 4)) = (".svg".data) then
    n.take (n.length - 4) ++ (".png".data)
  else n

/-- JS truthiness of `string | null`. -/
def jsTruthyS : Option Str → Bool
  | none => false
  | some s => !s.isEmpty

/-- The `<img ...>` tag template of `processAndRestoreImages`. -/
def imgTag (src alt : Str) (width : Option Str) : Str :=
  ("<img src=\x22".data) ++ src ++ ("\x22 alt=\x22".data) ++ escapeHtml alt ++ ("\x22".data) ++
    (if jsTruthyS width then (" width=\x22".data) ++ width.getD [] ++ ("\x22".data) else []) ++
    (" style=\x22max-width:100%;\x22>".data)

/-- The fallible part of one image's `try` block: read, rasterize SVGs,
normalise the mime type, then embed as a base64 data URI or upload. -/
def imgSrc (o : ImgOracle) (mode : Mode) (img : ImageRec) (f : ImageFile) : Option Str := do
  let data0 ← o.readBinary f
  let data1 ← if img.isSvg then o.rasterize data0 else some data0
  let mime0 := if img.isSvg then ("image/png".data) else ("image/".data) ++ f.extension
  let mime1 := if mime0 = ("image/jpg".data) then ("image/jpeg".data) else mime0
  let fileName := if img.isSvg then svgToPngName f.name else f.name
  match mode with
  | Mode.embed => some (("data:".data) ++ mime1 ++ (";base64,".data) ++ btoa data1)
  | Mode.upload =>
    match o.upload with
    | none => none
    | some up => up data1 fileName mime1

/-- The whole `try` block after a successful vault resolution. -/
def imgTryBody (o : ImgOracle) (mode : Mode) (img : ImageRec) (f : ImageFile) : Option Str :=
  (imgSrc o mode img f).map
    (fun src => imgTag src (if img.alt ≠ [] then img.alt else f.basename) img.width)

/-- The `<em>[Image not found: ...]</em>` marker. -/
def notFoundMarker (img : ImageRec) : Str :=
  ("<em>[Image not found: ".data) ++ img.vaultPath ++ ("]</em>".data)

/-- The `<em>[Failed to process: ...]</em>` marker. -/
def failMarker (img : ImageRec) : Str :=
  ("<em>[Failed to process: ".data) ++ img.vaultPath ++ ("]</em>".data)

/-- Process one image record to its replacement tag: unresolved paths give
the not-found marker, any failure inside the `try` gives the
failed-to-process marker. -/
def processImage (o : ImgOracle) (mode : Mode) (img : ImageRec) : Str :=
  match o.resolve img.vaultPath with
  | none => notFoundMarker img
  | some f =>
    match imgTryBody o mode img f with
    | some tag => tag
    | none => failMarker img

/-- Substitute one processed image into the html: the `<p>`-wrapped block
pattern when present, else the bare placeholder. -/
def substImage (o : ImgOracle) (mode : Mode) (res : Str) (img : ImageRec) : Str :=
  let tag := processImage o mode img
  let bp := ("<p>".data) ++ img.ph ++ ("</p>".data)
  if (splitFirst bp res).isSome then replaceAll bp tag res else replaceAll img.ph tag res

/-- `for (let i = 0; i < n; i += 5)` batching: chunks of five. -/
def chunks5 {α : Type} : Nat → List α → List (List α)
  | 0, _ => []
  | _ + 1, [] => []
  | f + 1, x :: xs => (x :: xs).take 5 :: chunks5 f ((x :: xs).drop 5)

/-- `processAndRestoreImages` of `converter.ts`: process records in batches
of five, substituting each record's tag in order. -/
def processAndRestoreImages (o : ImgOracle) (mode : Mode) (html : Str)
    (imgs : List ImageRec) : Str :=
  (chunks5 (imgs.length + 1) imgs).foldl
    (fun res batch => batch.foldl (fun r img => substImage o mode r img) res) html

theorem chunks5_foldl {α β : Type} (step : β → α → β) :
    ∀ f (l : List α) (acc : β), l.length < f →
      (chunks5 f l).foldl (fun res b => b.foldl step res) acc = l.foldl step acc := by
  intro f
  induction f with
  | zero => intro l acc h; exact absurd h (Nat.not_lt_zero _)
  | succ f ih =>
    intro l acc hl
    cases l with
    | nil => rfl
    | cons x xs =>
      show ((x :: xs).take 5 :: chunks5 f ((x :: xs).drop 5)).foldl _ acc = _
      rw [List.foldl_cons]
      have hlen : ((x :: xs).drop 5).length < f := by
        simp [List.length_drop, List.length_cons] at *
        omega
      rw [ih _ _ hlen]
      conv_rhs => rw [← List.take_append_drop 5 (x :: xs)]
      rw [List.foldl_append]

/-- Claim C5: a record whose vault path does not resolve is replaced by the
emphasized not-found marker naming the asset; a record whose read,
rasterize or store step fails is replaced by the emphasized
failed-to-process marker naming the asset; a record whose steps all succeed
becomes an `<img>` tag; and the batched loop equals the plain left fold
over all records — every record is substituted and the conversion always
returns normally, whatever the oracle does. -/
theorem c5_image_failures (o : ImgOracle) (mode : Mode) (html : Str) (imgs : List ImageRec) :
    processAndRestoreImages o mode html imgs =
      imgs.foldl (fun r img => substImage o mode r img) html ∧
    (∀ img : ImageRec, o.resolve img.vaultPath = none →
      processImage o mode img = notFoundMarker img) ∧
    (∀ img : ImageRec, ∀ f, o.resolve img.vaultPath = some f →
      imgTryBody o mode img f = none →
      processImage o mode img = failMarker img) ∧
    (∀ img : ImageRec, ∀ f, o.resolve img.vaultPath = some f →
      imgTryBody o mode img f ≠ none →
      ∃ src, processImage o mode img =
        imgTag src (if img.alt ≠ [] then img.alt else f.basename) img.width) := by
  refine ⟨?_, ?_, ?_, ?_⟩
  · exact chunks5_foldl _ _ imgs html (Nat.lt_succ_self _)
  · intro img h
    unfold processImage
    rw [h]
  · intro img f h1 h2
    unfold processImage
    rw [h1]
    simp only []
    rw [h2]
  · intro img f h1 h2
    unfold processImage
    rw [h1]
    simp only []
    obtain ⟨tag, htag⟩ := Option.ne_none_iff_exists'.mp h2
    obtain ⟨src, hsrc, hmap⟩ := Option.map_eq_some'.mp htag
    refine ⟨src, ?_⟩
    rw [htag]
    exact hmap.symm

/-- An oracle whose vault contains only `a.png` (3 bytes), so `b.png` fails
to resolve. -/
def c5oracle : ImgOracle where
  resolve := fun p => if p = ("a.png".data) then
      some ⟨("png".data), ("a.png".data), ("a".data)⟩ else none
  readBinary := fun _ => some [1, 2, 3]
  rasterize := fun d => some d
  upload := none

/-- A resolvable image record. -/
def c5imgA : ImageRec :=
  ⟨("GDOCS_IM0".data), ("![[a.png]]".data), ("a.png".data), ("a.png".data), none, false⟩

/-- An unresolvable image record. -/
def c5imgB : ImageRec :=
  ⟨("GDOCS_IM1".data), ("![[b.png]]".data), ("b.png".data), ("b.png".data), none, false⟩

theorem c5_image_failures_witness :
    processImage c5oracle Mode.embed c5imgB =
      ("<em>[Image not found: b.png]</em>".data) ∧
    processAndRestoreImages c5oracle Mode.embed
        (("<p>GDOCS_IM0</p> x GDOCS_IM1".data)) [c5imgA, c5imgB] =
      [c5imgA, c5imgB].foldl (fun r img => substImage c5oracle Mode.embed r img)
        (("<p>GDOCS_IM0</p> x GDOCS_IM1".data)) :=
  ⟨((c5_image_failures c5oracle Mode.embed [] []).2.1 c5imgB (by decide)).trans (by decide),
   (c5_image_failures c5oracle Mode.embed (("<p>GDOCS_IM0</p> x GDOCS_IM1".data))
     [c5imgA, c5imgB]).1⟩

/-! ## Claim C6: `cleanHtmlForGoogleDocs` -/

/-- The `Theme` interface of `themes.ts` (all string-valued CSS fragments). -/
structure Theme where
  name : Str
  description : Str
  fontFamily : Str
  fontSize : Str
  lineHeight : Str
  maxWidth : Str
  textColor : Str
  headingFontFamily : Str
  headingColor : Str
  h1Size : Str
  h2Size : Str
  h3Size : Str
  codeFontFamily : Str
  codeFontSize : Str
  codeBackground : Str
  codeBlockBackground : Str
  codeBlockPadding : Str
  blockquoteBorderColor : Str
  blockquoteTextColor : Str
  tableBorderColor : Str
  tableHeaderBackground : Str
  calloutBackground : Str
  linkColor : Str
deriving Repr

/-- `DEFAULT_THEME` of `themes.ts` (`getTheme('default')`). -/
def defaultTheme : Theme where
  name := ("Default".data)
  description := ("Clean sans-serif, matches v1 output".data)
  fontFamily := ("Arial, sans-serif".data)
  fontSize := ("14px".data)
  lineHeight := ("1.6".data)
  maxWidth := ("800px".data)
  textColor := ("#000000".data)
  headingFontFamily := ("Arial, sans-serif".data)
  headingColor := ("#000000".data)
  h1Size := ("2em".data)
  h2Size := ("1.5em".data)
  h3Size := ("1.17em".data)
  codeFontFamily := ("\x27Courier New\x27, monospace".data)
  codeFontSize := ("13px".data)
  codeBackground := ("#f5f5f5".data)
  codeBlockBackground := ("#f5f5f5".data)
  codeBlockPadding := ("16px".data)
  blockquoteBorderColor := ("#ccc".data)
  blockquoteTextColor := ("#666".data)
  tableBorderColor := ("#ddd".data)
  tableHeaderBackground := ("#f5f5f5".data)
  calloutBackground := ("#f8f9fa".data)
  linkColor := ("#1a73e8".data)

/-- Tokens of the cleanup regexes: case-insensitive literals, greedy
`[c]*`/`[c]+`, lazy `[c]*?`, negative lookahead `(?!...)`. -/
inductive RTok where
  | lit : Str → RTok
  | star : (Char → Bool) → RTok
  | plus : (Char → Bool) → RTok
  | lazyStar : (Char → Bool) → RTok
  | nla : List RTok → RTok

/-- Try `g (b-1), g (b-2), ..., g 0` in order (greedy star backtracking). -/
def searchDesc {α : Type} (g : Nat → Option α) : Nat → Option α
  | 0 => none
  | k + 1 =>
    match g k with
    | some r => some r
    | none => searchDesc g k

/-- Like `searchDesc` but stops before 0 (greedy plus: at least one). -/
def searchDesc1 {α : Type} (g : Nat → Option α) : Nat → Option α
  | 0 => none
  | k + 1 =>
    if k = 0 then none
    else
      match g k with
      | some r => some r
      | none => searchDesc1 g k

/-- Try `g i, g (i+1), ...` for `b` steps (lazy star backtracking). -/
def searchAsc {α : Type} (g : Nat → Option α) : Nat → Nat → Option α
  | 0, _ => none
  | b + 1, i =>
    match g i with
    | some r => some r
    | none => searchAsc g b (i + 1)

/-- Backtracking matcher for a token sequence at the start of `s`: returns
the text consumed by each token and the rest of the string.  Greedy stars
try longest first, lazy stars shortest first, exactly the JS regex
backtracking order; literals compare case-insensitively (the `i` flag) but
capture the original text.  The fuel only needs to exceed the number of
tokens. -/
def matchToks : Nat → List RTok → Str → Option (List Str × Str)
  | 0, _, _ => none
  | _ + 1, [], s => some ([], s)
  | f + 1, RTok.lit l :: ts, s =>
    if lowerStr (s.take l.length) = l then
      (matchToks f ts (s.drop l.length)).map (fun r => (s.take l.length :: r.1, r.2))
    else none
  | f + 1, RTok.star p :: ts, s =>
    searchDesc (fun k => (matchToks f ts (s.drop k)).map (fun r => (s.take k :: r.1, r.2)))
      ((s.takeWhile p).length + 1)
  | f + 1, RTok.plus p :: ts, s =>
    searchDesc1 (fun k => (matchToks f ts (s.drop k)).map (fun r => (s.take k :: r.1, r.2)))
      ((s.takeWhile p).length + 1)
  | f + 1, RTok.lazyStar p :: ts, s =>
    searchAsc (fun k => (matchToks f ts (s.drop k)).map (fun r => (s.take k :: r.1, r.2)))
      ((s.takeWhile p).length + 1) 0
  | f + 1, RTok.nla ts' :: ts, s =>
    match matchToks f ts' s with
    | some _ => none
    | none => (matchToks f ts s).map (fun r => ([] :: r.1, r.2))

/-- Fuel weight of one token: a lookahead brings its body's tokens along
(the rules nest lookaheads only one level deep). -/
def tokSize : RTok → Nat
  | RTok.nla ts' => ts'.length + 1
  | _ => 1

/-- Token count of a pattern, lookahead bodies included: a fuel bound for
`matchToks`. -/
def patSize (ts : List RTok) : Nat := (ts.map tokSize).sum

/-- A replacement rule: match at the start of a suffix, produce the
replacement text and the rest after the match. -/
abbrev Matcher : Type := Str → Option (Str × Str)

/-- A rule from a token pattern and a replacement built from the captures. -/
def ruleOf (ts : List RTok) (rep : List Str → Str) : Matcher :=
  fun s => (matchToks (patSize ts + 1) ts s).map (fun r => (rep r.1, r.2))

/-- `String.replace(regex-with-g, ...)`: leftmost matches, replacements not
rescanned, scanning resumes after each match. -/
def runRuleGo (m : Matcher) : Nat → Str → Str
  | 0, _ => []
  | f + 1, s =>
    match m s with
    | some (rep, rest) => rep ++ runRuleGo m f rest
    | none =>
      match s with
      | [] => []
      | c :: cs => c :: runRuleGo m f cs

/-- Run one global replacement rule over a string. -/
def runRule (m : Matcher) (s : Str) : Str := runRuleGo m (s.length + 1) s

/-- `true` iff the rule matches at no position of `s`. -/
def noMatchGo (m : Matcher) : Nat → Str → Bool
  | 0, _ => true
  | f + 1, s =>
    (m s).isNone &&
      (match s with
       | [] => true
       | _ :: cs => noMatchGo m f cs)

/-- The rule matches nowhere in `s`. -/
def noMatch (m : Matcher) (s : Str) : Bool := noMatchGo m (s.length + 1) s

/-- None of the rules matches anywhere in `s`. -/
def noMatchAll (ms : List Matcher) (s : Str) : Bool := ms.all (fun m => noMatch m s)

/-- `[^>]`. -/
def neGT (c : Char) : Bool := c != '>'

/-- `[^"]`. -/
def neQ (c : Char) : Bool := c != '\x22'

/-- `[\s\S]`. -/
def anyC (_ : Char) : Bool := true

/-- `.` without the `s` flag: anything but a line terminator. -/
def dotC (c : Char) : Bool := !(c == '\n' || c == '\r' || c.toNat == 8232 || c.toNat == 8233)

/-- `[a-z-]` under the `i` flag. -/
def azDash (c : Char) : Bool := ('a' ≤ asciiLower c && asciiLower c ≤ 'z') || c == '-'

/-- `CALLOUT_COLORS[type] || '#448aff'`. -/
def calloutColor (ty : Str) : Str :=
  if ty = ("note".data) then ("#448aff".data)
  else if ty = ("abstract".data) then ("#00bcd4".data)
  else if ty = ("summary".data) then ("#00bcd4".data)
  else if ty = ("info".data) then ("#2196f3".data)
  else if ty = ("tip".data) then ("#00bfa5".data)
  else if ty = ("hint".data) then ("#00bfa5".data)
  else if ty = ("success".data) then ("#00c853".data)
  else if ty = ("check".data) then ("#00c853".data)
  else if ty = ("question".data) then ("#ff9800".data)
  else if ty = ("help".data) then ("#ff9800".data)
  else if ty = ("warning".data) then ("#ff9100".data)
  else if ty = ("caution".data) then ("#ff9100".data)
  else if ty = ("failure".data) then ("#ff5252".data)
  else if ty = ("danger".data) then ("#ff5252".data)
  else if ty = ("error".data) then ("#ff5252".data)
  else if ty = ("bug".data) then ("#ff5252".data)
  else if ty = ("example".data) then ("#7c4dff".data)
  else if ty = ("quote".data) then ("#9e9e9e".data)
  else if ty = ("cite".data) then ("#9e9e9e".data)
  else ("#448aff".data)

/-- `/<div[^>]*class="[^"]*callout-title[^"]*"[^>]*>/gi`. -/
def calloutTitlePat : List RTok :=
  [RTok.lit ("<div".data), RTok.star neGT, RTok.lit ("class=\x22".data), RTok.star neQ,
   RTok.lit ("callout-title".data), RTok.star neQ, RTok.lit ("\x22".data), RTok.star neGT,
   RTok.lit (">".data)]

/-- `/<div[^>]*class="[^"]*callout-content[^"]*"[^>]*>/gi`. -/
def calloutContentPat : List RTok :=
  [RTok.lit ("<div".data), RTok.star neGT, RTok.lit ("class=\x22".data), RTok.star neQ,
   RTok.lit ("callout-content".data), RTok.star neQ, RTok.lit ("\x22".data), RTok.star neGT,
   RTok.lit (">".data)]

/-- The three inner replaces applied to a callout's captured content. -/
def cleanCalloutContent (content : Str) : Str :=
  runRule (ruleOf [RTok.lit ("</div>".data)] (fun _ => ("</b><br/>".data)))
    (runRule (ruleOf calloutContentPat (fun _ => []))
      (runRule (ruleOf calloutTitlePat (fun _ => ("<b>".data))) content))

/-- The callout regex of `cleanHtmlForGoogleDocs`. -/
def calloutPat : List RTok :=
  [RTok.lit ("<div".data), RTok.star neGT, RTok.lit ("data-callout=\x22".data),
   RTok.star neQ, RTok.lit ("\x22".data), RTok.star neGT, RTok.lit ("class=\x22".data),
   RTok.star neQ, RTok.lit ("callout".data), RTok.star neQ, RTok.lit ("\x22".data),
   RTok.star neGT, RTok.lit (">".data), RTok.lazyStar anyC, RTok.lit ("</div>".data),
   RTok.star jsWS, RTok.lit ("</div>".data), RTok.star jsWS, RTok.lit ("</div>".data)]

/-- The callout's replacement template (captures: type at 3, content at 13). -/
def calloutRep (t : Theme) (segs : List Str) : Str :=
  ("<table style=\x22border-left:4px solid ".data) ++
    calloutColor (lowerStr (segs.getD 3 [])) ++ (";background:".data) ++
    t.calloutBackground ++
    (";width:100%;margin:12px 0;\x22>\n                <tr><td style=\x22padding:12px;\x22>".data) ++
    cleanCalloutContent (segs.getD 13 []) ++ ("</td></tr></table>".data)

/-- `/<a[^>]*class="[^"]*internal-link[^"]*"[^>]*>(.*?)<\/a>/gi` (capture 9). -/
def internalLinkPat : List RTok :=
  [RTok.lit ("<a".data), RTok.star neGT, RTok.lit ("class=\x22".data), RTok.star neQ,
   RTok.lit ("internal-link".data), RTok.star neQ, RTok.lit ("\x22".data), RTok.star neGT,
   RTok.lit (">".data), RTok.lazyStar dotC, RTok.lit ("</a>".data)]

/-- `<b>$1</b>`. -/
def internalLinkRep (segs : List Str) : Str :=
  ("<b>".data) ++ segs.getD 9 [] ++ ("</b>".data)

/-- The themed `<pre>` replacement. -/
def preRep (t : Theme) : Str :=
  ("<pre style=\x22background:".data) ++ t.codeBlockBackground ++ (";padding:".data) ++
  t.codeBlockPadding ++ (";border-radius:4px;font-family:".data) ++ t.codeFontFamily ++
  (";white-space:pre;overflow-x:auto;font-size:".data) ++ t.codeFontSize ++ (";\x22>".data)

/-- The themed `<code>` replacement. -/
def codeRep (t : Theme) : Str :=
  ("<code style=\x22background:".data) ++ t.codeBackground ++
  (";padding:2px 4px;border-radius:3px;font-family:".data) ++ t.codeFontFamily ++
  (";font-size:".data) ++ t.codeFontSize ++ (";\x22>".data)

/-- The themed `<blockquote>` replacement. -/
def blockquoteRep (t : Theme) : Str :=
  ("<blockquote style=\x22border-left:4px solid ".data) ++ t.blockquoteBorderColor ++
  (";padding-left:16px;margin-left:0;color:".data) ++ t.blockquoteTextColor ++ (";\x22>".data)

/-- The `<table` replacement (no closing `>`: the tag's own text follows). -/
def tableRep : Str :=
  ("<table style=\x22border-collapse:collapse;width:100%;margin:12px 0;\x22".data)

/-- The themed `<th` replacement. -/
def thRep (t : Theme) : Str :=
  ("<th style=\x22border:1px solid ".data) ++ t.tableBorderColor ++
  (";padding:8px;background:".data) ++ t.tableHeaderBackground ++ (";text-align:left;\x22".data)

/-- The themed `<td` replacement. -/
def tdRep (t : Theme) : Str :=
  ("<td style=\x22border:1px solid ".data) ++ t.tableBorderColor ++ (";padding:8px;\x22".data)

/-- The lookahead body `[^>]*style` of the table/th/td rules. -/
def stylePat : List RTok := [RTok.star neGT, RTok.lit ("style".data)]

/-- The twelve replacement rules of `cleanHtmlForGoogleDocs`, in source
order. -/
def cleanRules (t : Theme) : List Matcher :=
  [ruleOf calloutPat (calloutRep t),
   ruleOf internalLinkPat internalLinkRep,
   ruleOf [RTok.lit ("<pre>".data)] (fun _ => preRep t),
   ruleOf [RTok.lit ("<code>".data)] (fun _ => codeRep t),
   ruleOf [RTok.lit ("<blockquote>".data)] (fun _ => blockquoteRep t),
   ruleOf [RTok.lit ("<table".data), RTok.nla stylePat] (fun _ => tableRep),
   ruleOf [RTok.lit ("<th".data), RTok.nla stylePat] (fun _ => thRep t),
   ruleOf [RTok.lit ("<td".data), RTok.nla stylePat] (fun _ => tdRep t),
   ruleOf [RTok.plus jsWS, RTok.lit ("class=\x22".data), RTok.star neQ,
     RTok.lit ("\x22".data)] (fun _ => []),
   ruleOf [RTok.plus jsWS, RTok.lit ("data-".data), RTok.plus azDash,
     RTok.lit ("=\x22".data), RTok.star neQ, RTok.lit ("\x22".data)] (fun _ => []),
   ruleOf [RTok.lit ("<p>".data), RTok.star jsWS, RTok.lit ("</p>".data)] (fun _ => []),
   ruleOf [RTok.lit ("<mjx-container".data), RTok.star neGT, RTok.lit (">".data),
     RTok.lazyStar anyC, RTok.lit ("</mjx-container>".data)] (fun _ => [])]

/-- `cleanHtmlForGoogleDocs` of `converter.ts`: the twelve global
replacements applied in order. -/
def cleanHtmlForGoogleDocs (t : Theme) (html : Str) : Str :=
  (cleanRules t).foldl (fun acc m => runRule m acc) html

theorem noMatchGo_nil {m : Matcher} {f : Nat} (h : noMatchGo m (f + 1) [] = true) :
    m [] = none := by
  have h' : ((m []).isNone && true) = true := h
  exact Option.isNone_iff_eq_none.mp ((Bool.and_eq_true _ _).mp h').1

theorem noMatchGo_cons {m : Matcher} {f : Nat} {c : Char} {cs : Str}
    (h : noMatchGo m (f + 1) (c :: cs) = true) :
    m (c :: cs) = none ∧ noMatchGo m f cs = true := by
  have h' : ((m (c :: cs)).isNone && noMatchGo m f cs) = true := h
  obtain ⟨h1, h2⟩ := (Bool.and_eq_true _ _).mp h'
  exact ⟨Option.isNone_iff_eq_none.mp h1, h2⟩

theorem runRuleGo_id (m : Matcher) :
    ∀ f s, s.length < f → noMatchGo m (s.length + 1) s = true → runRuleGo m f s = s := by
  intro f
  induction f with
  | zero => intro s h _; exact absurd h (Nat.not_lt_zero _)
  | succ f ih =>
    intro s hlen hno
    cases s with
    | nil =>
      have h1 := noMatchGo_nil hno
      simp [runRuleGo, h1]
    | cons c cs =>
      obtain ⟨h1, h2⟩ := noMatchGo_cons hno
      have hlen2 : cs.length < f := by
        simp [List.length_cons] at hlen
        omega
      simp [runRuleGo, h1]
      exact ih cs hlen2 h2

theorem runRule_id {m : Matcher} {s : Str} (h : noMatch m s = true) : runRule m s = s :=
  runRuleGo_id m (s.length + 1) s (Nat.lt_succ_self _) h

theorem clean_fold_id :
    ∀ (ms : List Matcher) (s : Str), noMatchAll ms s = true →
      ms.foldl (fun acc m => runRule m acc) s = s := by
  intro ms
  induction ms with
  | nil => intro s _; rfl
  | cons m ms ih =>
    intro s h
    have h' : noMatch m s = true ∧ ∀ x ∈ ms, noMatch x s = true := by
      simpa [noMatchAll, List.all_cons] using h
    rw [List.foldl_cons, runRule_id h'.1]
    refine ih s ?_
    simp only [noMatchAll, List.all_eq_true]
    exact h'.2

/-- The markdown renderer can nest paragraph tags. -/
def c6bad : Str := ("<p><p> </p></p>".data)

/-- Claim C6 counterexample: on `<p><p> </p></p>` the empty-paragraph rule
removes the inner `<p> </p>` leaving `<p></p>`, which a second run removes
entirely, so `clean (clean h) ≠ clean h`: the function is not idempotent. -/
theorem c6_clean_counterexample :
    cleanHtmlForGoogleDocs defaultTheme c6bad = ("<p></p>".data) ∧
    cleanHtmlForGoogleDocs defaultTheme (cleanHtmlForGoogleDocs defaultTheme c6bad) = [] ∧
    cleanHtmlForGoogleDocs defaultTheme (cleanHtmlForGoogleDocs defaultTheme c6bad) ≠
      cleanHtmlForGoogleDocs defaultTheme c6bad := by
  refine ⟨by decide, by decide, by decide⟩

/-- Claim C6 (amended): `cleanHtmlForGoogleDocs` under the default theme is
idempotent on every input whose cleaned output no rule matches any more
(the fixed-point condition the counterexample's leftover `<p></p>`
violates). -/
theorem c6_clean_idempotent (h : Str)
    (hfix : noMatchAll (cleanRules defaultTheme) (cleanHtmlForGoogleDocs defaultTheme h) = true) :
    cleanHtmlForGoogleDocs defaultTheme (cleanHtmlForGoogleDocs defaultTheme h) =
      cleanHtmlForGoogleDocs defaultTheme h :=
  clean_fold_id _ _ hfix

/-- A paragraph the cleaner leaves alone. -/
def c6doc : Str := ("<p>hello</p>".data)

theorem c6_clean_idempotent_witness :
    cleanHtmlForGoogleDocs defaultTheme (cleanHtmlForGoogleDocs defaultTheme c6doc) =
      cleanHtmlForGoogleDocs defaultTheme c6doc :=
  c6_clean_idempotent c6doc (by decide)

/-! ## Claim C7: `rasterizeSvgToPng` dimension logic -/

/-- A separator character of the split regex `[\s,]+`. -/
def isSepWS (c : Char) : Bool := jsWS c || c = ','

/-- `str.split(/[\s,]+/)`: separators are maximal runs of whitespace or
commas; a leading or trailing run produces an empty part, as in JS. -/
def splitSepGo : Nat → Str → List Str
  | 0, _ => []
  | f + 1, s =>
    let tok := s.takeWhile (fun c => !isSepWS c)
    match s.drop tok.length with
    | [] => [tok]
    | rest => tok :: splitSepGo f (rest.dropWhile isSepWS)

/-- `str.split(/[\s,]+/)`. -/
def splitSep (s : Str) : List Str := splitSepGo (s.length + 1) s

/-- The unsigned decimal literal part of JS `Number(...)`: digits, an
optional fraction, or a bare fraction (this is the subset of the `Number`
grammar viewBox content can use; anything else is `NaN`, i.e. `none`). -/
def parseDecimal (s : Str) : Option ℚ :=
  let ip := s.takeWhile Char.isDigit
  match s.drop ip.length with
  | [] => if ip = [] then none else some (charsVal ip : ℚ)
  | '.' :: rest2 =>
    let fp := rest2.takeWhile Char.isDigit
    if rest2.drop fp.length ≠ [] then none
    else if ip = [] ∧ fp = [] then none
    else some ((charsVal ip : ℚ) + (charsVal fp : ℚ) / (10 ^ fp.length))
  | _ => none

/-- JS `Number(str)`: trim, empty string is `0`, optional sign, decimal
literal; `none` is `NaN`. -/
def jsNumber (s : Str) : Option ℚ :=
  match jsTrim s with
  | [] => some 0
  | '+' :: r => parseDecimal r
  | '-' :: r => (parseDecimal r).map Neg.neg
  | t => parseDecimal t

/-- `Math.round`, on the rationals. -/
def jsRound (q : ℚ) : ℤ := ⌊q + 1 / 2⌋

/-- `svgString.match(/viewBox="([^"]+)"/)`: the capture of the leftmost
match (a non-empty run of non-quote characters between the quotes). -/
def findViewBox : Nat → Str → Option Str
  | 0, _ => none
  | f + 1, s =>
    if ("viewBox=\x22".data).isPrefixOf s then
      let rest := s.drop 9
      let cap := rest.takeWhile (fun c => c != '\x22')
      if cap ≠ [] ∧ rest.drop cap.length ≠ [] then some cap
      else
        match s with
        | [] => none
        | _ :: cs => findViewBox f cs
    else
      match s with
      | [] => none
      | _ :: cs => findViewBox f cs

/-- Try `(\d+(?:\.\d+)?)(?:px)?"` at the start of `s`, returning the
`parseFloat` of the captured number. -/
def dimAt (s : Str) : Option ℚ :=
  let ds := s.takeWhile Char.isDigit
  if ds = [] then none
  else
    let rest := s.drop ds.length
    let nr : ℚ × Str :=
      match rest with
      | '.' :: r2 =>
        let fp := r2.takeWhile Char.isDigit
        if fp = [] then ((charsVal ds : ℚ), rest)
        else ((charsVal ds : ℚ) + (charsVal fp : ℚ) / (10 ^ fp.length), r2.drop fp.length)
      | _ => ((charsVal ds : ℚ), rest)
    match nr.2 with
    | '\x22' :: _ => some nr.1
    | 'p' :: 'x' :: '\x22' :: _ => some nr.1
    | _ => none

/-- `svgString.match(/width="(\d+(?:\.\d+)?)(?:px)?"/)` (and the analogous
height regex): `lit` is the literal `width="` or `height="` prefix. -/
def findDim (lit : Str) : Nat → Str → Option ℚ
  | 0, _ => none
  | f + 1, s =>
    if lit.isPrefixOf s then
      match dimAt (s.drop lit.length) with
      | some q => some q
      | none =>
        match s with
        | [] => none
        | _ :: cs => findDim lit f cs
    else
      match s with
      | [] => none
      | _ :: cs => findDim lit f cs

/-- The viewBox-derived dimensions: `parts[2]`/`parts[3]` of the split when
at least four parts exist, else the 800×600 defaults. -/
def vbDims (svg : Str) : Option ℚ × Option ℚ :=
  match findViewBox (svg.length + 1) svg with
  | some cap =>
    if 4 ≤ ((splitSep cap).map jsNumber).length then
      (((splitSep cap).map jsNumber).getD 2 none, ((splitSep cap).map jsNumber).getD 3 none)
    else (some 800, some 600)
  | none => (some 800, some 600)

/-- The final `width` local of `rasterizeSvgToPng`. -/
def svgWidth (svg : Str) : Option ℚ :=
  match findDim ("width=\x22".data) (svg.length + 1) svg with
  | some q => some q
  | none => (vbDims svg).1

/-- The final `height` local of `rasterizeSvgToPng`. -/
def svgHeight (svg : Str) : Option ℚ :=
  match findDim ("height=\x22".data) (svg.length + 1) svg with
  | some q => some q
  | none => (vbDims svg).2

/-- The dimension plan of `rasterizeSvgToPng` (`none` is `NaN`). -/
structure RasterPlan where
  width : Option ℚ
  height : Option ℚ
  canvasWidth : Option ℤ
  canvasHeight : Option ℤ
deriving Repr, DecidableEq

/-- Base and canvas dimensions computed by `rasterizeSvgToPng` before
drawing: `canvasWidth = Math.round(width * 2)`, likewise for the height. -/
def rasterPlan (svg : Str) : RasterPlan :=
  { width := svgWidth svg
    height := svgHeight svg
    canvasWidth := (svgWidth svg).map (fun w => jsRound (w * 2))
    canvasHeight := (svgHeight svg).map (fun h => jsRound (h * 2)) }

/-- The canvas calls `rasterizeSvgToPng` performs once the image loads. -/
inductive CanvasOp where
  | setSize : Option ℤ → Option ℤ → CanvasOp
  | setFillStyle : Str → CanvasOp
  | fillRect : ℤ → ℤ → Option ℤ → Option ℤ → CanvasOp
  | drawImage : ℤ → ℤ → Option ℤ → Option ℤ → CanvasOp
deriving Repr, DecidableEq

/-- The straight-line canvas trace of `rasterizeSvgToPng`: size the canvas,
set the fill colour to opaque white, fill, then draw. -/
def rasterOps (svg : Str) : List CanvasOp :=
  [CanvasOp.setSize (rasterPlan svg).canvasWidth (rasterPlan svg).canvasHeight,
   CanvasOp.setFillStyle ("#ffffff".data),
   CanvasOp.fillRect 0 0 (rasterPlan svg).canvasWidth (rasterPlan svg).canvasHeight,
   CanvasOp.drawImage 0 0 (rasterPlan svg).canvasWidth (rasterPlan svg).canvasHeight]

/-- The claim's reading of the viewBox: its *numbers*, i.e. the non-empty
tokens of the attribute value interpreted as numbers. -/
def viewBoxNumbers (svg : Str) : List (Option ℚ) :=
  match findViewBox (svg.length + 1) svg with
  | some cap => ((splitSep cap).filter (fun p => p ≠ [])).map jsNumber
  | none => []

/-- An SVG whose viewBox starts with a space. -/
def c7bad : Str := ("<svg viewBox=\x22 0 0 100 50\x22>".data)

/-- Claim C7 counterexample: on `<svg viewBox=" 0 0 100 50">` the third and
fourth numbers of the viewBox are 100 and 50, but the leading space makes
`split(/[\s,]+/)` produce a leading empty part, so the code takes
`parts[2] = "0"` and `parts[3] = "100"` (`Number("") = 0` silently): the base
dimensions come out 0×100, not 100×50. -/
theorem c7_raster_counterexample :
    viewBoxNumbers c7bad = [some 0, some 0, some 100, some 50] ∧
    (rasterPlan c7bad).width = some 0 ∧
    (rasterPlan c7bad).height = some 100 ∧
    ¬ ((rasterPlan c7bad).width = some 100 ∧ (rasterPlan c7bad).height = some 50) := by
  refine ⟨by decide, by decide, by decide, by decide⟩

/-- Claim C7 (amended): the base raster dimensions default to 800×600,
overridden by `parts[2]`/`parts[3]` of the viewBox attribute split on
whitespace-or-comma runs (counting a leading empty part) when at least four
parts are present, overridden again by explicit numeric width/height
attributes (explicit wins over viewBox, viewBox over default); the canvas is
sized to exactly `Math.round(2 × dimension)` and filled with opaque white
(`#ffffff`) before drawing. -/
theorem c7_raster_precedence (svg : Str) :
    (∀ q, findDim ("width=\x22".data) (svg.length + 1) svg = some q →
      (rasterPlan svg).width = some q) ∧
    (∀ q, findDim ("height=\x22".data) (svg.length + 1) svg = some q →
      (rasterPlan svg).height = some q) ∧
    (findDim ("width=\x22".data) (svg.length + 1) svg = none →
      ∀ cap, findViewBox (svg.length + 1) svg = some cap →
        4 ≤ ((splitSep cap).map jsNumber).length →
        (rasterPlan svg).width = ((splitSep cap).map jsNumber).getD 2 none) ∧
    (findDim ("height=\x22".data) (svg.length + 1) svg = none →
      ∀ cap, findViewBox (svg.length + 1) svg = some cap →
        4 ≤ ((splitSep cap).map jsNumber).length →
        (rasterPlan svg).height = ((splitSep cap).map jsNumber).getD 3 none) ∧
    (findDim ("width=\x22".data) (svg.length + 1) svg = none →
      (∀ cap, findViewBox (svg.length + 1) svg = some cap →
        ((splitSep cap).map jsNumber).length < 4) →
      (rasterPlan svg).width = some 800) ∧
    (findDim ("height=\x22".data) (svg.length + 1) svg = none →
      (∀ cap, findViewBox (svg.length + 1) svg = some cap →
        ((splitSep cap).map jsNumber).length < 4) →
      (rasterPlan svg).height = some 600) ∧
    (rasterPlan svg).canvasWidth = (rasterPlan svg).width.map (fun w => jsRound (w * 2)) ∧
    (rasterPlan svg).canvasHeight = (rasterPlan svg).height.map (fun h => jsRound (h * 2)) ∧
    rasterOps svg =
      [CanvasOp.setSize (rasterPlan svg).canvasWidth (rasterPlan svg).canvasHeight,
       CanvasOp.setFillStyle ("#ffffff".data),
       CanvasOp.fillRect 0 0 (rasterPlan svg).canvasWidth (rasterPlan svg).canvasHeight,
       CanvasOp.drawImage 0 0 (rasterPlan svg).canvasWidth (rasterPlan svg).canvasHeight] := by
  refine ⟨?_, ?_, ?_, ?_, ?_, ?_, rfl, rfl, rfl⟩
  · intro q h
    show svgWidth svg = some q
    unfold svgWidth
    rw [h]
  · intro q h
    show svgHeight svg = some q
    unfold svgHeight
    rw [h]
  · intro h cap hcap hlen
    show svgWidth svg = _
    unfold svgWidth
    rw [h]
    show (vbDims svg).1 = _
    unfold vbDims
    rw [hcap]
    simp only [if_pos hlen]
  · intro h cap hcap hlen
    show svgHeight svg = _
    unfold svgHeight
    rw [h]
    show (vbDims svg).2 = _
    unfold vbDims
    rw [hcap]
    simp only [if_pos hlen]
  · intro h hall
    show svgWidth svg = some 800
    unfold svgWidth
    rw [h]
    show (vbDims svg).1 = some 800
    unfold vbDims
    cases hvb : findViewBox (svg.length + 1) svg with
    | none => rfl
    | some cap =>
      simp only []
      rw [if_neg (Nat.not_le.mpr (hall cap hvb))]
  · intro h hall
    show svgHeight svg = some 600
    unfold svgHeight
    rw [h]
    show (vbDims svg).2 = some 600
    unfold vbDims
    cases hvb : findViewBox (svg.length + 1) svg with
    | none => rfl
    | some cap =>
      simp only []
      rw [if_neg (Nat.not_le.mpr (hall cap hvb))]

/-- An SVG with an explicit width attribute and a viewBox. -/
def c7svg : Str := ("<svg width=\x22120\x22 viewBox=\x220 0 10 20\x22>".data)

theorem c7_raster_precedence_witness :
    (rasterPlan c7svg).width = some 120 ∧ (rasterPlan c7svg).height = some 20 :=
  ⟨(c7_raster_precedence c7svg).1 120 (by decide),
   ((c7_raster_precedence c7svg).2.2.2.1 (by decide) ("0 0 10 20".data)
       (by decide) (by decide)).trans (by decide)⟩

/-! ## Claim C8: the docx builder's inline walk (`docx-builder.ts`) -/

/-- Uppercase an ASCII letter (`tagName.toUpperCase()` on the tag names the
walker compares). -/
def asciiUpper (c : Char) : Char :=
  if 'a' ≤ c ∧ c ≤ 'z' then Char.ofNat (c.toNat - 32) else c

/-- `toUpperCase` on a string. -/
def upperStr (s : Str) : Str := s.map asciiUpper

/-- An element's attribute list. -/
abbrev Attr : Type := List (Str × Str)

/-- A DOM node as the walker sees it: a text node with its `textContent`,
an element with tag, attributes and children, or any other node type. -/
inductive HNode where
  | text : Str → HNode
  | elem : Str → Attr → List HNode → HNode
  | other : HNode

/-- `el.getAttribute(name)`. -/
def getAttr (attrs : Attr) (nm : Str) : Option Str :=
  (attrs.find? (fun a => a.1 == nm)).map Prod.snd

/-- `WalkContext` of `docx-builder.ts`. -/
structure WalkCtx where
  bold : Bool
  italic : Bool
  code : Bool
  hyperlink : Option Str
deriving DecidableEq, Repr

/-- `tag === 'STRONG' || tag === 'B'`. -/
def isBoldTag (tag : Str) : Bool :=
  (upperStr tag == ("STRONG".data)) || (upperStr tag == ("B".data))

/-- `tag === 'EM' || tag === 'I'`. -/
def isItalicTag (tag : Str) : Bool :=
  (upperStr tag == ("EM".data)) || (upperStr tag == ("I".data))

/-- `tag === 'CODE'`. -/
def isCodeTag (tag : Str) : Bool := upperStr tag == ("CODE".data)

/-- The hyperlink an element contributes: its `href` when the element is an
`a` with a truthy (non-null, non-empty) `href`, else nothing. -/
def hrefOf (e : Str × Attr) : Option Str :=
  if (upperStr e.1 == ("A".data)) && jsTruthyS (getAttr e.2 ("href".data)) then
    getAttr e.2 ("href".data)
  else none

/-- The `newCtx` update of `walkInlineNodes`. -/
def updCtx (tag : Str) (attrs : Attr) (ctx : WalkCtx) : WalkCtx where
  bold := isBoldTag tag || ctx.bold
  italic := isItalicTag tag || ctx.italic
  code := isCodeTag tag || ctx.code
  hyperlink :=
    match hrefOf (tag, attrs) with
    | some l => some l
    | none => ctx.hyperlink

/-- The natural dimensions the image loader reports. -/
structure FetchRes where
  width : ℚ
  height : ℚ
deriving DecidableEq, Repr

/-- A docx run produced by the inline walk: a text run with its bold,
italics and Courier-New/size-20 code formatting, a break, an image with its
transformation (`none` models `NaN`), the italic `[Image]` fallback, or an
`ExternalHyperlink` wrapping a run. -/
inductive Run where
  | textRun : Str → Bool → Bool → Bool → Run
  | lineBreak : Run
  | imageRun : Option ℚ → Option ℚ → Run
  | imageFallback : Run
  | hyperlink : Run → Str → Run
deriving DecidableEq, Repr

/-- `parseInt(s, 10)`. -/
def jsParseInt (s : Str) : Option ℤ :=
  let t := jsTrim s
  let sr : ℤ × Str :=
    match t with
    | '-' :: r => (-1, r)
    | '+' :: r => (1, r)
    | r => (1, r)
  let ds := sr.2.takeWhile Char.isDigit
  if ds = [] then none else some (sr.1 * (charsVal ds : ℤ))

/-- The `IMG` case of `walkInlineNodes`: fetch, scale to at most 600 wide,
fall back to the italic `[Image]` text run when anything throws. -/
def imgRuns (o : Str → Option FetchRes) (attrs : Attr) : List Run :=
  let src := (getAttr attrs ("src".data)).getD []
  let widthAttr := getAttr attrs ("width".data)
  match o src with
  | none => [Run.imageFallback]
  | some r =>
    let imgWidth : Option ℚ :=
      if jsTruthyS widthAttr then (jsParseInt (widthAttr.getD [])).map (fun z => (z : ℚ))
      else some r.width
    match imgWidth with
    | some w =>
      if 600 < w then
        [Run.imageRun (some 600) (some ((jsRound (r.height * (600 / w)) : ℤ) : ℚ))]
      else [Run.imageRun (some w) (some r.height)]
    | none => [Run.imageRun none (some r.height)]

/-- `walkInlineNodes` of `docx-builder.ts` (fuel-structural; both the walker
and the `leaves` collector below truncate identically at the same fuel). -/
def walkInline (o : Str → Option FetchRes) : Nat → HNode → WalkCtx → List Run
  | 0, _, _ => []
  | _ + 1, HNode.text t, ctx =>
    if t = [] then []
    else
      let run := Run.textRun t ctx.bold ctx.italic ctx.code
      if jsTruthyS ctx.hyperlink then [Run.hyperlink run (ctx.hyperlink.getD [])] else [run]
  | _ + 1, HNode.other, _ => []
  | f + 1, HNode.elem tag attrs cs, ctx =>
    let newCtx := updCtx tag attrs ctx
    if upperStr tag == ("BR".data) then [Run.lineBreak]
    else if upperStr tag == ("IMG".data) then imgRuns o attrs
    else (cs.map (fun c => walkInline o f c newCtx)).flatten

/-- The ancestor stacks: each text leaf paired with the `(tag, attrs)` of
its ancestor elements, innermost first. -/
abbrev Anc : Type := List (Str × Attr)

/-- Collect every text leaf with its ancestor stack. -/
def leaves : Nat → Anc → HNode → List (Str × Anc)
  | 0, _, _ => []
  | _ + 1, anc, HNode.text t => [(t, anc)]
  | _ + 1, _, HNode.other => []
  | f + 1, anc, HNode.elem tag attrs cs =>
    (cs.map (leaves f ((tag, attrs) :: anc))).flatten

/-- The context the claim ascribes to an ancestor stack: a flag is set iff
some ancestor bears the matching tag; the hyperlink is the nearest
ancestor's truthy `href`. -/
def ctxOfAnc (anc : Anc) : WalkCtx where
  bold := anc.any (fun e => isBoldTag e.1)
  italic := anc.any (fun e => isItalicTag e.1)
  code := anc.any (fun e => isCodeTag e.1)
  hyperlink := anc.findSome? hrefOf

/-- The runs the claim predicts for one text leaf under its ancestors. -/
def specRun (t : Str) (anc : Anc) : List Run :=
  if t = [] then []
  else
    let run := Run.textRun t (anc.any (fun e => isBoldTag e.1))
      (anc.any (fun e => isItalicTag e.1)) (anc.any (fun e => isCodeTag e.1))
    match anc.findSome? hrefOf with
    | some l => [Run.hyperlink run l]
    | none => [run]

/-- No `BR` or `IMG` element in the tree (to the given fuel). -/
def noBrImg : Nat → HNode → Bool
  | 0, _ => true
  | _ + 1, HNode.text _ => true
  | _ + 1, HNode.other => true
  | f + 1, HNode.elem tag _ cs =>
    !(upperStr tag == ("BR".data)) && !(upperStr tag == ("IMG".data)) && cs.all (noBrImg f)

theorem findSome_href_ne_nil : ∀ (anc : Anc) (l : Str), anc.findSome? hrefOf = some l → l ≠ [] := by
  intro anc
  induction anc with
  | nil => intro l h; exact absurd h (by simp)
  | cons e es ih =>
    intro l h
    rw [List.findSome?_cons] at h
    cases he : hrefOf e with
    | some v =>
      rw [he] at h
      injection h with h
      subst h
      unfold hrefOf at he
      split_ifs at he with hc
      · have h2 := ((Bool.and_eq_true _ _).mp hc).2
        rw [he] at h2
        intro hnil
        subst hnil
        simp [jsTruthyS] at h2
    | none =>
      rw [he] at h
      exact ih l h

theorem updCtx_anc (tag : Str) (attrs : Attr) (anc : Anc) :
    updCtx tag attrs (ctxOfAnc anc) = ctxOfAnc ((tag, attrs) :: anc) := by
  unfold updCtx ctxOfAnc
  cases hh : hrefOf (tag, attrs) with
  | none => simp [List.any_cons, List.findSome?_cons, hh]
  | some l => simp [List.any_cons, List.findSome?_cons, hh]

theorem walk_leaves_aux (o : Str → Option FetchRes) :
    ∀ f (anc : Anc) (n : HNode), noBrImg f n = true →
      walkInline o f n (ctxOfAnc anc) =
        ((leaves f anc n).map (fun e => specRun e.1 e.2)).flatten := by
  intro f
  induction f with
  | zero => intro anc n _; rfl
  | succ f ih =>
    intro anc n h
    cases n with
    | text t =>
      show (if t = [] then [] else _) = _
      have hlv : leaves (f + 1) anc (HNode.text t) = [(t, anc)] := rfl
      rw [hlv]
      simp only [List.map_cons, List.map_nil, List.flatten_cons, List.flatten_nil, List.append_nil]
      unfold specRun
      by_cases ht : t = []
      · simp [ht]
      · rw [if_neg ht, if_neg ht]
        cases hfs : anc.findSome? hrefOf with
        | none => simp [ctxOfAnc, hfs, jsTruthyS]
        | some l =>
          have hne := findSome_href_ne_nil anc l hfs
          simp [ctxOfAnc, hfs, jsTruthyS, hne]
    | other => rfl
    | elem tag attrs cs =>
      have h' : (!(upperStr tag == ("BR".data)) && !(upperStr tag == ("IMG".data)) &&
          cs.all (noBrImg f)) = true := h
      simp only [Bool.and_eq_true, Bool.not_eq_true'] at h'
      obtain ⟨⟨hBR, hIMG⟩, hall⟩ := h'
      show (if upperStr tag == ("BR".data) then _
        else if upperStr tag == ("IMG".data) then _ else _) = _
      rw [if_neg (by simp [hBR]), if_neg (by simp [hIMG]), updCtx_anc]
      have hlv : leaves (f + 1) anc (HNode.elem tag attrs cs) =
          (cs.map (leaves f ((tag, attrs) :: anc))).flatten := rfl
      rw [hlv]
      clear hlv h
      revert hall
      induction cs with
      | nil => intro _; rfl
      | cons c cs ihc =>
        intro hall
        rw [List.all_cons, Bool.and_eq_true] at hall
        simp only [List.map_cons, List.flatten_cons, List.map_append, List.flatten_append]
        rw [ih ((tag, attrs) :: anc) c hall.1]
        rw [ihc hall.2]

/-- An oracle for the image loader (unused by text-only trees). -/
def c8o : Str → Option FetchRes := fun _ => none

/-- Claim C8 counterexample: under `<a href="">` the walker produces a bare,
unlinked text run although an ancestor `a` element with an href exists (the
empty href is falsy, so the context never records it); and the empty text
node produces no run at all rather than a text run. -/
theorem c8_inline_counterexample :
    walkInline c8o 3 (HNode.elem ("a".data) [(("href".data), [])] [HNode.text ("x".data)])
      ⟨false, false, false, none⟩ = [Run.textRun ("x".data) false false false] ∧
    getAttr [(("href".data), [])] ("href".data) = some [] ∧
    walkInline c8o 3 (HNode.text []) ⟨false, false, false, none⟩ = [] := by
  refine ⟨by decide, by decide, by decide⟩

/-- Claim C8 (amended): in a block without `br`/`img` elements, the inline
walk turns every *non-empty* text node into exactly one text run whose bold
flag is set iff some ancestor element is strong/b, italic iff some ancestor
is em/i, monospace iff some ancestor is code, wrapped in a hyperlink iff
some ancestor is an `a` element with a *non-empty* href, targeting the
nearest such ancestor's href; empty text nodes produce nothing. -/
theorem c8_inline_walk (o : Str → Option FetchRes) (f : Nat) (n : HNode)
    (h : noBrImg f n = true) :
    walkInline o f n ⟨false, false, false, none⟩ =
      ((leaves f [] n).map (fun e => specRun e.1 e.2)).flatten :=
  walk_leaves_aux o f [] n h

/-- A block with plain, italic and linked text. -/
def c8doc : HNode :=
  HNode.elem ("b".data) []
    [HNode.text ("x".data),
     HNode.elem ("em".data) [] [HNode.text ("y".data)],
     HNode.elem ("a".data) [(("href".data), ("u".data))] [HNode.text ("z".data)]]

theorem c8_inline_walk_witness :
    noBrImg 4 c8doc = true ∧
    walkInline c8o 4 c8doc ⟨false, false, false, none⟩ =
      [Run.textRun ("x".data) true false false,
       Run.textRun ("y".data) true true false,
       Run.hyperlink (Run.textRun ("z".data) true false false) ("u".data)] :=
  ⟨by decide, (c8_inline_walk c8o 4 c8doc (by decide)).trans (by decide)⟩

/-! ## Claim C9: the table-of-contents generator (`toc.ts`) -/

/-- A TOC entry (`TocEntry` of `toc.ts`). -/
structure TocEntry where
  level : Nat
  text : Str
  id : Str
deriving Repr, DecidableEq

/-- The `h` of a heading tag, matched case-insensitively (`i` flag). -/
def isHChar (c : Char) : Bool := c = 'h' || c = 'H'

/-- Heading level digit `[1-6]`. -/
def isH16 (c : Char) : Bool := '1' ≤ c && c ≤ '6'

/-- Scan for the first occurrence of the closing tag `</h{d}>` (with the `h`
case-insensitive), returning the content before it and the rest after it:
the lazy `([\s\S]*?)` of the heading regex. -/
def findCloseTag (d : Char) : Nat → Str → Option (Str × Str)
  | 0, _ => none
  | _ + 1, [] => none
  | f + 1, c :: cs =>
    match c :: cs with
    | '<' :: '/' :: c2 :: d2 :: '>' :: rest =>
      if isHChar c2 && d2 = d then some ([], rest)
      else match findCloseTag d f cs with
        | some (content, r) => some (c :: content, r)
        | none => none
    | _ =>
      match findCloseTag d f cs with
      | some (content, r) => some (c :: content, r)
      | none => none

/-- Try to match `<h([1-6])(?:[^>]*)>([\s\S]*?)<\/h\1>` at the start of `s`
(`i` flag on the `h`s).  Returns the matched text, the level digit, the
captured content, and the rest of the string after the match. -/
def matchHeadingAt (s : Str) : Option (Str × Char × Str × Str) :=
  match s with
  | c0 :: c1 :: d :: rest =>
    if c0 = '<' && isHChar c1 && isH16 d then
      let attrs := rest.takeWhile (fun x => x != '>')
      match rest.drop attrs.length with
      | '>' :: rest2 =>
        match findCloseTag d (rest2.length + 1) rest2 with
        | some (content, rest3) => some (s.take (s.length - rest3.length), d, content, rest3)
        | none => none
      | _ => none
    else none
  | _ => none

/-- Leftmost heading match: the prefix before the match, the matched text,
the level digit, the content capture, and the rest after the match. -/
def findHeading : Nat → Str → Option (Str × Str × Char × Str × Str)
  | 0, _ => none
  | _ + 1, [] => none
  | f + 1, c :: cs =>
    match matchHeadingAt (c :: cs) with
    | some (m, d, content, rest) => some ([], m, d, content, rest)
    | none =>
      match findHeading f cs with
      | some (pre, m, d, content, rest) => some (c :: pre, m, d, content, rest)
      | none => none

/-- `content.replace(/<[^>]*>/g, '')` — strip HTML tags. -/
def stripTags : Nat → Str → Str
  | 0, _ => []
  | _ + 1, [] => []
  | f + 1, c :: cs =>
    if c = '<' then
      let inner := cs.takeWhile (fun x => x != '>')
      match cs.drop inner.length with
      | '>' :: rest => stripTags f rest
      | _ => c :: stripTags f cs
    else c :: stripTags f cs

/-- The plain text of a heading: tags stripped, then trimmed. -/
def hText (content : Str) : Str := jsTrim (stripTags (content.length + 1) content)

/-- Characters kept verbatim by the slug replacement `[^a-z0-9]+` → `-`. -/
def isSlugOk (c : Char) : Bool := ('a' ≤ c && c ≤ 'z') || ('0' ≤ c && c ≤ '9')

/-- `replace(/[^a-z0-9]+/g, '-')`: each maximal run of non-alphanumerics
becomes a single dash. -/
def slugRuns : Nat → Str → Str
  | 0, _ => []
  | _ + 1, [] => []
  | f + 1, c :: cs =>
    if isSlugOk c then c :: slugRuns f cs
    else '-' :: slugRuns f (cs.dropWhile (fun x => !isSlugOk x))

/-- `replace(/^-|-$/g, '')`: drop one leading and one trailing dash. -/
def stripEdgeDashes (s : Str) : Str :=
  let s1 := match s with
    | '-' :: t => t
    | _ => s
  if s1.getLast? = some '-' then s1.dropLast else s1

/-- The URL-safe slug of a heading text (the case mapping is ASCII
`toLowerCase`, as the source only feeds it ASCII-insensitive ids). -/
def slugOf (text : Str) : Str :=
  (stripEdgeDashes (slugRuns (text.length + 1) (lowerStr text))).take 50

/-- The generated anchor id `toc-{counter}-{slug}`. -/
def tocId (counter : Nat) (text : Str) : Str :=
  ("toc-".data) ++ natChars counter ++ ('-' :: slugOf text)

/-- The `while ((match = headingRegex.exec(html)) !== null)` loop of
`parseHeadings`: empty-text headings are skipped without consuming a
counter value. -/
def parseHeadingsGo : Nat → Nat → Str → List TocEntry
  | 0, _, _ => []
  | f + 1, counter, s =>
    match findHeading (s.length + 1) s with
    | none => []
    | some (_, _, d, content, rest) =>
      let text := hText content
      if text = [] then parseHeadingsGo f counter rest
      else ⟨d.toNat - 48, text, tocId (counter + 1) text⟩ ::
        parseHeadingsGo f (counter + 1) rest

/-- `parseHeadings` of `toc.ts`. -/
def parseHeadings (html : Str) : List TocEntry :=
  parseHeadingsGo (html.length + 1) 0 html

/-- `lines.join('\n')`. -/
def joinNL (ls : List Str) : Str :=
  match ls with
  | [] => []
  | l :: rest => rest.foldl (fun acc x => acc ++ '\n' :: x) l

/-- `Math.min(...entries.map(e => e.level))` (callers guard emptiness). -/
def minLevel (entries : List TocEntry) : Nat :=
  match entries.map TocEntry.level with
  | [] => 0
  | l :: ls => ls.foldl Nat.min l

/-- One `<li>` line of the TOC. -/
def tocLine (m : Nat) (e : TocEntry) : Str :=
  ("<li style=\x22padding-left:".data) ++ natChars ((e.level - m) * 20) ++
  ("px;margin:4px 0;\x22><a href=\x22#".data) ++ e.id ++
  ("\x22 style=\x22text-decoration:none;color:#1a73e8;\x22>".data) ++ e.text ++
  ("</a></li>".data)

/-- `buildTocHtml` of `toc.ts`. -/
def buildTocHtml (entries : List TocEntry) : Str :=
  match entries with
  | [] => []
  | _ =>
    joinNL
      ([("<div style=\x22margin:20px 0;padding:16px;background:#f8f9fa;border-radius:4px;\x22>".data),
        ("<p style=\x22margin:0 0 8px 0;font-weight:bold;\x22>Table of Contents</p>".data),
        ("<ul style=\x22list-style-type:none;padding-left:0;margin:0;\x22>".data)] ++
       entries.map (tocLine (minLevel entries)) ++
       [("</ul>".data), ("</div>".data)])

/-- The callback replacement of `addTableOfContents`: rewrite each heading
whose stripped text is non-empty to `<h{d} id="{id}">{content}</h{d}>`,
consuming ids positionally; other matches stay verbatim. -/
def injectIds : Nat → List TocEntry → Str → Str
  | 0, _, _ => []
  | f + 1, entries, s =>
    match findHeading (s.length + 1) s with
    | none => s
    | some (pre, m, d, content, rest) =>
      match entries with
      | [] => pre ++ m ++ injectIds f [] rest
      | e :: es =>
        if hText content = [] then pre ++ m ++ injectIds f (e :: es) rest
        else pre ++ ("<h".data) ++ [d] ++ (" id=\x22".data) ++ e.id ++ ("\x22>".data) ++
          content ++ ("</h".data) ++ [d] ++ ('>' :: injectIds f es rest)

/-- `addTableOfContents` of `toc.ts`: inject ids, then insert the TOC block
after the first literal `</h1>` (case-sensitive `indexOf`), else prepend. -/
def addTableOfContents (html : Str) : Str :=
  match parseHeadings html with
  | [] => html
  | e :: es =>
    let result := injectIds (html.length + 1) (e :: es) html
    let tocHtml := buildTocHtml (e :: es)
    match splitFirst ("</h1>".data) result with
    | some (pre, post) =>
      pre ++ ("</h1>".data) ++ '\n' :: tocHtml ++ '\n' :: post
    | none => tocHtml ++ '\n' :: result

/-- Claim C9: on the input `<h1>A</h1><h2>B</h2>` the parser yields exactly
two entries with ids `toc-1-a` and `toc-2-b`, and `addTableOfContents`
injects those ids onto the two headings and inserts after the first `</h1>`
a TOC whose two links target exactly those ids, indented 0px and 20px
relative to the minimum heading level. -/
theorem c9_toc_example :
    parseHeadings (("<h1>A</h1><h2>B</h2>").data) =
      [⟨1, ("A".data), ("toc-1-a".data)⟩, ⟨2, ("B".data), ("toc-2-b".data)⟩] ∧
    addTableOfContents (("<h1>A</h1><h2>B</h2>").data) =
      (("<h1 id=\x22toc-1-a\x22>A</h1>\n" ++
        "<div style=\x22margin:20px 0;padding:16px;background:#f8f9fa;border-radius:4px;\x22>\n" ++
        "<p style=\x22margin:0 0 8px 0;font-weight:bold;\x22>Table of Contents</p>\n" ++
        "<ul style=\x22list-style-type:none;padding-left:0;margin:0;\x22>\n" ++
        "<li style=\x22padding-left:0px;margin:4px 0;\x22>" ++
        "<a href=\x22#toc-1-a\x22 style=\x22text-decoration:none;color:#1a73e8;\x22>A</a></li>\n" ++
        "<li style=\x22padding-left:20px;margin:4px 0;\x22>" ++
        "<a href=\x22#toc-2-b\x22 style=\x22text-decoration:none;color:#1a73e8;\x22>B</a></li>\n" ++
        "</ul>\n</div>\n<h2 id=\x22toc-2-b\x22>B</h2>").data) := by
  refine ⟨by decide, by decide⟩

/-! ## Claim C10: `htmlToDocx` (`docx-builder.ts`) -/

/-- A docx block (`Paragraph | Table`), keeping the structure and text the
converter emits; purely visual options (borders, shading, spacing,
alignment) are not recorded. -/
inductive Block where
  | heading : Nat → List Run → Block
  | para : List Run → Block
  | codeLine : Str → Block
  | quotePara : Str → Block
  | table : List (Bool × List Str) → Block
  | bullet : Str → Block
  | numbered : Str → Block
  | imagePara : Option ℚ → Option ℚ → Block
  | hrPara : Block
deriving DecidableEq, Repr

/-- `node.textContent`: the concatenated text data of all descendants. -/
def textContent : Nat → HNode → Str
  | 0, _ => []
  | _ + 1, HNode.text t => t
  | _ + 1, HNode.other => []
  | f + 1, HNode.elem _ _ cs => (cs.map (textContent f)).flatten

/-- Element test. -/
def isElem : HNode → Bool
  | HNode.elem _ _ _ => true
  | _ => false

/-- The upper-cased tag of an element (empty for non-elements). -/
def tagOf : HNode → Str
  | HNode.elem t _ _ => upperStr t
  | _ => []

/-- `el.children`: the element children. -/
def childElems : HNode → List HNode
  | HNode.elem _ _ cs => cs.filter isElem
  | _ => []

/-- `el.querySelectorAll(sel)` for a tag predicate: the matching descendant
elements in document (pre-)order, excluding `el` itself. -/
def descElems (p : HNode → Bool) : Nat → HNode → List HNode
  | 0, _ => []
  | f + 1, HNode.elem _ _ cs =>
    (cs.map (fun c => (if isElem c && p c then [c] else []) ++ descElems p f c)).flatten
  | _ + 1, _ => []

/-- `el.querySelector(sel) !== null`. -/
def hasDesc (p : HNode → Bool) (f : Nat) (n : HNode) : Bool :=
  !(descElems p f n).isEmpty

/-- `containsLatex` of `docx-builder.ts`: the text contains a `\( \)` or a
`\[ \]` pair in order. -/
def containsLatex (text : Str) : Bool :=
  (match splitFirst ("\\(".data) text with
   | some r => (splitFirst ("\\)".data) r.2).isSome
   | none => false) ||
  (match splitFirst ("\\[".data) text with
   | some r => (splitFirst ("\\]".data) r.2).isSome
   | none => false)

/-- Match `\\\([\s\S]*?\\\)|\\\[[\s\S]*?\\\]` at the start of `s`. -/
def matchLatexAt (s : Str) : Option (Str × Str) :=
  if ("\\(".data).isPrefixOf s then
    match splitFirst ("\\)".data) (s.drop 2) with
    | some r => some (("\\(".data) ++ r.1 ++ ("\\)".data), r.2)
    | none => none
  else if ("\\[".data).isPrefixOf s then
    match splitFirst ("\\]".data) (s.drop 2) with
    | some r => some (("\\[".data) ++ r.1 ++ ("\\]".data), r.2)
    | none => none
  else none

/-- Leftmost delimiter match: prefix, matched text, rest. -/
def findLatex : Nat → Str → Option (Str × Str × Str)
  | 0, _ => none
  | _ + 1, [] => none
  | f + 1, c :: cs =>
    match matchLatexAt (c :: cs) with
    | some (m, rest) => some ([], m, rest)
    | none =>
      match findLatex f cs with
      | some (pre, m, rest) => some (c :: pre, m, rest)
      | none => none

/-- `text.split(/(\\\(...\\\)|\\\[...\\\])/)`: split keeping the captured
delimited pieces (empty parts included, as in JS). -/
def splitKeepLatex : Nat → Str → List Str
  | 0, _ => []
  | f + 1, s =>
    match findLatex (s.length + 1) s with
    | none => [s]
    | some (pre, m, rest) => pre :: m :: splitKeepLatex f rest

/-- `^\\\[([\s\S]*?)\\\]$`. -/
def dispTest (part : Str) : Bool :=
  ("\\[".data).isPrefixOf part && ("\\]".data).isSuffixOf part && 4 ≤ part.length

/-- `^\\\(([\s\S]*?)\\\)$`. -/
def inlTest (part : Str) : Bool :=
  ("\\(".data).isPrefixOf part && ("\\)".data).isSuffixOf part && 4 ≤ part.length

/-- The capture between the two-character delimiters. -/
def latexMid (part : Str) : Str := (part.drop 2).take (part.length - 4)

/-- One part of `processLatexInText`: a rendered LaTeX image run capped at
500/300 wide, the italic plain-text fallback when rendering throws, or a
plain text run. -/
def partRuns (lo : Str → Bool → Option (ℚ × ℚ)) (ctx : WalkCtx) (part : Str) : List Run :=
  if part = [] then []
  else if dispTest part then
    match lo (latexMid part) true with
    | some wh => [Run.imageRun (some (min wh.1 500)) (some wh.2)]
    | none => [Run.textRun (latexMid part) false true false]
  else if inlTest part then
    match lo (latexMid part) false with
    | some wh => [Run.imageRun (some (min wh.1 300)) (some wh.2)]
    | none => [Run.textRun (latexMid part) false true false]
  else [Run.textRun part ctx.bold ctx.italic ctx.code]

/-- `processLatexInText` of `docx-builder.ts` (`lo` renders LaTeX to a PNG
with its dimensions; `none` models a throw). -/
def processLatexInText (lo : Str → Bool → Option (ℚ × ℚ)) (text : Str) (ctx : WalkCtx) :
    List Run :=
  ((splitKeepLatex (text.length + 1) text).map (partRuns lo ctx)).flatten

/-- `HEADING_MAP`: H1..H6. -/
def headIdx (T : Str) : Option Nat :=
  if T = ("H1".data) then some 1
  else if T = ("H2".data) then some 2
  else if T = ("H3".data) then some 3
  else if T = ("H4".data) then some 4
  else if T = ("H5".data) then some 5
  else if T = ("H6".data) then some 6
  else none

/-- Headings keep `TextRun`s and `ImageRun`s and drop hyperlink wrappers. -/
def keepHeadRun : Run → Bool
  | Run.hyperlink _ _ => false
  | _ => true

/-- `codeText.split('\n')`. -/
def splitNL : Str → List Str
  | [] => [[]]
  | c :: cs =>
    if c = '\n' then [] :: splitNL cs
    else
      match splitNL cs with
      | p :: ps => (c :: p) :: ps
      | [] => [[c]]

/-- The standalone `IMG` block: fetch and scale to at most 550 wide, the
italic `[Image]` paragraph when anything throws. -/
def imgBlock (o : Str → Option FetchRes) (attrs : Attr) : List Block :=
  let src := (getAttr attrs ("src".data)).getD []
  let widthAttr := getAttr attrs ("width".data)
  match o src with
  | none => [Block.para [Run.textRun ("[Image]".data) false true false]]
  | some r =>
    let imgWidth : Option ℚ :=
      if jsTruthyS widthAttr then (jsParseInt (widthAttr.getD [])).map (fun z => (z : ℚ))
      else some r.width
    match imgWidth with
    | some w =>
      if 550 < w then
        [Block.imagePara (some 550) (some ((jsRound (r.height * (550 / w)) : ℤ) : ℚ))]
      else [Block.imagePara (some w) (some r.height)]
    | none => [Block.imagePara none (some r.height)]

/-- `convertBlockElement` of `docx-builder.ts` (fuel-structural: the fuel
bounds the block-nesting depth). -/
def convertBlock (o : Str → Option FetchRes) (lo : Str → Bool → Option (ℚ × ℚ)) :
    Nat → HNode → List Block
  | 0, _ => []
  | f + 1, el =>
    let T := tagOf el
    let text := textContent (f + 1) el
    if (headIdx T).isSome then
      let children :=
        if containsLatex text then processLatexInText lo text ⟨false, false, false, none⟩
        else (walkInline o (f + 1) el ⟨false, false, false, none⟩).filter keepHeadRun
      [Block.heading ((headIdx T).getD 1)
        (if 0 < children.length then children else [Run.textRun text false false false])]
    else if T = ("P".data) then
      if (jsTrim text).isEmpty && !hasDesc (fun c => tagOf c == ("IMG".data)) (f + 1) el then []
      else if containsLatex text then
        [Block.para (processLatexInText lo text ⟨false, false, false, none⟩)]
      else [Block.para (walkInline o (f + 1) el ⟨false, false, false, none⟩)]
    else if T = ("PRE".data) then
      (splitNL text).map (fun line => Block.codeLine (if line = [] then (" ".data) else line))
    else if T = ("BLOCKQUOTE".data) then
      let paras := ((childElems el).map (fun child =>
        (convertBlock o lo f child).map (fun p =>
          match p with
          | Block.table rows => Block.table rows
          | _ => Block.quotePara (textContent (f + 1) child)))).flatten
      if paras.isEmpty then [Block.quotePara text] else paras
    else if T = ("TABLE".data) then
      let trs := descElems (fun c => tagOf c == ("TR".data)) (f + 1) el
      let rows := trs.filterMap (fun tr =>
        let tds := descElems
          (fun c => tagOf c == ("TH".data) || tagOf c == ("TD".data)) (f + 1) tr
        if tds.isEmpty then none
        else some (hasDesc (fun c => tagOf c == ("TH".data)) (f + 1) tr,
          tds.map (fun td => textContent (f + 1) td)))
      if rows.isEmpty then [] else [Block.table rows]
    else if T = ("UL".data) then
      ((childElems el).filter (fun c => tagOf c == ("LI".data))).map
        (fun li => Block.bullet (textContent (f + 1) li))
    else if T = ("OL".data) then
      ((childElems el).filter (fun c => tagOf c == ("LI".data))).map
        (fun li => Block.numbered (textContent (f + 1) li))
    else if T = ("IMG".data) then
      match el with
      | HNode.elem _ attrs _ => imgBlock o attrs
      | _ => []
    else if T = ("HR".data) then [Block.hrPara]
    else if T = ("DIV".data) ∨ T = ("SECTION".data) ∨ T = ("ARTICLE".data) ∨
        T = ("MAIN".data) then
      ((childElems el).map (convertBlock o lo f)).flatten
    else if !(jsTrim text).isEmpty then [Block.para [Run.textRun text false false false]]
    else []

/-- The placeholder paragraph `new Paragraph({children: [new TextRun('(empty
document)')]})`. -/
def emptyDocPara : Block := Block.para [Run.textRun ("(empty document)".data) false false false]

/-- The section children `htmlToDocx` builds from the body's element
children: the converted blocks, or the placeholder when none result. -/
def htmlToDocxBlocks (o : Str → Option FetchRes) (lo : Str → Bool → Option (ℚ × ℚ))
    (f : Nat) (body : List HNode) : List Block :=
  let children := ((body.filter isElem).map (convertBlock o lo f)).flatten
  if children.isEmpty then [emptyDocPara] else children

/-- Claim C10: `htmlToDocx` never produces a document with zero blocks: the
section children are never empty, and whenever the body's element children
convert to no blocks at all, the document contains exactly one paragraph
whose text is `(empty document)`. -/
theorem c10_empty_document (o : Str → Option FetchRes) (lo : Str → Bool → Option (ℚ × ℚ))
    (f : Nat) (body : List HNode) :
    htmlToDocxBlocks o lo f body ≠ [] ∧
    (((body.filter isElem).map (convertBlock o lo f)).flatten = [] →
      htmlToDocxBlocks o lo f body = [emptyDocPara]) := by
  constructor
  · unfold htmlToDocxBlocks
    cases h : ((body.filter isElem).map (convertBlock o lo f)).flatten with
    | nil => simp [h]
    | cons b bs => simp [h]
  · intro h
    unfold htmlToDocxBlocks
    simp [h]

/-- A body holding one paragraph that is blank apart from whitespace. -/
def c10body : List HNode :=
  [HNode.elem ("p".data) [] [HNode.text (" ".data)], HNode.text ("loose".data)]

theorem c10_empty_document_witness :
    htmlToDocxBlocks c8o (fun _ _ => none) 3 c10body ≠ [] ∧
    htmlToDocxBlocks c8o (fun _ _ => none) 3 c10body = [emptyDocPara] :=
  ⟨(c10_empty_document c8o (fun _ _ => none) 3 c10body).1,
   (c10_empty_document c8o (fun _ _ => none) 3 c10body).2 (by decide)⟩

end PubGD
